import Mathlib

/-!
# Directed graph with all-pairs shortest distances (Floyd-Warshall)

A shallow embedding of `main.go`.  The Go program stores a weighted adjacency
matrix of `float64` cells, `math.Inf(1)` standing for "no edge".  Slices are lists,
an index out of range (a Go run-time failure) is the result `none`, and the methods
with a pointer receiver return the new graph.  The vertex count is a natural number:
`NewGraph` with a negative count fails in `make`.

The code is embedded at three levels of detail.

* Exact weights: a cell is a number extended by `⊤`, the type `WithTop α` for a
  linearly ordered additive group `α`, with `⊤ + x = ⊤` and `⊤ < ⊤` false, as for
  `+Inf`.  It serves the properties that rest on the order of the cells or on no
  arithmetic at all.
* Rows in a heap: it serves the property that the queries do not write to the stored
  matrix.
* `float64` cells: `+` is the addition of IEEE 754 binary64, with rounding, overflow,
  `-Inf` and `NaN`.  It serves the properties that rest on the value of a sum.
-/

set_option linter.unusedSectionVars false

namespace DirectedGraph

variable {α : Type} [LinearOrderedAddCommGroup α]

/-! ## The program -/

/-- The struct `Graph`: a vertex count and the adjacency matrix of weights. -/
structure Graph (α : Type) where
  vertices : Nat
  edges : List (List (WithTop α))
deriving DecidableEq

/-- The function `NewGraph`: zero on the diagonal, `+Inf` everywhere else. -/
def NewGraph (vertices : Nat) : Graph α :=
  Graph.mk vertices
    ((List.range vertices).map fun i =>
      (List.range vertices).map fun j => if i = j then (0 : WithTop α) else ⊤)

/-- The read `m[i][j]`; `none` when a row or a cell is out of range. -/
def getCell (m : List (List (WithTop α))) (i j : Nat) : Option (WithTop α) :=
  match m[i]? with
  | none => none
  | some row => row[j]?

/-- The write `m[i][j] = w`; `none` when a row or a cell is out of range. -/
def setCell (m : List (List (WithTop α))) (i j : Nat) (w : WithTop α) :
    Option (List (List (WithTop α))) :=
  match m[i]? with
  | none => none
  | some row => if j < row.length then some (m.set i (row.set j w)) else none

/-- The method `AddEdge`: writes the cell when both indices pass the guard, and does
nothing otherwise. -/
def AddEdge (g : Graph α) (u v : Int) (weight : WithTop α) : Option (Graph α) :=
  if u ≥ 0 ∧ u < g.vertices ∧ v ≥ 0 ∧ v < g.vertices then
    (setCell g.edges u.toNat v.toNat weight).map (Graph.mk g.vertices)
  else some g

/-- One row of the working copy: `make([]float64, n)` followed by `copy(dst, src)`. -/
def copyRow (n : Nat) (src : List (WithTop α)) : List (WithTop α) :=
  src.take n ++ List.replicate (n - src.length) 0

/-- The working copy `dist` made at the start of `ShortestPath`. -/
def copyMatrix (g : Graph α) : Option (List (List (WithTop α))) :=
  (List.range g.vertices).mapM fun i => (g.edges[i]?).map (copyRow g.vertices)

/-- The body of the innermost loop: the relaxation of the cell `(i, j)` through `k`. -/
def relax (k i j : Nat) (dist : List (List (WithTop α))) :
    Option (List (List (WithTop α))) :=
  (getCell dist i k).bind fun a =>
  (getCell dist k j).bind fun b =>
  (getCell dist i j).bind fun c =>
  if a + b < c then setCell dist i j (a + b) else some dist

/-- The loop over `j`. -/
def loopJ (n k i : Nat) (dist : List (List (WithTop α))) :
    Option (List (List (WithTop α))) :=
  (List.range n).foldlM (fun d j => relax k i j d) dist

/-- The loop over `i`. -/
def loopI (n k : Nat) (dist : List (List (WithTop α))) :
    Option (List (List (WithTop α))) :=
  (List.range n).foldlM (fun d i => loopJ n k i d) dist

/-- The loop over `k`, the outermost one. -/
def loopK (n : Nat) (dist : List (List (WithTop α))) :
    Option (List (List (WithTop α))) :=
  (List.range n).foldlM (fun d k => loopI n k d) dist

/-- The method `ShortestPath`: copy the matrix, then run the three nested loops. -/
def ShortestPath (g : Graph α) : Option (List (List (WithTop α))) :=
  (copyMatrix g).bind (loopK g.vertices)

/-- The method `GetShortestDistance` (the parameter `end` is called `stop`). -/
def GetShortestDistance (g : Graph α) (start stop : Int) : Option (WithTop α) :=
  if start < 0 ∨ start ≥ g.vertices ∨ stop < 0 ∨ stop ≥ g.vertices then some ⊤
  else (ShortestPath g).bind fun allDistances => getCell allDistances start.toNat stop.toNat

/-- A graph built as in `main`: `NewGraph n` followed by the `AddEdge` calls of `ops`,
each call given as (source, target, weight). -/
def build (n : Nat) (ops : List (Int × Int × WithTop α)) : Option (Graph α) :=
  ops.foldlM (fun g op => AddEdge g op.1 op.2.1 op.2.2) (NewGraph n)

/-- The calls of `ops` seen as calls with a weight of `WithTop α`; their weights are finite. -/
def finiteOps (ops : List (Int × Int × α)) : List (Int × Int × WithTop α) :=
  ops.map fun op => (op.1, op.2.1, (op.2.2 : WithTop α))

/-! ## Notions of the specification -/

/-- A matrix with exactly `n` rows, each of length `n`. -/
def Shaped (n : Nat) (m : List (List (WithTop α))) : Prop :=
  m.length = n ∧ ∀ row ∈ m, row.length = n

/-- A graph whose matrix is `vertices × vertices`. -/
def Graph.WF (g : Graph α) : Prop := Shaped g.vertices g.edges

/-- The matrix as a total function, `⊤` outside the matrix. -/
def cellFn (m : List (List (WithTop α))) (i j : Nat) : WithTop α :=
  (getCell m i j).getD ⊤

/-- The weight of the last call of `ops` whose (source, target) is `(i, j)`, if any. -/
def lastWrite (ops : List (Int × Int × WithTop α)) (i j : Nat) : Option (WithTop α) :=
  (ops.reverse.find? fun op => decide (op.1 = (i : Int) ∧ op.2.1 = (j : Int))).map
    fun op => op.2.2

/-- The cell `(i, j)` of a fresh graph. -/
def initCell (i j : Nat) : WithTop α := if i = j then 0 else ⊤

/-- The relaxation of the cell `(i, j)` through `k` on a matrix seen as a total function:
the counterpart of `relax` used to reason about the loops. -/
def relaxF (k i j : Nat) (d : Nat → Nat → WithTop α) : Nat → Nat → WithTop α :=
  if d i k + d k j < d i j then
    fun a b => if a = i ∧ b = j then d i k + d k j else d a b
  else d

/-- The loop over `j` on total functions. -/
def loopJF (n k i : Nat) (d : Nat → Nat → WithTop α) : Nat → Nat → WithTop α :=
  (List.range n).foldl (fun d j => relaxF k i j d) d

/-- The loop over `i` on total functions. -/
def loopIF (n k : Nat) (d : Nat → Nat → WithTop α) : Nat → Nat → WithTop α :=
  (List.range n).foldl (fun d i => loopJF n k i d) d

/-- The loop over `k` on total functions. -/
def loopKF (n : Nat) (d : Nat → Nat → WithTop α) : Nat → Nat → WithTop α :=
  (List.range n).foldl (fun d k => loopIF n k d) d

/-- Total weight of the walk `a, l₀, l₁, ..., b` with intermediate vertices `l`, over the
cells `e`; it has at least one step. -/
def walkWeight (e : Nat → Nat → WithTop α) : Nat → Nat → List Nat → WithTop α
  | a, b, [] => e a b
  | a, b, v :: l => e a v + walkWeight e v b l

/-- Total weight of the vertex sequence `p` over the cells `e`: the sum of the cells of
its consecutive pairs, `0` for a single vertex (the empty path). -/
def pathWeightF (e : Nat → Nat → WithTop α) : List Nat → WithTop α
  | [] => 0
  | [_] => 0
  | u :: v :: rest => e u v + pathWeightF e (v :: rest)

/-- Total weight of the vertex sequence `p` in the graph `g`, a missing edge counting `⊤`. -/
def pathWeight (g : Graph α) (p : List Nat) : WithTop α :=
  pathWeightF (cellFn g.edges) p

/-- The sequence `p` of vertices smaller than `n` starts at `i` and ends at `j`. -/
def IsRoute (n i j : Nat) (p : List Nat) : Prop :=
  p.head? = some i ∧ p.getLast? = some j ∧ ∀ v ∈ p, v < n

/-- A directed path of `g` from `i` to `j`: consecutive vertices are distinct and joined
by a stored edge (a cell other than `⊤`).  The single vertex `[i]` is the empty path. -/
def IsPath (g : Graph α) (i j : Nat) (p : List Nat) : Prop :=
  IsRoute g.vertices i j p ∧ p.Chain' fun (u v : Nat) => u ≠ v ∧ cellFn g.edges u v ≠ ⊤

/-- No directed cycle of negative total weight: every cycle `v, l₀, l₁, ..., v` through
pairwise distinct vertices has a total weight of at least `0`.  For empty `l` the cycle is
the stored diagonal cell `(v, v)`; a cycle through a missing edge weighs `⊤`. -/
def NoNegCycle (g : Graph α) : Prop :=
  ∀ (v : Nat) (l : List Nat), (v :: l).Nodup → (∀ u ∈ v :: l, u < g.vertices) →
    0 ≤ pathWeight g (v :: (l ++ [v]))

/-- A directed path from `i` to `j` along edges inserted by the calls `ops`. -/
def IsInsertedPath (n : Nat) (ops : List (Int × Int × α)) (i j : Nat) (p : List Nat) :
    Prop :=
  IsRoute n i j p ∧
    p.Chain' fun (u v : Nat) => ∃ op ∈ ops, op.1 = (u : Int) ∧ op.2.1 = (v : Int)

/-- The outer loop of `ShortestPath` stopped after its first `m` rounds, those for
`k = 0, ..., m - 1`; `rounds n n` is `loopK n`. -/
def rounds (n m : Nat) (dist : List (List (WithTop α))) :
    Option (List (List (WithTop α))) :=
  (List.range m).foldlM (fun d k => loopI n k d) dist

/-- The first `m` rounds of the outer loop on total functions. -/
def roundsF (n m : Nat) (d : Nat → Nat → WithTop α) : Nat → Nat → WithTop α :=
  (List.range m).foldl (fun d k => loopIF n k d) d

/-- The textbook layered recurrence of Floyd and Warshall, every layer computed from the
previous one: `d_m[i][j] = min(d_{m-1}[i][j], d_{m-1}[i][m-1] + d_{m-1}[m-1][j])`. -/
def layer (e : Nat → Nat → WithTop α) : Nat → Nat → Nat → WithTop α
  | 0, i, j => e i j
  | m + 1, i, j => min (layer e m i j) (layer e m i m + layer e m m j)

/-- The intermediate vertices of a vertex sequence: all but the first and the last. -/
def intermediates (p : List Nat) : List Nat := p.tail.dropLast

/-! ## A finer embedding of the queries: rows as backing arrays in a heap

In Go a `[][]float64` holds references to the backing arrays of its rows, so a write
through one slice is seen through every slice that shares the array.  Here the heap is
the list of all backing arrays, a row is the address of its array, and the queries
return the heap they leave.  The fields of the struct are never assigned by the
queries. -/

/-- The struct `Graph` with its rows as addresses in the heap. -/
structure HeapGraph where
  vertices : Nat
  rows : List Nat
deriving DecidableEq

/-- The matrix that the row addresses `rows` denote in the heap `h`. -/
def hMatrix (h : List (List (WithTop α))) (rows : List Nat) : List (List (WithTop α)) :=
  rows.map fun a => h.getD a []

/-- The read `m[i][j]` through the heap. -/
def hGetCell (h : List (List (WithTop α))) (rows : List Nat) (i j : Nat) :
    Option (WithTop α) :=
  match rows[i]? with
  | none => none
  | some a =>
    match h[a]? with
    | none => none
    | some row => row[j]?

/-- The write `m[i][j] = w` through the heap. -/
def hSetCell (h : List (List (WithTop α))) (rows : List Nat) (i j : Nat) (w : WithTop α) :
    Option (List (List (WithTop α))) :=
  match rows[i]? with
  | none => none
  | some a =>
    match h[a]? with
    | none => none
    | some row => if j < row.length then some (h.set a (row.set j w)) else none

/-- One round of the copy loop of `ShortestPath`: `dist[i] = make([]float64, n)` allocates
a new array at the end of the heap, `copy(dist[i], g.edges[i])` fills it. -/
def hCopyStep (g : HeapGraph) (st : List (List (WithTop α)) × List Nat) (i : Nat) :
    Option (List (List (WithTop α)) × List Nat) :=
  match g.rows[i]? with
  | none => none
  | some a =>
    match st.1[a]? with
    | none => none
    | some src => some (st.1 ++ [copyRow g.vertices src], st.2 ++ [st.1.length])

/-- The copy loop of `ShortestPath`: the heap it leaves and the rows of `dist`. -/
def hCopyMatrix (h : List (List (WithTop α))) (g : HeapGraph) :
    Option (List (List (WithTop α)) × List Nat) :=
  (List.range g.vertices).foldlM (hCopyStep g) (h, [])

/-- The body of the innermost loop, on the rows `rows` of `dist`. -/
def hRelax (rows : List Nat) (k i j : Nat) (h : List (List (WithTop α))) :
    Option (List (List (WithTop α))) :=
  (hGetCell h rows i k).bind fun a =>
  (hGetCell h rows k j).bind fun b =>
  (hGetCell h rows i j).bind fun c =>
  if a + b < c then hSetCell h rows i j (a + b) else some h

/-- The loop over `j`, through the heap. -/
def hLoopJ (rows : List Nat) (n k i : Nat) (h : List (List (WithTop α))) :
    Option (List (List (WithTop α))) :=
  (List.range n).foldlM (fun d j => hRelax rows k i j d) h

/-- The loop over `i`, through the heap. -/
def hLoopI (rows : List Nat) (n k : Nat) (h : List (List (WithTop α))) :
    Option (List (List (WithTop α))) :=
  (List.range n).foldlM (fun d i => hLoopJ rows n k i d) h

/-- The loop over `k`, through the heap. -/
def hLoopK (rows : List Nat) (n : Nat) (h : List (List (WithTop α))) :
    Option (List (List (WithTop α))) :=
  (List.range n).foldlM (fun d k => hLoopI rows n k d) h

/-- The method `ShortestPath` through the heap: the heap it leaves and the rows of the
matrix it returns. -/
def hShortestPath (h : List (List (WithTop α))) (g : HeapGraph) :
    Option (List (List (WithTop α)) × List Nat) :=
  (hCopyMatrix h g).bind fun st =>
    (hLoopK st.2 g.vertices st.1).map fun h' => (h', st.2)

/-- The method `GetShortestDistance` through the heap: the heap it leaves and its result. -/
def hGetShortestDistance (h : List (List (WithTop α))) (g : HeapGraph) (start stop : Int) :
    Option (List (List (WithTop α)) × WithTop α) :=
  if start < 0 ∨ start ≥ g.vertices ∨ stop < 0 ∨ stop ≥ g.vertices then some (h, ⊤)
  else (hShortestPath h g).bind fun st =>
    (hGetCell st.1 st.2 start.toNat stop.toNat).map fun x => (st.1, x)

/-- A graph in a heap whose rows are allocated and form a `vertices × vertices` matrix. -/
def HeapGraph.WF (h : List (List (WithTop α))) (g : HeapGraph) : Prop :=
  g.rows.length = g.vertices ∧ (∀ a ∈ g.rows, a < h.length) ∧
    Shaped g.vertices (hMatrix h g.rows)

instance (n : Nat) (m : List (List (WithTop α))) : Decidable (Shaped n m) := by
  unfold Shaped
  exact inferInstance

instance (g : Graph α) : Decidable g.WF := by
  unfold Graph.WF
  exact inferInstance

instance (h : List (List (WithTop α))) (g : HeapGraph) : Decidable (g.WF h) := by
  unfold HeapGraph.WF
  exact inferInstance

/-- The graph of `main` in a heap that holds its four rows and nothing else. -/
def demoHeapGraph : HeapGraph := HeapGraph.mk 4 [0, 1, 2, 3]

/-- The calls of the reference scenario of `main`. -/
def demoEdges : List (Int × Int × ℤ) :=
  [(0, 1, 5), (0, 2, 3), (1, 2, 2), (1, 3, 6), (2, 3, 7)]

/-- The graph that `main` builds. -/
def demoGraph : Graph ℤ :=
  Graph.mk 4 [[0, 5, 3, ⊤], [⊤, 0, 2, 6], [⊤, ⊤, 0, 7], [⊤, ⊤, ⊤, 0]]

/-- Two calls that insert a cycle of total weight `-2` between the vertices `0` and `1`. -/
def negEdges : List (Int × Int × ℤ) := [(0, 1, -1), (1, 0, -1)]

/-! ## The program over `float64`

The embedding above adds weights exactly, which is what the code does as long as no sum
is rounded.  The properties that rest on the value of a sum are settled on a second
embedding of the same code in which a cell is a `float64` and `+` is the addition of
IEEE 754 binary64, rounding to nearest, ties to even, as Go performs it. -/

/-- A `float64`, up to the sign of zero: the finite value `k · 2⁻¹⁰⁷⁴`, `+Inf`, `-Inf` or
`NaN`.  Every finite `float64` is an integer multiple of `2⁻¹⁰⁷⁴`, the smallest positive
one; the multiples that are a `float64` are those that `Representable` accepts. -/
inductive F64 where
  | fin (k : Int)
  | pinf
  | ninf
  | nan
deriving DecidableEq

/-- Binary search, over the bit weights `2048, ..., 1`, for the largest `t` such that
`a` has a bit at position `53 + t` or above, starting from a `t` with that property. -/
def searchBits (a : Nat) : List Nat → Nat → Nat
  | [], t => t
  | j :: js, t =>
    if a >>> (53 + t + j) ≠ 0 then searchBits a js (t + j) else searchBits a js t

/-- The number of low bits that the magnitude `a < 2²⁰⁹⁸` loses when it is rounded to 53
significant bits: `0` below `2⁵³`, the bit length of `a` minus `53` otherwise. -/
def dropBits (a : Nat) : Nat :=
  if a >>> 53 = 0 then 0
  else searchBits a [2048, 1024, 512, 256, 128, 64, 32, 16, 8, 4, 2, 1] 0 + 1

/-- The magnitude `a` rounded to 53 significant bits, to nearest, ties to the even
significand. -/
def roundNat (a : Nat) : Nat :=
  let sh := dropBits a
  let q := a >>> sh
  let r := a - (q <<< sh)
  let q' := if 2 * r > 1 <<< sh ∨ (2 * r = 1 <<< sh ∧ q % 2 = 1) then q + 1 else q
  q' <<< sh

/-- The exact value `s · 2⁻¹⁰⁷⁴` rounded to a `float64`: an infinity when the rounded
magnitude reaches `2¹⁰²⁴ = 2²⁰⁹⁸ · 2⁻¹⁰⁷⁴`. -/
def roundUnits (s : Int) : F64 :=
  if s.natAbs >>> 2098 ≠ 0 then (if s < 0 then F64.ninf else F64.pinf)
  else if roundNat s.natAbs >>> 2098 ≠ 0 then (if s < 0 then F64.ninf else F64.pinf)
  else F64.fin (if s < 0 then -(roundNat s.natAbs : Int) else (roundNat s.natAbs : Int))

/-- The operator `+` of `float64`. -/
def fadd : F64 → F64 → F64
  | F64.nan, _ => F64.nan
  | _, F64.nan => F64.nan
  | F64.pinf, F64.ninf => F64.nan
  | F64.ninf, F64.pinf => F64.nan
  | F64.pinf, _ => F64.pinf
  | _, F64.pinf => F64.pinf
  | F64.ninf, _ => F64.ninf
  | _, F64.ninf => F64.ninf
  | F64.fin a, F64.fin b => roundUnits (a + b)

/-- The operator `<` of `float64`: false as soon as an operand is `NaN`. -/
def flt : F64 → F64 → Bool
  | F64.fin a, F64.fin b => decide (a < b)
  | F64.fin _, F64.pinf => true
  | F64.ninf, F64.fin _ => true
  | F64.ninf, F64.pinf => true
  | _, _ => false

/-- The multiple `k` of `2⁻¹⁰⁷⁴` is a `float64`. -/
def Representable (k : Int) : Prop := roundUnits k = F64.fin k

instance (k : Int) : Decidable (Representable k) := by
  unfold Representable
  exact inferInstance

/-- The whole number `w` in units of `2⁻¹⁰⁷⁴`. -/
def whole (w : Int) : Int := w * ((1 <<< 1074 : Nat) : Int)

/-- The struct `Graph` with `float64` cells. -/
structure Graph64 where
  vertices : Nat
  edges : List (List F64)
deriving DecidableEq

/-- The function `NewGraph` with `float64` cells. -/
def NewGraph64 (vertices : Nat) : Graph64 :=
  Graph64.mk vertices
    ((List.range vertices).map fun i =>
      (List.range vertices).map fun j => if i = j then F64.fin 0 else F64.pinf)

/-- The read `m[i][j]` of a matrix of `float64`. -/
def getCell64 (m : List (List F64)) (i j : Nat) : Option F64 :=
  match m[i]? with
  | none => none
  | some row => row[j]?

/-- The write `m[i][j] = w` of a matrix of `float64`. -/
def setCell64 (m : List (List F64)) (i j : Nat) (w : F64) : Option (List (List F64)) :=
  match m[i]? with
  | none => none
  | some row => if j < row.length then some (m.set i (row.set j w)) else none

/-- The method `AddEdge` with `float64` cells. -/
def AddEdge64 (g : Graph64) (u v : Int) (weight : F64) : Option Graph64 :=
  if u ≥ 0 ∧ u < g.vertices ∧ v ≥ 0 ∧ v < g.vertices then
    (setCell64 g.edges u.toNat v.toNat weight).map (Graph64.mk g.vertices)
  else some g

/-- One row of the working copy, with `float64` cells. -/
def copyRow64 (n : Nat) (src : List F64) : List F64 :=
  src.take n ++ List.replicate (n - src.length) (F64.fin 0)

/-- The working copy `dist`, with `float64` cells. -/
def copyMatrix64 (g : Graph64) : Option (List (List F64)) :=
  (List.range g.vertices).mapM fun i => (g.edges[i]?).map (copyRow64 g.vertices)

/-- The body of the innermost loop as the code runs it:
`if dist[i][k]+dist[k][j] < dist[i][j] { dist[i][j] = dist[i][k] + dist[k][j] }`
with the `+` and the `<` of `float64`. -/
def relax64 (k i j : Nat) (dist : List (List F64)) : Option (List (List F64)) :=
  (getCell64 dist i k).bind fun a =>
  (getCell64 dist k j).bind fun b =>
  (getCell64 dist i j).bind fun c =>
  if flt (fadd a b) c then setCell64 dist i j (fadd a b) else some dist

/-- The loop over `j` around the body `step`. -/
def loopJ64 (step : Nat → Nat → Nat → List (List F64) → Option (List (List F64)))
    (n k i : Nat) (dist : List (List F64)) : Option (List (List F64)) :=
  (List.range n).foldlM (fun d j => step k i j d) dist

/-- The loop over `i` around the body `step`. -/
def loopI64 (step : Nat → Nat → Nat → List (List F64) → Option (List (List F64)))
    (n k : Nat) (dist : List (List F64)) : Option (List (List F64)) :=
  (List.range n).foldlM (fun d i => loopJ64 step n k i d) dist

/-- The first `m` rounds `k = 0, ..., m - 1` of the outer loop around the body `step`;
the outer loop of the code is `rounds64 relax64 n n`. -/
def rounds64 (step : Nat → Nat → Nat → List (List F64) → Option (List (List F64)))
    (n m : Nat) (dist : List (List F64)) : Option (List (List F64)) :=
  (List.range m).foldlM (fun d k => loopI64 step n k d) dist

/-- The method `ShortestPath` with `float64` cells. -/
def ShortestPath64 (g : Graph64) : Option (List (List F64)) :=
  (copyMatrix64 g).bind (rounds64 relax64 g.vertices g.vertices)

/-- The method `GetShortestDistance` with `float64` cells. -/
def GetShortestDistance64 (g : Graph64) (start stop : Int) : Option F64 :=
  if start < 0 ∨ start ≥ g.vertices ∨ stop < 0 ∨ stop ≥ g.vertices then some F64.pinf
  else (ShortestPath64 g).bind fun allDistances =>
    getCell64 allDistances start.toNat stop.toNat

/-- `NewGraph n` followed by the `AddEdge` calls of `ops`, with `float64` cells. -/
def build64 (n : Nat) (ops : List (Int × Int × F64)) : Option Graph64 :=
  ops.foldlM (fun g op => AddEdge64 g op.1 op.2.1 op.2.2) (NewGraph64 n)

/-- The `float64` that holds the number `x · 2⁻¹⁰⁷⁴`, or `+Inf` for `⊤`. -/
def ofExact (x : WithTop ℤ) : F64 :=
  Option.elim x F64.pinf F64.fin

/-- The matrix of `float64` that holds the numbers of `m`, in units of `2⁻¹⁰⁷⁴`. -/
def floatMatrix (m : List (List (WithTop ℤ))) : List (List F64) :=
  m.map fun row => row.map ofExact

/-- The graph with `float64` cells that holds the weights of `g`, in units of `2⁻¹⁰⁷⁴`. -/
def floatGraph (g : Graph ℤ) : Graph64 :=
  Graph64.mk g.vertices (floatMatrix g.edges)

/-- The calls of `ops` with their weights as `float64`. -/
def floatOps (ops : List (Int × Int × WithTop ℤ)) : List (Int × Int × F64) :=
  ops.map fun op => (op.1, op.2.1, ofExact op.2.2)

/-- The sum of the `float64` values `a` and `b` is neither rounded nor an overflow: both
are finite or `+Inf`, and the exact sum of two finite ones is a `float64`. -/
def exactAdd : F64 → F64 → Bool
  | F64.fin a, F64.fin b => decide (roundUnits (a + b) = F64.fin (a + b))
  | F64.fin _, F64.pinf => true
  | F64.pinf, F64.fin _ => true
  | F64.pinf, F64.pinf => true
  | _, _ => false

/-- The sum of two finite `float64` values `a` and `b` is not the overflow `+Inf`. -/
def noInfAdd : F64 → F64 → Bool
  | F64.fin a, F64.fin b => decide (roundUnits (a + b) ≠ F64.pinf)
  | _, _ => true

/-- The `float64` value `y` is at most `s` units. -/
def atMost (s : Int) : F64 → Bool
  | F64.fin r => decide (r ≤ s)
  | F64.ninf => true
  | _ => false

/-- The `float64` value `y` is at least `s` units. -/
def atLeast (s : Int) : F64 → Bool
  | F64.fin r => decide (s ≤ r)
  | F64.pinf => true
  | _ => false

/-- The sum of two finite `float64` values `a` and `b` is not rounded upwards: it is at
most the exact sum, an overflow to `+Inf` being a rounding upwards. -/
def noUpAdd : F64 → F64 → Bool
  | F64.fin a, F64.fin b => atMost (a + b) (roundUnits (a + b))
  | _, _ => true

/-- The sum of two finite `float64` values `a` and `b` is not rounded downwards: it is at
least the exact sum, an overflow to `-Inf` being a rounding downwards. -/
def noDownAdd : F64 → F64 → Bool
  | F64.fin a, F64.fin b => atLeast (a + b) (roundUnits (a + b))
  | _, _ => true

/-- The body `relax64` that stops, with `none`, at a sum that the test `ok` refuses. -/
def relaxGuard (ok : F64 → F64 → Bool) (k i j : Nat) (dist : List (List F64)) :
    Option (List (List F64)) :=
  (getCell64 dist i k).bind fun a =>
  (getCell64 dist k j).bind fun b =>
  (getCell64 dist i j).bind fun c =>
  if ok a b then
    (if flt (fadd a b) c then setCell64 dist i j (fadd a b) else some dist)
  else none

/-- Every addition that `ShortestPath` performs in its first `m` rounds on `g` passes the
test `ok`. -/
def GuardedRounds (ok : F64 → F64 → Bool) (g : Graph64) (m : Nat) : Prop :=
  ((copyMatrix64 g).bind (rounds64 (relaxGuard ok) g.vertices m)).isSome = true

/-- No addition that `ShortestPath` performs in its first `m` rounds on `g` is rounded or
overflows. -/
def ExactRounds (g : Graph64) (m : Nat) : Prop := GuardedRounds exactAdd g m

/-- No addition that `ShortestPath` performs on `g` is rounded or overflows. -/
def ExactRun (g : Graph64) : Prop := ExactRounds g g.vertices

/-- No addition that `ShortestPath` performs on `g` overflows to `+Inf`. -/
def NoInfRun (g : Graph64) : Prop := GuardedRounds noInfAdd g g.vertices

/-- No addition that `ShortestPath` performs on `g` is rounded upwards. -/
def NoRoundUpRun (g : Graph64) : Prop := GuardedRounds noUpAdd g g.vertices

/-- No addition that `ShortestPath` performs on `g` is rounded downwards. -/
def NoRoundDownRun (g : Graph64) : Prop := GuardedRounds noDownAdd g g.vertices

instance (ok : F64 → F64 → Bool) (g : Graph64) (m : Nat) :
    Decidable (GuardedRounds ok g m) := by
  unfold GuardedRounds
  exact inferInstance

instance (g : Graph64) (m : Nat) : Decidable (ExactRounds g m) := by
  unfold ExactRounds
  exact inferInstance

instance (g : Graph64) : Decidable (ExactRun g) := by
  unfold ExactRun
  exact inferInstance

instance (g : Graph64) : Decidable (NoInfRun g) := by
  unfold NoInfRun
  exact inferInstance

instance (g : Graph64) : Decidable (NoRoundUpRun g) := by
  unfold NoRoundUpRun
  exact inferInstance

instance (g : Graph64) : Decidable (NoRoundDownRun g) := by
  unfold NoRoundDownRun
  exact inferInstance

/-- The `float64` value `y` is at most the number `x`. -/
def leExact : F64 → WithTop ℤ → Prop
  | F64.fin k, x => (k : WithTop ℤ) ≤ x
  | F64.ninf, _ => True
  | F64.pinf, x => x = ⊤
  | F64.nan, _ => False

/-- The `float64` value `y` is at least the number `x`. -/
def geExact : F64 → WithTop ℤ → Prop
  | F64.fin k, x => x ≤ (k : WithTop ℤ)
  | F64.pinf, _ => True
  | F64.ninf, _ => False
  | F64.nan, _ => False

/-- No closed walk of `g` through the vertex `i` has a negative total weight; a cell of
the diagonal counts as a closed walk of one edge, a missing edge weighs `⊤`. -/
def NoNegClosedWalkAt (g : Graph ℤ) (i : Nat) : Prop :=
  ∀ l : List Nat, (∀ u ∈ l, u < g.vertices) → 0 ≤ pathWeight g (i :: (l ++ [i]))

/-- The calls of `ops` with every weight multiplied by `2¹⁰⁷⁴`: whole numbers. -/
def wholeOps (ops : List (Int × Int × ℤ)) : List (Int × Int × ℤ) :=
  ops.map fun op => (op.1, op.2.1, whole op.2.2)

/-- Two edges `0 → 1 → 2` of weights `2⁵³` and `1`. -/
def roundEdges : List (Int × Int × ℤ) := [(0, 1, 9007199254740992), (1, 2, 1)]

/-- Two edges `0 → 1 → 2` of weights `2⁵³ + 2` and `1`. -/
def roundUpEdges : List (Int × Int × ℤ) := [(0, 1, 9007199254740994), (1, 2, 1)]

/-- Two edges `0 → 1 → 2` of weight `2¹⁰²³` each, in units of `2⁻¹⁰⁷⁴`. -/
def overflowEdges : List (Int × Int × ℤ) :=
  [(0, 1, ((1 <<< 2097 : Nat) : Int)), (1, 2, ((1 <<< 2097 : Nat) : Int))]

instance (n i j : Nat) (p : List Nat) : Decidable (IsRoute n i j p) := by
  unfold IsRoute
  exact inferInstance

/-- The whole number `w` as a weight, in units of `2⁻¹⁰⁷⁴`. -/
def wcell (w : Int) : WithTop ℤ := ((whole w : ℤ) : WithTop ℤ)

/-- The graph of `main`, its weights in units of `2⁻¹⁰⁷⁴`. -/
def demoWholeGraph : Graph ℤ :=
  Graph.mk 4 [[0, wcell 5, wcell 3, ⊤], [⊤, 0, wcell 2, wcell 6], [⊤, ⊤, 0, wcell 7],
    [⊤, ⊤, ⊤, 0]]

/-- The graph of the calls `roundEdges`. -/
def roundGraph : Graph ℤ :=
  Graph.mk 3 [[0, wcell 9007199254740992, ⊤], [⊤, 0, wcell 1], [⊤, ⊤, 0]]

/-- The graph of the calls `roundUpEdges`. -/
def roundUpGraph : Graph ℤ :=
  Graph.mk 3 [[0, wcell 9007199254740994, ⊤], [⊤, 0, wcell 1], [⊤, ⊤, 0]]

/-- The graph of the calls `overflowEdges`. -/
def overflowGraph : Graph ℤ :=
  Graph.mk 3 [[0, (((1 <<< 2097 : Nat) : Int) : WithTop ℤ), ⊤],
    [⊤, 0, (((1 <<< 2097 : Nat) : Int) : WithTop ℤ)], [⊤, ⊤, 0]]

/-- The graph of the calls `negEdges`, its weights in units of `2⁻¹⁰⁷⁴`. -/
def negWholeGraph : Graph ℤ :=
  Graph.mk 2 [[0, wcell (-1)], [wcell (-1), 0]]

/-- A cycle `0 → 1 → 2 → 3 → 4 → 0` of weights `2⁵³`, `1`, `1`, `1` and `-(2⁵³ + 2)`,
of total weight `1`. -/
def driftEdges : List (Int × Int × ℤ) :=
  [(0, 1, 9007199254740992), (1, 2, 1), (2, 3, 1), (3, 4, 1), (4, 0, -9007199254740994)]

/-- The graph of the calls `driftEdges`. -/
def driftGraph : Graph ℤ :=
  Graph.mk 5 [[0, wcell 9007199254740992, ⊤, ⊤, ⊤], [⊤, 0, wcell 1, ⊤, ⊤],
    [⊤, ⊤, 0, wcell 1, ⊤], [⊤, ⊤, ⊤, 0, wcell 1],
    [wcell (-9007199254740994), ⊤, ⊤, ⊤, 0]]

/-- The weight of the way from `0` to `v` along the cycle of `driftGraph`: a potential. -/
def driftPotential (v : Nat) : ℤ :=
  [0, whole 9007199254740992, whole 9007199254740993, whole 9007199254740994,
    whole 9007199254740995].getD v 0

/-- Three edges `2 → 1 → 0 → 3` of weights `2⁵³`, `1` and `1`. -/
def skewEdges : List (Int × Int × ℤ) := [(2, 1, 9007199254740992), (1, 0, 1), (0, 3, 1)]

/-- The graph of the calls `skewEdges`. -/
def skewGraph : Graph ℤ :=
  Graph.mk 4 [[0, ⊤, ⊤, wcell 1], [wcell 1, 0, ⊤, ⊤], [⊤, wcell 9007199254740992, 0, ⊤],
    [⊤, ⊤, ⊤, 0]]

/-- Cell by cell, the matrix `d` of `float64` and the matrix `e` of numbers are in the
relation `P`. -/
def CellsRel (n : Nat) (P : Nat → Nat → F64 → WithTop ℤ → Prop) (d : List (List F64))
    (e : Nat → Nat → WithTop ℤ) : Prop :=
  ∀ a b, a < n → b < n → ∃ y, getCell64 d a b = some y ∧ P a b y (e a b)

/-! ## Cells of a matrix -/

theorem getCell_eq_cellFn {n : Nat} {m : List (List (WithTop α))} (hm : Shaped n m)
    {i j : Nat} (hi : i < n) (hj : j < n) : getCell m i j = some (cellFn m i j) := by
  obtain ⟨hlen, hrow⟩ := hm
  have hi' : i < m.length := by omega
  have hr : (m[i]).length = n := hrow _ (List.getElem_mem _)
  have hj' : j < (m[i]).length := by omega
  simp [cellFn, getCell, List.getElem?_eq_getElem hi', List.getElem?_eq_getElem hj']

theorem setCell_spec {n : Nat} {m : List (List (WithTop α))} (hm : Shaped n m)
    {i j : Nat} (hi : i < n) (hj : j < n) (w : WithTop α) :
    ∃ m', setCell m i j w = some m' ∧ Shaped n m' ∧
      ∀ a b, getCell m' a b = if a = i ∧ b = j then some w else getCell m a b := by
  obtain ⟨hlen, hrow⟩ := hm
  have hi' : i < m.length := by omega
  have hr : (m[i]).length = n := hrow _ (List.getElem_mem _)
  have hj' : j < (m[i]).length := by omega
  refine ⟨m.set i ((m[i]).set j w), ?_, ⟨?_, ?_⟩, ?_⟩
  · simp [setCell, List.getElem?_eq_getElem hi', hj']
  · simpa using hlen
  · intro row hmem
    rcases List.mem_or_eq_of_mem_set hmem with h | h
    · exact hrow _ h
    · subst h
      simpa using hr
  · intro a b
    by_cases ha : a = i
    · subst ha
      by_cases hb : b = j
      · subst hb
        simp [getCell, List.getElem?_set_self hi', List.getElem?_set_self hj']
      · have hb' : j ≠ b := fun h => hb h.symm
        simp [getCell, List.getElem?_set_self hi', List.getElem?_set_ne hb', hb,
          List.getElem?_eq_getElem hi']
    · have ha' : i ≠ a := fun h => ha h.symm
      simp [getCell, List.getElem?_set_ne ha', ha]

/-! ## Construction and edge insertion -/

theorem newGraph_wf (n : Nat) : (NewGraph n : Graph α).WF := by
  refine ⟨by simp [NewGraph], ?_⟩
  intro row hrow
  simp only [NewGraph, List.mem_map] at hrow
  obtain ⟨i, -, rfl⟩ := hrow
  simp [NewGraph]

theorem newGraph_cell (n : Nat) {i j : Nat} (hi : i < n) (hj : j < n) :
    getCell (NewGraph n : Graph α).edges i j = some (initCell i j) := by
  simp [NewGraph, getCell, initCell, List.getElem?_range hi, List.getElem?_range hj]

theorem addEdge_outOfRange (g : Graph α) {u v : Int}
    (h : u < 0 ∨ u ≥ g.vertices ∨ v < 0 ∨ v ≥ g.vertices) (w : WithTop α) :
    AddEdge g u v w = some g := by
  have hg : ¬ (u ≥ 0 ∧ u < g.vertices ∧ v ≥ 0 ∧ v < g.vertices) := by omega
  simp only [AddEdge, if_neg hg]

theorem addEdge_inRange {g : Graph α} (hg : g.WF) {u v : Int}
    (hu0 : 0 ≤ u) (hu : u < g.vertices) (hv0 : 0 ≤ v) (hv : v < g.vertices)
    (w : WithTop α) :
    ∃ g', AddEdge g u v w = some g' ∧ g'.vertices = g.vertices ∧ g'.WF ∧
      ∀ a b, getCell g'.edges a b =
        if a = u.toNat ∧ b = v.toNat then some w else getCell g.edges a b := by
  have hu' : u.toNat < g.vertices := by omega
  have hv' : v.toNat < g.vertices := by omega
  obtain ⟨m', hset, hshape, hcell⟩ := setCell_spec hg hu' hv' w
  refine ⟨Graph.mk g.vertices m', ?_, rfl, hshape, hcell⟩
  have hguard : u ≥ 0 ∧ u < g.vertices ∧ v ≥ 0 ∧ v < g.vertices := ⟨hu0, hu, hv0, hv⟩
  simp only [AddEdge, if_pos hguard, hset, Option.map_some']

theorem lastWrite_nil (i j : Nat) :
    lastWrite ([] : List (Int × Int × WithTop α)) i j = none := rfl

theorem lastWrite_concat (ops : List (Int × Int × WithTop α)) (op : Int × Int × WithTop α)
    (i j : Nat) :
    lastWrite (ops ++ [op]) i j =
      if op.1 = (i : Int) ∧ op.2.1 = (j : Int) then some op.2.2 else lastWrite ops i j := by
  by_cases h : op.1 = (i : Int) ∧ op.2.1 = (j : Int)
  · simp [lastWrite, List.find?_cons, h]
  · simp [lastWrite, List.find?_cons, h]

theorem build_concat (n : Nat) (ops : List (Int × Int × WithTop α))
    (op : Int × Int × WithTop α) :
    build n (ops ++ [op]) = (build n ops).bind fun g => AddEdge g op.1 op.2.1 op.2.2 := by
  simp [build, List.foldlM_append]

/-- Every sequence of calls succeeds, keeps the shape, and leaves in each cell the last
weight written to it, or the initial value when nothing was written. -/
theorem build_spec (n : Nat) (ops : List (Int × Int × WithTop α)) :
    ∃ g, build n ops = some g ∧ g.vertices = n ∧ g.WF ∧
      ∀ i j, i < n → j < n →
        getCell g.edges i j = some ((lastWrite ops i j).getD (initCell i j)) := by
  induction ops using List.reverseRecOn with
  | nil =>
    refine ⟨NewGraph n, rfl, rfl, newGraph_wf n, ?_⟩
    intro i j hi hj
    simpa [lastWrite_nil] using newGraph_cell n hi hj
  | append_singleton ops op ih =>
    obtain ⟨g, hb, hn, hwf, hcell⟩ := ih
    by_cases hr : op.1 ≥ 0 ∧ op.1 < g.vertices ∧ op.2.1 ≥ 0 ∧ op.2.1 < g.vertices
    · obtain ⟨g', hadd, hn', hwf', hcell'⟩ :=
        addEdge_inRange hwf hr.1 hr.2.1 hr.2.2.1 hr.2.2.2 op.2.2
      refine ⟨g', ?_, by omega, hwf', ?_⟩
      · rw [build_concat, hb, Option.some_bind, hadd]
      · intro i j hi hj
        rw [hcell', lastWrite_concat, hcell i j hi hj]
        have hiff : (i = op.1.toNat ∧ j = op.2.1.toNat) ↔
            (op.1 = (i : Int) ∧ op.2.1 = (j : Int)) := by omega
        by_cases hc : op.1 = (i : Int) ∧ op.2.1 = (j : Int)
        · rw [if_pos hc, if_pos (hiff.mpr hc)]
          rfl
        · have hc' : ¬ (i = op.1.toNat ∧ j = op.2.1.toNat) := fun h => hc (hiff.mp h)
          rw [if_neg hc, if_neg hc']
    · have hout : op.1 < 0 ∨ op.1 ≥ g.vertices ∨ op.2.1 < 0 ∨ op.2.1 ≥ g.vertices := by
        omega
      refine ⟨g, ?_, hn, hwf, ?_⟩
      · rw [build_concat, hb, Option.some_bind, addEdge_outOfRange g hout]
      · intro i j hi hj
        rw [lastWrite_concat, hcell i j hi hj]
        have hc : ¬ (op.1 = (i : Int) ∧ op.2.1 = (j : Int)) := by omega
        rw [if_neg hc]

/-! ## The loops of `ShortestPath` never fail and compute `loopKF` -/

theorem foldlM_refine {σ τ ι : Type} (R : σ → τ → Prop) (f : σ → ι → Option σ)
    (g : τ → ι → τ) (P : ι → Prop)
    (hstep : ∀ s t x, P x → R s t → ∃ s', f s x = some s' ∧ R s' (g t x)) :
    ∀ (l : List ι) (s : σ) (t : τ), (∀ x ∈ l, P x) → R s t →
      ∃ s', l.foldlM f s = some s' ∧ R s' (l.foldl g t) := by
  intro l
  induction l with
  | nil =>
    intro s t _ hR
    exact ⟨s, rfl, hR⟩
  | cons x l ih =>
    intro s t hP hR
    obtain ⟨s1, hs1, hR1⟩ := hstep s t x (hP x (List.mem_cons_self x l)) hR
    obtain ⟨s2, hs2, hR2⟩ := ih s1 (g t x) (fun y hy => hP y (List.mem_cons_of_mem x hy)) hR1
    refine ⟨s2, ?_, hR2⟩
    rw [List.foldlM_cons, hs1]
    exact hs2

theorem cellFn_of_getCell {m m' : List (List (WithTop α))} {i j : Nat} {w : WithTop α}
    (h : ∀ a b, getCell m' a b = if a = i ∧ b = j then some w else getCell m a b) :
    cellFn m' = fun a b => if a = i ∧ b = j then w else cellFn m a b := by
  funext a b
  by_cases hc : a = i ∧ b = j
  · simp [cellFn, h, hc]
  · simp [cellFn, h, hc]

theorem relax_refine {n : Nat} {m : List (List (WithTop α))} (hm : Shaped n m)
    {k i j : Nat} (hk : k < n) (hi : i < n) (hj : j < n) :
    ∃ m', relax k i j m = some m' ∧ Shaped n m' ∧ cellFn m' = relaxF k i j (cellFn m) := by
  have h1 := getCell_eq_cellFn hm hi hk
  have h2 := getCell_eq_cellFn hm hk hj
  have h3 := getCell_eq_cellFn hm hi hj
  by_cases hc : cellFn m i k + cellFn m k j < cellFn m i j
  · obtain ⟨m', hset, hshape, hcell⟩ := setCell_spec hm hi hj (cellFn m i k + cellFn m k j)
    refine ⟨m', ?_, hshape, ?_⟩
    · simp only [relax, h1, h2, h3, Option.some_bind, if_pos hc, hset]
    · rw [cellFn_of_getCell hcell]
      simp only [relaxF, if_pos hc]
  · refine ⟨m, ?_, hm, ?_⟩
    · simp only [relax, h1, h2, h3, Option.some_bind, if_neg hc]
    · simp only [relaxF, if_neg hc]

theorem loopJ_refine {n : Nat} {m : List (List (WithTop α))} (hm : Shaped n m)
    {k i : Nat} (hk : k < n) (hi : i < n) :
    ∃ m', loopJ n k i m = some m' ∧ Shaped n m' ∧ cellFn m' = loopJF n k i (cellFn m) := by
  have h := foldlM_refine (fun (s : List (List (WithTop α))) t => Shaped n s ∧ cellFn s = t)
    (fun d j => relax k i j d) (fun d j => relaxF k i j d) (fun j => j < n)
    (by
      rintro s t j hj ⟨hs, rfl⟩
      obtain ⟨m', h1, h2, h3⟩ := relax_refine hs hk hi hj
      exact ⟨m', h1, h2, h3⟩)
    (List.range n) m (cellFn m) (fun x hx => List.mem_range.mp hx) ⟨hm, rfl⟩
  obtain ⟨m', h1, h2, h3⟩ := h
  exact ⟨m', h1, h2, h3⟩

theorem loopI_refine {n : Nat} {m : List (List (WithTop α))} (hm : Shaped n m)
    {k : Nat} (hk : k < n) :
    ∃ m', loopI n k m = some m' ∧ Shaped n m' ∧ cellFn m' = loopIF n k (cellFn m) := by
  have h := foldlM_refine (fun (s : List (List (WithTop α))) t => Shaped n s ∧ cellFn s = t)
    (fun d i => loopJ n k i d) (fun d i => loopJF n k i d) (fun i => i < n)
    (by
      rintro s t i hi ⟨hs, rfl⟩
      obtain ⟨m', h1, h2, h3⟩ := loopJ_refine hs hk hi
      exact ⟨m', h1, h2, h3⟩)
    (List.range n) m (cellFn m) (fun x hx => List.mem_range.mp hx) ⟨hm, rfl⟩
  obtain ⟨m', h1, h2, h3⟩ := h
  exact ⟨m', h1, h2, h3⟩

theorem loopK_refine {n : Nat} {m : List (List (WithTop α))} (hm : Shaped n m) :
    ∃ m', loopK n m = some m' ∧ Shaped n m' ∧ cellFn m' = loopKF n (cellFn m) := by
  have h := foldlM_refine (fun (s : List (List (WithTop α))) t => Shaped n s ∧ cellFn s = t)
    (fun d k => loopI n k d) (fun d k => loopIF n k d) (fun k => k < n)
    (by
      rintro s t k hk ⟨hs, rfl⟩
      obtain ⟨m', h1, h2, h3⟩ := loopI_refine hs hk
      exact ⟨m', h1, h2, h3⟩)
    (List.range n) m (cellFn m) (fun x hx => List.mem_range.mp hx) ⟨hm, rfl⟩
  obtain ⟨m', h1, h2, h3⟩ := h
  exact ⟨m', h1, h2, h3⟩

theorem mapM_option_eq_some {ι β : Type} (f : ι → Option β) (h : ι → β) :
    ∀ l : List ι, (∀ x ∈ l, f x = some (h x)) → l.mapM f = some (l.map h) := by
  intro l
  induction l with
  | nil => intro _; rfl
  | cons x l ih =>
    intro hx
    rw [List.mapM_cons, hx x (List.mem_cons_self x l),
      ih (fun y hy => hx y (List.mem_cons_of_mem x hy))]
    rfl

theorem copyRow_eq {n : Nat} {row : List (WithTop α)} (h : row.length = n) :
    copyRow n row = row := by
  simp [copyRow, h]

theorem copyMatrix_eq {g : Graph α} (hg : g.WF) : copyMatrix g = some g.edges := by
  obtain ⟨hlen, hrow⟩ := hg
  have h := mapM_option_eq_some (fun i => (g.edges[i]?).map (copyRow g.vertices))
    (fun i => g.edges.getD i []) (List.range g.vertices) (by
      intro i hi
      have hi' : i < g.edges.length := by
        have := List.mem_range.mp hi
        omega
      have hr : (g.edges[i]).length = g.vertices := hrow _ (List.getElem_mem _)
      simp [List.getElem?_eq_getElem hi', copyRow_eq hr, List.getD_eq_getElem?_getD])
  rw [copyMatrix, h]
  congr 1
  apply List.ext_getElem?
  intro i
  by_cases hi : i < g.vertices
  · have hi' : i < g.edges.length := by omega
    simp [List.getElem?_range hi, List.getElem?_eq_getElem hi', List.getD_eq_getElem?_getD]
  · have h1 : (List.range g.vertices).length ≤ i := by simp; omega
    have h2 : g.edges.length ≤ i := by omega
    simp [List.getElem?_eq_none h1, List.getElem?_eq_none h2]

/-- On a well-formed graph `ShortestPath` returns a matrix of the same shape whose cells
are those computed by `loopKF` from the stored cells. -/
theorem shortestPath_refine {g : Graph α} (hg : g.WF) :
    ∃ dist, ShortestPath g = some dist ∧ Shaped g.vertices dist ∧
      cellFn dist = loopKF g.vertices (cellFn g.edges) := by
  obtain ⟨dist, h1, h2, h3⟩ := loopK_refine (n := g.vertices) hg
  refine ⟨dist, ?_, h2, h3⟩
  rw [ShortestPath, copyMatrix_eq hg, Option.some_bind, h1]

/-! ## Relaxations only lower cells -/

theorem relaxF_le (k i j : Nat) (d : Nat → Nat → WithTop α) (a b : Nat) :
    relaxF k i j d a b ≤ d a b := by
  unfold relaxF
  by_cases hc : d i k + d k j < d i j
  · rw [if_pos hc]
    by_cases hab : a = i ∧ b = j
    · obtain ⟨rfl, rfl⟩ := hab
      simpa using le_of_lt hc
    · simp only [if_neg hab, le_refl]
  · rw [if_neg hc]

theorem relaxF_cell_le (k i j : Nat) (d : Nat → Nat → WithTop α) :
    relaxF k i j d i j ≤ d i k + d k j := by
  unfold relaxF
  by_cases hc : d i k + d k j < d i j
  · rw [if_pos hc]
    simp
  · rw [if_neg hc]
    exact not_lt.mp hc

theorem foldl_preserve {τ ι : Type} (P : τ → Prop) (g : τ → ι → τ) (Q : ι → Prop)
    (hstep : ∀ s x, Q x → P s → P (g s x)) :
    ∀ (l : List ι) (s : τ), (∀ x ∈ l, Q x) → P s → P (l.foldl g s) := by
  intro l
  induction l with
  | nil => intro s _ hs; exact hs
  | cons x l ih =>
    intro s hQ hs
    rw [List.foldl_cons]
    exact ih (g s x) (fun y hy => hQ y (List.mem_cons_of_mem x hy))
      (hstep s x (hQ x (List.mem_cons_self x l)) hs)

/-- A property kept by every relaxation with indices in range is kept by the three loops. -/
theorem loopKF_preserve (n : Nat) (P : (Nat → Nat → WithTop α) → Prop)
    (hstep : ∀ k i j d, k < n → i < n → j < n → P d → P (relaxF k i j d))
    (d : Nat → Nat → WithTop α) (hd : P d) : P (loopKF n d) := by
  refine foldl_preserve P (fun d k => loopIF n k d) (fun k => k < n) ?_ (List.range n) d
    (fun x hx => List.mem_range.mp hx) hd
  intro d1 k hk hd1
  refine foldl_preserve P (fun d i => loopJF n k i d) (fun i => i < n) ?_ (List.range n) d1
    (fun x hx => List.mem_range.mp hx) hd1
  intro d2 i hi hd2
  refine foldl_preserve P (fun d j => relaxF k i j d) (fun j => j < n) ?_ (List.range n) d2
    (fun x hx => List.mem_range.mp hx) hd2
  intro d3 j hj hd3
  exact hstep k i j d3 hk hi hj hd3

theorem loopJF_le (n k i : Nat) (d : Nat → Nat → WithTop α) (a b : Nat) :
    loopJF n k i d a b ≤ d a b := by
  refine foldl_preserve (fun d' => d' a b ≤ d a b) (fun d j => relaxF k i j d)
    (fun _ => True) ?_ (List.range n) d (fun _ _ => trivial) le_rfl
  intro s j _ hs
  exact le_trans (relaxF_le k i j s a b) hs

theorem loopIF_le (n k : Nat) (d : Nat → Nat → WithTop α) (a b : Nat) :
    loopIF n k d a b ≤ d a b := by
  refine foldl_preserve (fun d' => d' a b ≤ d a b) (fun d i => loopJF n k i d)
    (fun _ => True) ?_ (List.range n) d (fun _ _ => trivial) le_rfl
  intro s i _ hs
  exact le_trans (loopJF_le n k i s a b) hs

/-- The result of the loops is cell by cell at most the starting matrix. -/
theorem loopKF_le (n : Nat) (d : Nat → Nat → WithTop α) (a b : Nat) :
    loopKF n d a b ≤ d a b := by
  refine foldl_preserve (fun d' => d' a b ≤ d a b) (fun d k => loopIF n k d)
    (fun _ => True) ?_ (List.range n) d (fun _ _ => trivial) le_rfl
  intro s k _ hs
  exact le_trans (loopIF_le n k s a b) hs

/-! ## Walks -/

theorem walkWeight_append (e : Nat → Nat → WithTop α) (k b : Nat) (l2 : List Nat) :
    ∀ (l1 : List Nat) (a : Nat),
      walkWeight e a b (l1 ++ k :: l2) = walkWeight e a k l1 + walkWeight e k b l2 := by
  intro l1
  induction l1 with
  | nil => intro a; rfl
  | cons v l1 ih =>
    intro a
    rw [List.cons_append, walkWeight, ih, walkWeight, add_assoc]

theorem pathWeightF_walk (e : Nat → Nat → WithTop α) (b : Nat) :
    ∀ (l : List Nat) (a : Nat), pathWeightF e (a :: (l ++ [b])) = walkWeight e a b l := by
  intro l
  induction l with
  | nil => intro a; simp [pathWeightF, walkWeight]
  | cons v l ih =>
    intro a
    rw [List.cons_append, pathWeightF, ih, walkWeight]

/-- Every cell of the result is the weight of a walk in the starting matrix. -/
theorem loopKF_realised (n : Nat) (e : Nat → Nat → WithTop α) (a b : Nat) :
    ∃ l : List Nat, (∀ v ∈ l, v < n) ∧ walkWeight e a b l = loopKF n e a b := by
  have h := loopKF_preserve n
    (fun d => ∀ a b, ∃ l : List Nat, (∀ v ∈ l, v < n) ∧ walkWeight e a b l = d a b)
    (by
      intro k i j d hk _ _ hd a b
      unfold relaxF
      by_cases hc : d i k + d k j < d i j
      · rw [if_pos hc]
        by_cases hab : a = i ∧ b = j
        · obtain ⟨rfl, rfl⟩ := hab
          obtain ⟨l1, hl1, hw1⟩ := hd a k
          obtain ⟨l2, hl2, hw2⟩ := hd k b
          refine ⟨l1 ++ k :: l2, ?_, ?_⟩
          · intro v hv
            rcases List.mem_append.mp hv with h | h
            · exact hl1 v h
            · rcases List.mem_cons.mp h with h | h
              · exact h ▸ hk
              · exact hl2 v h
          · simp [walkWeight_append, hw1, hw2]
        · simpa only [if_neg hab] using hd a b
      · simpa only [if_neg hc] using hd a b)
    e (fun a b => ⟨[], by simp, rfl⟩)
  exact h a b

/-! ## One round of the outer loop -/

/-- A loop over `0, ..., n - 1` whose steps keep `Q`, establish `V x` at step `x`, and keep
every `V y` once established. -/
theorem foldl_range_visit {τ : Type} (g : τ → Nat → τ) (Q : τ → Prop) (V : Nat → τ → Prop)
    (hQ : ∀ s x, Q s → Q (g s x))
    (hV : ∀ s x, Q s → V x (g s x))
    (hkeep : ∀ s x y, Q s → V y s → V y (g s x)) :
    ∀ (n : Nat) (s : τ), Q s →
      Q ((List.range n).foldl g s) ∧ ∀ y, y < n → V y ((List.range n).foldl g s) := by
  intro n
  induction n with
  | zero =>
    intro s hs
    exact ⟨hs, fun y hy => absurd hy (Nat.not_lt_zero y)⟩
  | succ n ih =>
    intro s hs
    obtain ⟨h1, h2⟩ := ih s hs
    rw [List.range_succ, List.foldl_append]
    refine ⟨hQ _ _ h1, ?_⟩
    intro y hy
    rcases Nat.lt_succ_iff_lt_or_eq.mp hy with h | h
    · exact hkeep _ _ _ h1 (h2 y h)
    · subst h
      exact hV _ _ h1

theorem loopJF_visit (n k i : Nat) (d0 d : Nat → Nat → WithTop α)
    (hd : ∀ a b, d a b ≤ d0 a b) :
    (∀ a b, loopJF n k i d a b ≤ d0 a b) ∧
      ∀ b, b < n → loopJF n k i d i b ≤ d0 i k + d0 k b := by
  refine foldl_range_visit (fun d j => relaxF k i j d) (fun s => ∀ a b, s a b ≤ d0 a b)
    (fun j s => s i j ≤ d0 i k + d0 k j) ?_ ?_ ?_ n d hd
  · intro s j hs a b
    exact le_trans (relaxF_le k i j s a b) (hs a b)
  · intro s j hs
    exact le_trans (relaxF_cell_le k i j s) (add_le_add (hs i k) (hs k j))
  · intro s j y _ hy
    exact le_trans (relaxF_le k i j s i y) hy

/-- After the round of the outer loop for `k`, every cell is at most its value before the
round and at most the sum of the two cells through `k` before the round. -/
theorem loopIF_visit (n k : Nat) (d0 : Nat → Nat → WithTop α) :
    (∀ a b, loopIF n k d0 a b ≤ d0 a b) ∧
      ∀ a, a < n → ∀ b, b < n → loopIF n k d0 a b ≤ d0 a k + d0 k b := by
  refine foldl_range_visit (fun d i => loopJF n k i d) (fun s => ∀ a b, s a b ≤ d0 a b)
    (fun i s => ∀ b, b < n → s i b ≤ d0 i k + d0 k b) ?_ ?_ ?_ n d0 (fun _ _ => le_rfl)
  · intro s i hs
    exact (loopJF_visit n k i d0 s hs).1
  · intro s i hs
    exact (loopJF_visit n k i d0 s hs).2
  · intro s i y _ hy b hb
    exact le_trans (loopJF_le n k i s y b) (hy b hb)

/-- After the rounds `0, ..., m - 1` every cell is at most the weight of every walk whose
intermediate vertices are pairwise distinct and smaller than `m`. -/
theorem rounds_lower (n : Nat) (e : Nat → Nat → WithTop α) :
    ∀ m, m ≤ n → ∀ a, a < n → ∀ b, b < n → ∀ l : List Nat, l.Nodup → (∀ v ∈ l, v < m) →
      (List.range m).foldl (fun d k => loopIF n k d) e a b ≤ walkWeight e a b l := by
  intro m
  induction m with
  | zero =>
    intro _ a _ b _ l _ hl
    cases l with
    | nil => exact le_rfl
    | cons v l => exact absurd (hl v (List.mem_cons_self v l)) (Nat.not_lt_zero v)
  | succ m ih =>
    intro hm a ha b hb l hnd hl
    have ih' := ih (Nat.le_of_succ_le hm)
    rw [List.range_succ, List.foldl_append]
    simp only [List.foldl_cons, List.foldl_nil]
    obtain ⟨hle, hvia⟩ := loopIF_visit n m ((List.range m).foldl (fun d k => loopIF n k d) e)
    by_cases hmem : m ∈ l
    · obtain ⟨l1, l2, rfl⟩ := List.append_of_mem hmem
      have hnd' := List.nodup_append.mp hnd
      have hnd2 := List.nodup_cons.mp hnd'.2.1
      have hm1 : m ∉ l1 := fun h => hnd'.2.2 h (List.mem_cons_self m l2)
      have hl1 : ∀ v ∈ l1, v < m := by
        intro v hv
        have h1 : v < m + 1 := hl v (List.mem_append_left _ hv)
        have h2 : v ≠ m := fun h => hm1 (h ▸ hv)
        omega
      have hl2 : ∀ v ∈ l2, v < m := by
        intro v hv
        have h1 : v < m + 1 := hl v (List.mem_append_right _ (List.mem_cons_of_mem m hv))
        have h2 : v ≠ m := fun h => hnd2.1 (h ▸ hv)
        omega
      rw [walkWeight_append]
      exact le_trans (hvia a ha b hb)
        (add_le_add (ih' a ha m (by omega) l1 hnd'.1 hl1) (ih' m (by omega) b hb l2 hnd2.2 hl2))
    · have hl' : ∀ v ∈ l, v < m := by
        intro v hv
        have h1 : v < m + 1 := hl v hv
        have h2 : v ≠ m := fun h => hmem (h ▸ hv)
        omega
      exact le_trans (hle a b) (ih' a ha b hb l hnd hl')

/-- The result of the loops is at most the weight of every walk of the starting matrix
whose intermediate vertices are pairwise distinct, whatever the weights. -/
theorem loopKF_lower (n : Nat) (e : Nat → Nat → WithTop α) {a b : Nat} (ha : a < n)
    (hb : b < n) {l : List Nat} (hnd : l.Nodup) (hl : ∀ v ∈ l, v < n) :
    loopKF n e a b ≤ walkWeight e a b l :=
  rounds_lower n e n le_rfl a ha b hb l hnd hl

/-! ## Deleting the cycles of a walk -/

theorem exists_repeat_of_not_nodup :
    ∀ l : List Nat, ¬ l.Nodup → ∃ l1 v l2 l3, l = l1 ++ v :: (l2 ++ v :: l3) := by
  intro l
  induction l with
  | nil => intro h; exact absurd List.nodup_nil h
  | cons x l ih =>
    intro h
    by_cases hx : x ∈ l
    · obtain ⟨s, t, rfl⟩ := List.append_of_mem hx
      exact ⟨[], x, s, t, rfl⟩
    · have hl : ¬ l.Nodup := fun hn => h (List.nodup_cons.mpr ⟨hx, hn⟩)
      obtain ⟨l1, v, l2, l3, rfl⟩ := ih hl
      exact ⟨x :: l1, v, l2, l3, rfl⟩

/-- A property of lists kept when a segment between two occurrences of a vertex is deleted
holds of some list without repetition, as soon as it holds of some list. -/
theorem exists_nodup_of_delete (P : List Nat → Prop)
    (hdel : ∀ l1 v l2 l3, P (l1 ++ v :: (l2 ++ v :: l3)) → P (l1 ++ v :: l3)) :
    ∀ (N : Nat) (l : List Nat), l.length ≤ N → P l → ∃ l', l'.Nodup ∧ P l' := by
  intro N
  induction N with
  | zero =>
    intro l hlen hP
    have : l = [] := List.length_eq_zero.mp (Nat.le_zero.mp hlen)
    subst this
    exact ⟨[], List.nodup_nil, hP⟩
  | succ N ih =>
    intro l hlen hP
    by_cases hnd : l.Nodup
    · exact ⟨l, hnd, hP⟩
    · obtain ⟨l1, v, l2, l3, rfl⟩ := exists_repeat_of_not_nodup l hnd
      refine ih (l1 ++ v :: l3) ?_ (hdel l1 v l2 l3 hP)
      simp only [List.length_append, List.length_cons] at hlen ⊢
      omega

theorem pathWeightF_split (e : Nat → Nat → WithTop α) (v : Nat) (r : List Nat) :
    ∀ l1 : List Nat,
      pathWeightF e (l1 ++ v :: r) = pathWeightF e (l1 ++ [v]) + pathWeightF e (v :: r) := by
  intro l1
  induction l1 with
  | nil => simp [pathWeightF]
  | cons a l1 ih =>
    cases l1 with
    | nil => simp [pathWeightF]
    | cons b l1 =>
      have h1 : pathWeightF e ((a :: b :: l1) ++ v :: r) =
          e a b + pathWeightF e ((b :: l1) ++ v :: r) := rfl
      have h2 : pathWeightF e ((a :: b :: l1) ++ [v]) =
          e a b + pathWeightF e ((b :: l1) ++ [v]) := rfl
      rw [h1, h2, ih, add_assoc]

/-! ## Closed walks when no cycle is negative -/

/-- When no cycle through pairwise distinct vertices is negative, no closed walk is. -/
theorem closedWalk_nonneg (n : Nat) (e : Nat → Nat → WithTop α)
    (hc : ∀ (v : Nat) (l : List Nat), (v :: l).Nodup → (∀ u ∈ v :: l, u < n) →
      0 ≤ walkWeight e v v l) :
    ∀ (N : Nat) (v : Nat) (l : List Nat), l.length ≤ N → (∀ u ∈ v :: l, u < n) →
      0 ≤ walkWeight e v v l := by
  intro N
  induction N with
  | zero =>
    intro v l hlen hr
    have : l = [] := List.length_eq_zero.mp (Nat.le_zero.mp hlen)
    subst this
    exact hc v [] (by simp) hr
  | succ N ih =>
    intro v l hlen hr
    by_cases hnd : (v :: l).Nodup
    · exact hc v l hnd hr
    · obtain ⟨l1, u, l2, l3, heq⟩ := exists_repeat_of_not_nodup (v :: l) hnd
      cases l1 with
      | nil =>
        simp only [List.nil_append, List.cons.injEq] at heq
        obtain ⟨rfl, rfl⟩ := heq
        rw [walkWeight_append]
        simp only [List.length_append, List.length_cons] at hlen
        refine add_nonneg (ih v l2 (by omega) ?_) (ih v l3 (by omega) ?_)
        · intro x hx
          apply hr
          simp only [List.mem_cons, List.mem_append] at hx ⊢
          tauto
        · intro x hx
          apply hr
          simp only [List.mem_cons, List.mem_append] at hx ⊢
          tauto
      | cons w l1 =>
        simp only [List.cons_append, List.cons.injEq] at heq
        obtain ⟨rfl, rfl⟩ := heq
        simp only [List.length_append, List.length_cons] at hlen
        have h1 : 0 ≤ walkWeight e u u l2 := by
          refine ih u l2 (by omega) ?_
          intro x hx
          apply hr
          simp only [List.mem_cons, List.mem_append] at hx ⊢
          tauto
        have h2 : 0 ≤ walkWeight e v v (l1 ++ u :: l3) := by
          refine ih v (l1 ++ u :: l3) ?_ ?_
          · simp only [List.length_append, List.length_cons]
            omega
          · intro x hx
            apply hr
            simp only [List.mem_cons, List.mem_append] at hx ⊢
            tauto
        rw [walkWeight_append] at h2
        rw [walkWeight_append, walkWeight_append, add_left_comm]
        exact add_nonneg h1 h2

/-- When no closed walk is negative, the result of the loops is at most the weight of
every walk of the starting matrix. -/
theorem loopKF_lower_walk (n : Nat) (e : Nat → Nat → WithTop α)
    (hcw : ∀ (v : Nat) (l : List Nat), (∀ u ∈ v :: l, u < n) → 0 ≤ walkWeight e v v l)
    {a b : Nat} (ha : a < n) (hb : b < n) (l : List Nat) (hl : ∀ v ∈ l, v < n) :
    loopKF n e a b ≤ walkWeight e a b l := by
  obtain ⟨l', hnd, hl', hw⟩ := exists_nodup_of_delete
    (fun l' => (∀ v ∈ l', v < n) ∧ walkWeight e a b l' ≤ walkWeight e a b l)
    (by
      rintro l1 v l2 l3 ⟨hr, hw⟩
      refine ⟨?_, le_trans ?_ hw⟩
      · intro x hx
        apply hr
        simp only [List.mem_cons, List.mem_append] at hx ⊢
        tauto
      · rw [walkWeight_append, walkWeight_append, walkWeight_append]
        refine add_le_add le_rfl (le_add_of_nonneg_left (hcw v l2 ?_))
        intro x hx
        apply hr
        simp only [List.mem_cons, List.mem_append] at hx ⊢
        tauto)
    l.length l le_rfl ⟨hl, le_rfl⟩
  exact le_trans (loopKF_lower n e ha hb hnd hl') hw

/-! ## Vertex sequences -/

theorem route_cases {n i j : Nat} {p : List Nat} (h : IsRoute n i j p) :
    (p = [i] ∧ i = j) ∨ ∃ l : List Nat, p = i :: (l ++ [j]) ∧ ∀ v ∈ l, v < n := by
  obtain ⟨hh, hl, hr⟩ := h
  cases p with
  | nil => simp at hh
  | cons a t =>
    simp only [List.head?_cons, Option.some.injEq] at hh
    subst hh
    rcases List.eq_nil_or_concat t with ht | ⟨L, b, ht⟩
    · subst ht
      simp only [List.getLast?_singleton, Option.some.injEq] at hl
      exact Or.inl ⟨rfl, hl⟩
    · rw [List.concat_eq_append] at ht
      subst ht
      have hb : b = j := by
        have h1 : (a :: (L ++ [b])).getLast? = some b := by
          rw [← List.cons_append, List.getLast?_concat]
        rw [h1] at hl
        exact Option.some.inj hl
      subst hb
      refine Or.inr ⟨L, rfl, ?_⟩
      intro v hv
      exact hr v (List.mem_cons_of_mem a (List.mem_append_left _ hv))

theorem route_of_walk {n i j : Nat} (hi : i < n) (hj : j < n) {l : List Nat}
    (hl : ∀ v ∈ l, v < n) : IsRoute n i j (i :: (l ++ [j])) := by
  refine ⟨rfl, ?_, ?_⟩
  · rw [← List.cons_append, List.getLast?_concat]
  · intro v hv
    simp only [List.mem_cons, List.mem_append, List.mem_singleton, List.not_mem_nil,
      or_false] at hv
    rcases hv with h | h | h
    · exact h ▸ hi
    · exact hl v h
    · exact h ▸ hj

theorem route_delete {n i j : Nat} (l1 : List Nat) (v : Nat) (l2 l3 : List Nat)
    (h : IsRoute n i j (l1 ++ v :: (l2 ++ v :: l3))) : IsRoute n i j (l1 ++ v :: l3) := by
  obtain ⟨hh, hl, hr⟩ := h
  refine ⟨?_, ?_, ?_⟩
  · cases l1 with
    | nil => simpa using hh
    | cons a l1 => simpa using hh
  · rw [List.getLast?_append_of_ne_nil _ (List.cons_ne_nil _ _)] at hl ⊢
    rw [← List.cons_append, List.getLast?_append_of_ne_nil _ (List.cons_ne_nil _ _)] at hl
    exact hl
  · intro x hx
    apply hr
    simp only [List.mem_cons, List.mem_append] at hx ⊢
    tauto

theorem pathWeightF_delete (e : Nat → Nat → WithTop α) (l1 : List Nat) (v : Nat)
    (l2 l3 : List Nat) :
    pathWeightF e (l1 ++ v :: (l2 ++ v :: l3)) =
      pathWeightF e (l1 ++ [v]) + (walkWeight e v v l2 + pathWeightF e (v :: l3)) := by
  rw [pathWeightF_split e v (l2 ++ v :: l3) l1, ← List.cons_append,
    pathWeightF_split e v l3 (v :: l2), List.cons_append, pathWeightF_walk]

theorem pathWeightF_ne_top_of_chain (e : Nat → Nat → WithTop α) :
    ∀ p : List Nat, (p.Chain' fun u v => e u v ≠ ⊤) → pathWeightF e p ≠ ⊤ := by
  intro p
  induction p with
  | nil => intro _; simp [pathWeightF]
  | cons a p ih =>
    cases p with
    | nil => intro _; simp [pathWeightF]
    | cons b p =>
      intro hc
      rw [List.chain'_cons] at hc
      rw [pathWeightF]
      exact WithTop.add_ne_top.mpr ⟨hc.1, ih hc.2⟩

theorem chain_of_nodup_finite (e : Nat → Nat → WithTop α) :
    ∀ p : List Nat, p.Nodup → pathWeightF e p ≠ ⊤ →
      p.Chain' fun u v => u ≠ v ∧ e u v ≠ ⊤ := by
  intro p
  induction p with
  | nil => intro _ _; exact List.chain'_nil
  | cons a p ih =>
    cases p with
    | nil => intro _ _; exact List.chain'_singleton a
    | cons b p =>
      intro hnd hw
      rw [pathWeightF] at hw
      have hw' := WithTop.add_ne_top.mp hw
      have hnd' := List.nodup_cons.mp hnd
      rw [List.chain'_cons]
      refine ⟨⟨?_, hw'.1⟩, ih hnd'.2 hw'.2⟩
      intro hab
      exact hnd'.1 (hab ▸ List.mem_cons_self b p)

/-! ## The result of `ShortestPath` on a well-formed graph -/

theorem shortestPath_cells {g : Graph α} (hg : g.WF) :
    ∃ dist, ShortestPath g = some dist ∧ Shaped g.vertices dist ∧
      ∀ i j, i < g.vertices → j < g.vertices →
        getCell dist i j = some (loopKF g.vertices (cellFn g.edges) i j) := by
  obtain ⟨dist, h1, h2, h3⟩ := shortestPath_refine hg
  refine ⟨dist, h1, h2, ?_⟩
  intro i j hi hj
  rw [getCell_eq_cellFn h2 hi hj, h3]

theorem getShortestDistance_cell {g : Graph α} (hg : g.WF) {i j : Nat}
    (hi : i < g.vertices) (hj : j < g.vertices) :
    GetShortestDistance g i j = some (loopKF g.vertices (cellFn g.edges) i j) := by
  obtain ⟨dist, h1, -, h3⟩ := shortestPath_cells hg
  have hguard : ¬ ((i : Int) < 0 ∨ (i : Int) ≥ g.vertices ∨ (j : Int) < 0 ∨
      (j : Int) ≥ g.vertices) := by omega
  simp only [GetShortestDistance, if_neg hguard, h1, Option.some_bind, Int.toNat_ofNat]
  exact h3 i j hi hj

theorem noNegCycle_closedWalk {g : Graph α} (h : NoNegCycle g) (v : Nat) (l : List Nat)
    (hr : ∀ u ∈ v :: l, u < g.vertices) : 0 ≤ walkWeight (cellFn g.edges) v v l := by
  refine closedWalk_nonneg g.vertices (cellFn g.edges) ?_ l.length v l le_rfl hr
  intro v l hnd hr
  have := h v l hnd hr
  rwa [pathWeight, pathWeightF_walk] at this

/-- With a zero diagonal cell at `i` and no negative cycle the cell `(i, i)` stays `0`. -/
theorem loopKF_diag {g : Graph α} (hc : NoNegCycle g) {i : Nat} (hi : i < g.vertices)
    (h0 : cellFn g.edges i i = 0) : loopKF g.vertices (cellFn g.edges) i i = 0 := by
  apply le_antisymm
  · exact h0 ▸ loopKF_le g.vertices (cellFn g.edges) i i
  · obtain ⟨l, hl, hw⟩ := loopKF_realised g.vertices (cellFn g.edges) i i
    rw [← hw]
    refine noNegCycle_closedWalk hc i l ?_
    intro u hu
    rcases List.mem_cons.mp hu with h | h
    · exact h ▸ hi
    · exact hl u h

/-- With no negative cycle the result satisfies the triangle inequality. -/
theorem loopKF_triangle {g : Graph α} (hc : NoNegCycle g) {i j k : Nat}
    (hi : i < g.vertices) (hj : j < g.vertices) (hk : k < g.vertices) :
    loopKF g.vertices (cellFn g.edges) i j ≤
      loopKF g.vertices (cellFn g.edges) i k + loopKF g.vertices (cellFn g.edges) k j := by
  obtain ⟨l1, hl1, hw1⟩ := loopKF_realised g.vertices (cellFn g.edges) i k
  obtain ⟨l2, hl2, hw2⟩ := loopKF_realised g.vertices (cellFn g.edges) k j
  rw [← hw1, ← hw2, ← walkWeight_append]
  refine loopKF_lower_walk g.vertices (cellFn g.edges) (noNegCycle_closedWalk hc) hi hj _ ?_
  intro v hv
  rcases List.mem_append.mp hv with h | h
  · exact hl1 v h
  · rcases List.mem_cons.mp h with h | h
    · exact h ▸ hk
    · exact hl2 v h

/-- With a zero diagonal and no negative cycle the result is at most the weight of every
vertex sequence from `i` to `j`. -/
theorem loopKF_lower_route {g : Graph α} (hc : NoNegCycle g)
    (h0 : ∀ v, v < g.vertices → cellFn g.edges v v = 0) {i j : Nat} (hi : i < g.vertices)
    (hj : j < g.vertices) {p : List Nat} (hp : IsRoute g.vertices i j p) :
    loopKF g.vertices (cellFn g.edges) i j ≤ pathWeight g p := by
  rcases route_cases hp with ⟨rfl, rfl⟩ | ⟨l, rfl, hl⟩
  · have h := loopKF_le g.vertices (cellFn g.edges) i i
    rw [h0 i hi] at h
    simpa [pathWeight, pathWeightF] using h
  · rw [pathWeight, pathWeightF_walk]
    exact loopKF_lower_walk g.vertices (cellFn g.edges) (noNegCycle_closedWalk hc) hi hj l hl

/-- With a zero diagonal and no negative cycle every finite cell of the result is the
weight of a directed path without repeated vertex. -/
theorem loopKF_simple_path {g : Graph α} (hc : NoNegCycle g)
    (h0 : ∀ v, v < g.vertices → cellFn g.edges v v = 0) {i j : Nat} (hi : i < g.vertices)
    (hj : j < g.vertices) (hfin : loopKF g.vertices (cellFn g.edges) i j ≠ ⊤) :
    ∃ p, IsPath g i j p ∧ p.Nodup ∧
      pathWeight g p = loopKF g.vertices (cellFn g.edges) i j := by
  obtain ⟨l, hl, hw⟩ := loopKF_realised g.vertices (cellFn g.edges) i j
  obtain ⟨p, hnd, hroute, hle⟩ := exists_nodup_of_delete
    (fun q => IsRoute g.vertices i j q ∧
      pathWeight g q ≤ loopKF g.vertices (cellFn g.edges) i j)
    (by
      rintro l1 v l2 l3 ⟨hr, hle⟩
      refine ⟨route_delete l1 v l2 l3 hr, le_trans ?_ hle⟩
      rw [pathWeight, pathWeight, pathWeightF_delete, pathWeightF_split]
      refine add_le_add le_rfl (le_add_of_nonneg_left (noNegCycle_closedWalk hc v l2 ?_))
      intro x hx
      apply hr.2.2
      simp only [List.mem_cons, List.mem_append] at hx ⊢
      tauto)
    (i :: (l ++ [j])).length (i :: (l ++ [j])) le_rfl
    ⟨route_of_walk hi hj hl, by rw [pathWeight, pathWeightF_walk, hw]⟩
  have heq : pathWeight g p = loopKF g.vertices (cellFn g.edges) i j :=
    le_antisymm hle (loopKF_lower_route hc h0 hi hj hroute)
  refine ⟨p, ⟨hroute, chain_of_nodup_finite _ p hnd ?_⟩, hnd, heq⟩
  rw [pathWeight] at heq
  rw [heq]
  exact hfin

/-! ## Reachability along inserted edges -/

theorem lastWrite_eq_none {ops : List (Int × Int × WithTop α)} {i j : Nat}
    (h : ∀ op ∈ ops, ¬ (op.1 = (i : Int) ∧ op.2.1 = (j : Int))) :
    lastWrite ops i j = none := by
  simp only [lastWrite, Option.map_eq_none', List.find?_eq_none, List.mem_reverse,
    decide_eq_true_eq]
  exact h

theorem lastWrite_eq_some {ops : List (Int × Int × WithTop α)} {i j : Nat} {w : WithTop α}
    (h : lastWrite ops i j = some w) :
    ∃ op ∈ ops, op.1 = (i : Int) ∧ op.2.1 = (j : Int) ∧ op.2.2 = w := by
  simp only [lastWrite, Option.map_eq_some'] at h
  obtain ⟨op, hfind, hw⟩ := h
  have hmem := List.mem_of_find?_eq_some hfind
  have hp := List.find?_some hfind
  simp only [decide_eq_true_eq] at hp
  exact ⟨op, List.mem_reverse.mp hmem, hp.1, hp.2, hw⟩

/-- After calls with finite weights a cell is finite exactly when it lies on the diagonal
or an edge was inserted for it. -/
theorem cell_finite_iff (n : Nat) (ops : List (Int × Int × α)) {g : Graph α}
    (hg : build n (finiteOps ops) = some g) {u v : Nat} (hu : u < n) (hv : v < n) :
    cellFn g.edges u v ≠ ⊤ ↔
      (u = v ∨ ∃ op ∈ ops, op.1 = (u : Int) ∧ op.2.1 = (v : Int)) := by
  obtain ⟨g', hb, -, -, hcell⟩ := build_spec n (finiteOps ops)
  rw [hg] at hb
  obtain rfl := Option.some.inj hb
  have hc : cellFn g.edges u v = (lastWrite (finiteOps ops) u v).getD (initCell u v) := by
    simp [cellFn, hcell u v hu hv]
  rw [hc]
  cases hlw : lastWrite (finiteOps ops) u v with
  | none =>
    have hno : ¬ ∃ op ∈ ops, op.1 = (u : Int) ∧ op.2.1 = (v : Int) := by
      rintro ⟨op, hop, h1, h2⟩
      have hmem : (op.1, op.2.1, (op.2.2 : WithTop α)) ∈ finiteOps ops :=
        List.mem_map.mpr ⟨op, hop, rfl⟩
      have hne : lastWrite (finiteOps ops) u v ≠ none := by
        simp only [lastWrite, ne_eq, Option.map_eq_none', List.find?_eq_none,
          List.mem_reverse, decide_eq_true_eq, not_forall]
        exact ⟨_, hmem, fun hcon => hcon ⟨h1, h2⟩⟩
      exact hne hlw
    by_cases huv : u = v
    · simp [initCell, huv]
    · simp [initCell, huv, hno]
  | some w =>
    obtain ⟨op', hop', h1, h2, h3⟩ := lastWrite_eq_some hlw
    obtain ⟨op, hop, rfl⟩ := List.mem_map.mp hop'
    simp only [Option.getD_some]
    subst h3
    simp only [ne_eq, WithTop.coe_ne_top, not_false_eq_true, true_iff]
    exact Or.inr ⟨op, hop, h1, h2⟩

theorem insertedPath_of_walk (n : Nat) (ops : List (Int × Int × α))
    (e : Nat → Nat → WithTop α)
    (he : ∀ u v, u < n → v < n → e u v ≠ ⊤ →
      (u = v ∨ ∃ op ∈ ops, op.1 = (u : Int) ∧ op.2.1 = (v : Int)))
    {b : Nat} (hb : b < n) :
    ∀ (l : List Nat) (a : Nat), a < n → (∀ v ∈ l, v < n) → walkWeight e a b l ≠ ⊤ →
      ∃ p, IsInsertedPath n ops a b p := by
  intro l
  induction l with
  | nil =>
    intro a ha _ hw
    rcases he a b ha hb hw with h | h
    · subst h
      exact ⟨[a], ⟨rfl, rfl, by simpa using ha⟩, List.chain'_singleton a⟩
    · refine ⟨[a, b], ⟨rfl, rfl, ?_⟩, ?_⟩
      · intro v hv
        simp only [List.mem_cons, List.mem_singleton, List.not_mem_nil, or_false] at hv
        rcases hv with h' | h'
        · exact h' ▸ ha
        · exact h' ▸ hb
      · exact List.chain'_cons.mpr ⟨h, List.chain'_singleton b⟩
  | cons v l ih =>
    intro a ha hl hw
    rw [walkWeight] at hw
    have hw' := WithTop.add_ne_top.mp hw
    have hv : v < n := hl v (List.mem_cons_self v l)
    obtain ⟨p, ⟨hh, hlast, hr⟩, hch⟩ :=
      ih v hv (fun x hx => hl x (List.mem_cons_of_mem v hx)) hw'.2
    rcases he a v ha hv hw'.1 with h | h
    · subst h
      exact ⟨p, ⟨hh, hlast, hr⟩, hch⟩
    · cases p with
      | nil => simp at hh
      | cons c p =>
        simp only [List.head?_cons, Option.some.injEq] at hh
        subst hh
        refine ⟨a :: c :: p, ⟨rfl, ?_, ?_⟩, List.chain'_cons.mpr ⟨h, hch⟩⟩
        · rw [List.getLast?_cons_cons]
          exact hlast
        · intro x hx
          rcases List.mem_cons.mp hx with h' | h'
          · exact h' ▸ ha
          · exact hr x h'

theorem finite_of_insertedPath (n : Nat) (ops : List (Int × Int × α))
    (e : Nat → Nat → WithTop α)
    (he : ∀ u v, u < n → v < n →
      (∃ op ∈ ops, op.1 = (u : Int) ∧ op.2.1 = (v : Int)) → e u v ≠ ⊤)
    {i j : Nat} {p : List Nat} (hp : IsInsertedPath n ops i j p) :
    pathWeightF e p ≠ ⊤ := by
  obtain ⟨⟨-, -, hr⟩, hch⟩ := hp
  refine pathWeightF_ne_top_of_chain e p ?_
  refine (List.Chain'.iff_mem.mp hch).imp ?_
  rintro u v ⟨hu, hv, h⟩
  exact he u v (hr u hu) (hr v hv) h

/-- Whatever the weights, the cell `(i, j)` of the result is finite as soon as some vertex
sequence from `i` to `j` in range has a finite weight (`i ≠ j`). -/
theorem loopKF_finite_of_route (n : Nat) (e : Nat → Nat → WithTop α) {i j : Nat}
    (hi : i < n) (hj : j < n) (hij : i ≠ j) {p : List Nat} (hp : IsRoute n i j p)
    (hw : pathWeightF e p ≠ ⊤) : loopKF n e i j ≠ ⊤ := by
  obtain ⟨q, hnd, hroute, hfin⟩ := exists_nodup_of_delete
    (fun q => IsRoute n i j q ∧ pathWeightF e q ≠ ⊤)
    (by
      rintro l1 v l2 l3 ⟨hr, hne⟩
      refine ⟨route_delete l1 v l2 l3 hr, ?_⟩
      rw [pathWeightF_delete] at hne
      rw [pathWeightF_split]
      have h1 := WithTop.add_ne_top.mp hne
      have h2 := WithTop.add_ne_top.mp h1.2
      exact WithTop.add_ne_top.mpr ⟨h1.1, h2.2⟩)
    p.length p le_rfl ⟨hp, hw⟩
  rcases route_cases hroute with ⟨-, h⟩ | ⟨l, rfl, hl⟩
  · exact absurd h hij
  · rw [pathWeightF_walk] at hfin
    have hnd' : l.Nodup := by
      have h1 := (List.nodup_cons.mp hnd).2
      exact (List.nodup_append.mp h1).1
    exact ne_top_of_le_ne_top hfin (loopKF_lower n e hi hj hnd' hl)

/-! ## Graphs with nonnegative cells have no negative cycle -/

theorem cellFn_nonneg {m : List (List (WithTop α))}
    (h : ∀ row ∈ m, ∀ x ∈ row, (0 : WithTop α) ≤ x) (u v : Nat) : 0 ≤ cellFn m u v := by
  unfold cellFn getCell
  cases hrow : m[u]? with
  | none => simp
  | some row =>
    cases hx : row[v]? with
    | none => simp [hx]
    | some x =>
      simp only [hx, Option.getD_some]
      exact h row (List.getElem?_mem hrow) x (List.getElem?_mem hx)

theorem pathWeightF_nonneg (e : Nat → Nat → WithTop α) (he : ∀ u v, 0 ≤ e u v) :
    ∀ p : List Nat, 0 ≤ pathWeightF e p := by
  intro p
  induction p with
  | nil => simp [pathWeightF]
  | cons a p ih =>
    cases p with
    | nil => simp [pathWeightF]
    | cons b p =>
      rw [pathWeightF]
      exact add_nonneg (he a b) ih

theorem noNegCycle_of_nonneg (g : Graph α)
    (h : ∀ row ∈ g.edges, ∀ x ∈ row, (0 : WithTop α) ≤ x) : NoNegCycle g := by
  intro v l _ _
  exact pathWeightF_nonneg _ (cellFn_nonneg h) _


/-! ## Properties of the specification -/

/-- C2. Reference scenario: after `NewGraph(4)` and the calls `AddEdge(0,1,5)`,
`AddEdge(0,2,3)`, `AddEdge(1,2,2)`, `AddEdge(1,3,6)`, `AddEdge(2,3,7)`, the calls
`GetShortestDistance(0,3)`, `GetShortestDistance(0,1)` and `GetShortestDistance(1,3)`
return `10`, `5` and `6`. -/
theorem reference_scenario :
    ∃ g : Graph ℤ, build 4 (finiteOps demoEdges) = some g ∧
      GetShortestDistance g 0 3 = some 10 ∧ GetShortestDistance g 0 1 = some 5 ∧
      GetShortestDistance g 1 3 = some 6 :=
  ⟨demoGraph, by decide, by decide, by decide, by decide⟩

/-- C5. Monotonic improvement: for every graph `g` whose matrix is `n × n` and all
`i, j < n`, the cell `(i, j)` of the result of `ShortestPath` is at most the stored cell
`g.edges[i][j]`. -/
theorem shortestPath_le_edge (g : Graph α) (hg : g.WF) (i j : Nat) (hi : i < g.vertices)
    (hj : j < g.vertices) :
    ∃ dist x w, ShortestPath g = some dist ∧ getCell dist i j = some x ∧
      getCell g.edges i j = some w ∧ x ≤ w := by
  obtain ⟨dist, hsp, -, hd⟩ := shortestPath_cells hg
  exact ⟨dist, _, _, hsp, hd i j hi hj, getCell_eq_cellFn hg hi hj,
    loopKF_le g.vertices (cellFn g.edges) i j⟩

theorem shortestPath_le_edge_witness :
    demoGraph.WF ∧ ∃ dist x w, ShortestPath demoGraph = some dist ∧
      getCell dist 0 3 = some x ∧ getCell demoGraph.edges 0 3 = some w ∧ x ≤ w :=
  ⟨by decide, shortestPath_le_edge demoGraph (by decide) 0 3 (by decide) (by decide)⟩


/-- C7. Bounds rejection: for every graph `g`, every weight `w` and all integers `u, v`
with `u < 0` or `u ≥ n` or `v < 0` or `v ≥ n`, the call `AddEdge(u, v, w)` succeeds and
leaves the graph as it was (same vertex count, same matrix). -/
theorem addEdge_bounds_rejection (g : Graph α) (w : WithTop α) (u v : Int)
    (h : u < 0 ∨ u ≥ g.vertices ∨ v < 0 ∨ v ≥ g.vertices) : AddEdge g u v w = some g :=
  addEdge_outOfRange g h w

theorem addEdge_bounds_rejection_witness :
    AddEdge demoGraph (-1) 0 5 = some demoGraph ∧ AddEdge demoGraph 0 4 5 = some demoGraph :=
  ⟨addEdge_bounds_rejection demoGraph 5 (-1) 0 (by decide),
    addEdge_bounds_rejection demoGraph 5 0 4 (by decide)⟩

/-- C8. Effect and frame of `AddEdge`: for every graph `g` whose matrix is `n × n`, all
`u, v < n` and every weight `w`, the call `AddEdge(u, v, w)` succeeds, the cell `(u, v)`
of the new matrix is `w` (also when `u = v`), every other cell is as before, and the
vertex count is unchanged. -/
theorem addEdge_effect_frame (g : Graph α) (hg : g.WF) (u v : Nat) (hu : u < g.vertices)
    (hv : v < g.vertices) (w : WithTop α) :
    ∃ g', AddEdge g u v w = some g' ∧ getCell g'.edges u v = some w ∧
      (∀ i j, ¬ (i = u ∧ j = v) → getCell g'.edges i j = getCell g.edges i j) ∧
      g'.vertices = g.vertices := by
  obtain ⟨g', hadd, hn, -, hcell⟩ := addEdge_inRange hg (Int.ofNat_nonneg u)
    (Int.ofNat_lt.mpr hu) (Int.ofNat_nonneg v) (Int.ofNat_lt.mpr hv) w
  simp only [Int.toNat_ofNat] at hcell
  refine ⟨g', hadd, ?_, ?_, hn⟩
  · rw [hcell, if_pos ⟨rfl, rfl⟩]
  · intro i j hne
    rw [hcell, if_neg hne]

theorem addEdge_effect_frame_witness :
    demoGraph.WF ∧ ∃ g', AddEdge demoGraph ((1 : Nat) : Int) ((1 : Nat) : Int) 9 = some g' ∧
      getCell g'.edges 1 1 = some 9 ∧
      (∀ i j, ¬ (i = 1 ∧ j = 1) → getCell g'.edges i j = getCell demoGraph.edges i j) ∧
      g'.vertices = demoGraph.vertices :=
  ⟨by decide, addEdge_effect_frame demoGraph (by decide) 1 1 (by decide) (by decide) 9⟩

/-- C9. Last write wins: for every sequence `ops` of `AddEdge` calls applied to
`NewGraph n` and all `i ≠ j` below `n`, the final cell `(i, j)` is the weight of the last
call of `ops` whose (source, target) is `(i, j)`, and `⊤` when there is no such call.  In
particular a call `AddEdge(i, j, w1)` followed by `AddEdge(i, j, w2)` leaves `w2` in the
cell. -/
theorem addEdge_last_write_wins (n : Nat) (ops : List (Int × Int × WithTop α)) (i j : Nat)
    (hi : i < n) (hj : j < n) (hij : i ≠ j) :
    (∃ g, build n ops = some g ∧
      getCell g.edges i j = some ((lastWrite ops i j).getD ⊤)) ∧
    ∀ w1 w2 : WithTop α, ∃ g,
      build n (ops ++ [((i : Int), (j : Int), w1), ((i : Int), (j : Int), w2)]) = some g ∧
      getCell g.edges i j = some w2 := by
  constructor
  · obtain ⟨g, hb, -, -, hcell⟩ := build_spec n ops
    refine ⟨g, hb, ?_⟩
    rw [hcell i j hi hj]
    simp [initCell, hij]
  · intro w1 w2
    obtain ⟨g, hb, -, -, hcell⟩ :=
      build_spec n (ops ++ [((i : Int), (j : Int), w1), ((i : Int), (j : Int), w2)])
    refine ⟨g, hb, ?_⟩
    rw [hcell i j hi hj]
    have happ : ops ++ [((i : Int), (j : Int), w1), ((i : Int), (j : Int), w2)] =
        (ops ++ [((i : Int), (j : Int), w1)]) ++ [((i : Int), (j : Int), w2)] := by simp
    rw [happ, lastWrite_concat]
    simp

theorem addEdge_last_write_wins_witness :
    (∃ g : Graph ℤ, build 3 [(0, 1, 4), (1, 2, 7), (0, 1, 9)] = some g ∧
      getCell g.edges 0 1 =
        some ((lastWrite [((0 : Int), (1 : Int), (4 : WithTop ℤ)), (1, 2, 7), (0, 1, 9)]
          0 1).getD ⊤)) ∧
    ∀ w1 w2 : WithTop ℤ, ∃ g,
      build 3 ([(0, 1, 4), (1, 2, 7), (0, 1, 9)] ++
        [(((0 : Nat) : Int), ((1 : Nat) : Int), w1), (((0 : Nat) : Int), ((1 : Nat) : Int), w2)])
        = some g ∧
      getCell g.edges 0 1 = some w2 :=
  addEdge_last_write_wins 3 [(0, 1, 4), (1, 2, 7), (0, 1, 9)] 0 1 (by decide) (by decide)
    (by decide)

/-- C10. Contract of `GetShortestDistance`: for every graph `g` whose matrix is `n × n`
and all integers `start`, `end`, the call returns `⊤` when `start` or `end` lies outside
`[0, n)`, and otherwise `ShortestPath` returns a matrix and the call returns exactly its
cell `(start, end)`. -/
theorem getShortestDistance_contract (g : Graph α) (hg : g.WF) (start stop : Int) :
    ((start < 0 ∨ start ≥ g.vertices ∨ stop < 0 ∨ stop ≥ g.vertices) →
      GetShortestDistance g start stop = some ⊤) ∧
    (¬ (start < 0 ∨ start ≥ g.vertices ∨ stop < 0 ∨ stop ≥ g.vertices) →
      ∃ dist x, ShortestPath g = some dist ∧
        getCell dist start.toNat stop.toNat = some x ∧
        GetShortestDistance g start stop = some x) := by
  constructor
  · intro h
    simp only [GetShortestDistance, if_pos h]
  · intro h
    obtain ⟨dist, hsp, -, hd⟩ := shortestPath_cells hg
    have h1 : start.toNat < g.vertices := by omega
    have h2 : stop.toNat < g.vertices := by omega
    refine ⟨dist, _, hsp, hd _ _ h1 h2, ?_⟩
    simp only [GetShortestDistance, if_neg h, hsp, Option.some_bind]
    exact hd _ _ h1 h2

theorem getShortestDistance_contract_witness :
    demoGraph.WF ∧ GetShortestDistance demoGraph (-1) 4 = some ⊤ ∧
      ∃ dist x, ShortestPath demoGraph = some dist ∧
        getCell dist (0 : Int).toNat (3 : Int).toNat = some x ∧
        GetShortestDistance demoGraph 0 3 = some x :=
  ⟨by decide, (getShortestDistance_contract demoGraph (by decide) (-1) 4).1 (by decide),
    (getShortestDistance_contract demoGraph (by decide) 0 3).2 (by decide)⟩


/-! ## Construction, shape and absence of failures -/

theorem relaxF_eq_min (k i j : Nat) (d : Nat → Nat → WithTop α) (a b : Nat) :
    relaxF k i j d a b = if a = i ∧ b = j then min (d i j) (d i k + d k j) else d a b := by
  unfold relaxF
  by_cases hc : d i k + d k j < d i j
  · rw [if_pos hc]
    by_cases hab : a = i ∧ b = j
    · rw [if_pos hab, if_pos hab, min_eq_right (le_of_lt hc)]
    · rw [if_neg hab, if_neg hab]
  · rw [if_neg hc]
    by_cases hab : a = i ∧ b = j
    · rw [if_pos hab, min_eq_left (not_lt.mp hc), hab.1, hab.2]
    · rw [if_neg hab]

theorem relaxF_mono (k i j : Nat) {d d' : Nat → Nat → WithTop α}
    (h : ∀ a b, d a b ≤ d' a b) (a b : Nat) : relaxF k i j d a b ≤ relaxF k i j d' a b := by
  rw [relaxF_eq_min, relaxF_eq_min]
  by_cases hab : a = i ∧ b = j
  · rw [if_pos hab, if_pos hab]
    exact min_le_min (h i j) (add_le_add (h i k) (h k j))
  · rw [if_neg hab, if_neg hab]
    exact h a b

theorem foldl_rel {τ ι : Type} (R : τ → τ → Prop) (f : τ → ι → τ)
    (hstep : ∀ s s' x, R s s' → R (f s x) (f s' x)) :
    ∀ (l : List ι) (s s' : τ), R s s' → R (l.foldl f s) (l.foldl f s') := by
  intro l
  induction l with
  | nil => intro s s' h; exact h
  | cons x l ih =>
    intro s s' h
    rw [List.foldl_cons, List.foldl_cons]
    exact ih _ _ (hstep s s' x h)

/-- The loops are monotone in the starting matrix. -/
theorem loopKF_mono (n : Nat) {d d' : Nat → Nat → WithTop α} (h : ∀ a b, d a b ≤ d' a b)
    (a b : Nat) : loopKF n d a b ≤ loopKF n d' a b := by
  have hk := foldl_rel (fun (s s' : Nat → Nat → WithTop α) => ∀ a b, s a b ≤ s' a b)
    (fun d k => loopIF n k d)
    (by
      intro s s' k hs
      exact foldl_rel (fun (s s' : Nat → Nat → WithTop α) => ∀ a b, s a b ≤ s' a b)
        (fun d i => loopJF n k i d)
        (by
          intro t t' i ht
          exact foldl_rel (fun (s s' : Nat → Nat → WithTop α) => ∀ a b, s a b ≤ s' a b)
            (fun d j => relaxF k i j d)
            (fun u u' j hu => relaxF_mono k i j hu) (List.range n) t t' ht)
        (List.range n) s s' hs)
    (List.range n) d d' h
  exact hk a b

theorem cellFn_eq_top_of_shaped {n : Nat} {m : List (List (WithTop α))} (hm : Shaped n m)
    {a b : Nat} (h : ¬ (a < n ∧ b < n)) : cellFn m a b = ⊤ := by
  obtain ⟨hlen, hrow⟩ := hm
  unfold cellFn getCell
  cases hr : m[a]? with
  | none => rfl
  | some row =>
    have hlt : a < n := by
      have := (List.getElem?_eq_some.mp hr).1
      omega
    have hrl : row.length = n := hrow row (List.getElem?_mem hr)
    have hb : row.length ≤ b := by
      have : ¬ b < n := fun hb => h ⟨hlt, hb⟩
      omega
    simp [List.getElem?_eq_none hb]

theorem cellFn_of_getCell_eq {m : List (List (WithTop α))} {a b : Nat} {w : WithTop α}
    (h : getCell m a b = some w) : cellFn m a b = w := by
  simp [cellFn, h]

/-- With a zero diagonal the result is at most the weight of every sequence of pairwise
distinct vertices from `i` to `j`, whatever the weights. -/
theorem loopKF_lower_simple {g : Graph α}
    (h0 : ∀ v, v < g.vertices → cellFn g.edges v v = 0) {i j : Nat} (hi : i < g.vertices)
    (hj : j < g.vertices) {p : List Nat} (hp : IsRoute g.vertices i j p) (hnd : p.Nodup) :
    loopKF g.vertices (cellFn g.edges) i j ≤ pathWeight g p := by
  rcases route_cases hp with ⟨rfl, rfl⟩ | ⟨l, rfl, hl⟩
  · have h := loopKF_le g.vertices (cellFn g.edges) i i
    rw [h0 i hi] at h
    simpa [pathWeight, pathWeightF] using h
  · rw [pathWeight, pathWeightF_walk]
    have hnd' : l.Nodup := (List.nodup_append.mp (List.nodup_cons.mp hnd).2).1
    exact loopKF_lower g.vertices (cellFn g.edges) hi hj hnd' hl


/-! ## Walks along stored edges -/

/-- With a zero diagonal, the steps of a vertex sequence of finite weight that stay at a
vertex can be dropped: the rest is a directed path of the same weight. -/
theorem exists_path_of_finite_route (n : Nat) (e : Nat → Nat → WithTop α)
    (h0 : ∀ v, v < n → e v v = 0) :
    ∀ q : List Nat, (∀ v ∈ q, v < n) → pathWeightF e q ≠ ⊤ →
      ∃ q' : List Nat, q'.head? = q.head? ∧ q'.getLast? = q.getLast? ∧ (∀ v ∈ q', v < n) ∧
        (q'.Chain' fun (u v : Nat) => u ≠ v ∧ e u v ≠ ⊤) ∧ pathWeightF e q' = pathWeightF e q := by
  intro q
  induction q with
  | nil => intro _ _; exact ⟨[], rfl, rfl, by simp, List.chain'_nil, rfl⟩
  | cons a q ih =>
    cases q with
    | nil =>
      intro hr _
      exact ⟨[a], rfl, rfl, hr, List.chain'_singleton a, rfl⟩
    | cons b r =>
      intro hr hw
      rw [pathWeightF] at hw
      have hw' := WithTop.add_ne_top.mp hw
      obtain ⟨q', hh, hl, hr', hch, hpw⟩ :=
        ih (fun v hv => hr v (List.mem_cons_of_mem a hv)) hw'.2
      cases q' with
      | nil => simp at hh
      | cons c r' =>
        simp only [List.head?_cons, Option.some.injEq] at hh
        subst hh
        by_cases hab : a = c
        · subst hab
          refine ⟨a :: r', rfl, ?_, hr', hch, ?_⟩
          · rw [hl, List.getLast?_cons_cons]
          · rw [hpw, pathWeightF, h0 a (hr a (List.mem_cons_self a _)), zero_add]
        · refine ⟨a :: c :: r', rfl, ?_, ?_, ?_, ?_⟩
          · rw [List.getLast?_cons_cons, hl, List.getLast?_cons_cons]
          · intro v hv
            rcases List.mem_cons.mp hv with h | h
            · exact h ▸ hr a (List.mem_cons_self a _)
            · exact hr' v h
          · exact List.chain'_cons.mpr ⟨⟨hab, hw'.1⟩, hch⟩
          · rw [pathWeightF, hpw, pathWeightF]

/-! ## The rounds of the outer loop and the layered recurrence -/

theorem roundsF_succ (n m : Nat) (d : Nat → Nat → WithTop α) :
    roundsF n (m + 1) d = loopIF n m (roundsF n m d) := by
  simp [roundsF, List.range_succ, List.foldl_append]

theorem roundsF_self (n : Nat) (d : Nat → Nat → WithTop α) : roundsF n n d = loopKF n d :=
  rfl

theorem rounds_refine {n : Nat} {m : List (List (WithTop α))} (hm : Shaped n m) {r : Nat}
    (hr : r ≤ n) :
    ∃ m', rounds n r m = some m' ∧ Shaped n m' ∧ cellFn m' = roundsF n r (cellFn m) := by
  have h := foldlM_refine (fun (s : List (List (WithTop α))) t => Shaped n s ∧ cellFn s = t)
    (fun d k => loopI n k d) (fun d k => loopIF n k d) (fun k => k < n)
    (by
      rintro s t k hk ⟨hs, rfl⟩
      obtain ⟨m', h1, h2, h3⟩ := loopI_refine hs hk
      exact ⟨m', h1, h2, h3⟩)
    (List.range r) m (cellFn m)
    (fun x hx => Nat.lt_of_lt_of_le (List.mem_range.mp hx) hr) ⟨hm, rfl⟩
  obtain ⟨m', h1, h2, h3⟩ := h
  exact ⟨m', h1, h2, h3⟩

/-- A sequence of matrices that starts below `e`, never grows and goes below the sum
through `m` at step `m` is at most the weight of every walk whose intermediate vertices
are pairwise distinct and smaller than the index. -/
theorem seq_lower (n : Nat) (e : Nat → Nat → WithTop α) (D : Nat → Nat → Nat → WithTop α)
    (h0 : ∀ a b, D 0 a b ≤ e a b) (hle : ∀ m a b, D (m + 1) a b ≤ D m a b)
    (hvia : ∀ m a b, m < n → a < n → b < n → D (m + 1) a b ≤ D m a m + D m m b) :
    ∀ m, m ≤ n → ∀ a, a < n → ∀ b, b < n → ∀ l : List Nat, l.Nodup → (∀ v ∈ l, v < m) →
      D m a b ≤ walkWeight e a b l := by
  intro m
  induction m with
  | zero =>
    intro _ a _ b _ l _ hl
    cases l with
    | nil => exact h0 a b
    | cons v l => exact absurd (hl v (List.mem_cons_self v l)) (Nat.not_lt_zero v)
  | succ m ih =>
    intro hm a ha b hb l hnd hl
    have ih' := ih (Nat.le_of_succ_le hm)
    by_cases hmem : m ∈ l
    · obtain ⟨l1, l2, rfl⟩ := List.append_of_mem hmem
      have hnd' := List.nodup_append.mp hnd
      have hnd2 := List.nodup_cons.mp hnd'.2.1
      have hm1 : m ∉ l1 := fun h => hnd'.2.2 h (List.mem_cons_self m l2)
      have hl1 : ∀ v ∈ l1, v < m := by
        intro v hv
        have h1 : v < m + 1 := hl v (List.mem_append_left _ hv)
        have h2 : v ≠ m := fun h => hm1 (h ▸ hv)
        omega
      have hl2 : ∀ v ∈ l2, v < m := by
        intro v hv
        have h1 : v < m + 1 := hl v (List.mem_append_right _ (List.mem_cons_of_mem m hv))
        have h2 : v ≠ m := fun h => hnd2.1 (h ▸ hv)
        omega
      rw [walkWeight_append]
      exact le_trans (hvia m a b (by omega) ha hb)
        (add_le_add (ih' a ha m (by omega) l1 hnd'.1 hl1) (ih' m (by omega) b hb l2 hnd2.2 hl2))
    · have hl' : ∀ v ∈ l, v < m := by
        intro v hv
        have h1 : v < m + 1 := hl v hv
        have h2 : v ≠ m := fun h => hmem (h ▸ hv)
        omega
      exact le_trans (hle m a b) (ih' a ha b hb l hnd hl')

/-- The same bound for every walk, with repeated vertices too, when no closed walk is
negative. -/
theorem seq_lower_walk (n : Nat) (e : Nat → Nat → WithTop α)
    (D : Nat → Nat → Nat → WithTop α)
    (h0 : ∀ a b, D 0 a b ≤ e a b) (hle : ∀ m a b, D (m + 1) a b ≤ D m a b)
    (hvia : ∀ m a b, m < n → a < n → b < n → D (m + 1) a b ≤ D m a m + D m m b)
    (hcw : ∀ (v : Nat) (l : List Nat), (∀ u ∈ v :: l, u < n) → 0 ≤ walkWeight e v v l)
    {m : Nat} (hm : m ≤ n) {a b : Nat} (ha : a < n) (hb : b < n) (l : List Nat)
    (hl : ∀ v ∈ l, v < m) : D m a b ≤ walkWeight e a b l := by
  obtain ⟨l', hnd, hl', hw⟩ := exists_nodup_of_delete
    (fun l' => (∀ v ∈ l', v < m) ∧ walkWeight e a b l' ≤ walkWeight e a b l)
    (by
      rintro l1 v l2 l3 ⟨hr, hw⟩
      refine ⟨?_, le_trans ?_ hw⟩
      · intro x hx
        apply hr
        simp only [List.mem_cons, List.mem_append] at hx ⊢
        tauto
      · rw [walkWeight_append, walkWeight_append, walkWeight_append]
        refine add_le_add le_rfl (le_add_of_nonneg_left (hcw v l2 ?_))
        intro x hx
        have : x < m := by
          apply hr
          simp only [List.mem_cons, List.mem_append] at hx ⊢
          tauto
        omega)
    l.length l le_rfl ⟨hl, le_rfl⟩
  exact le_trans (seq_lower n e D h0 hle hvia m hm a ha b hb l' hnd hl') hw

theorem roundsF_seq (n : Nat) (e : Nat → Nat → WithTop α) :
    (∀ a b, roundsF n 0 e a b ≤ e a b) ∧
    (∀ m a b, roundsF n (m + 1) e a b ≤ roundsF n m e a b) ∧
    (∀ m a b, m < n → a < n → b < n →
      roundsF n (m + 1) e a b ≤ roundsF n m e a m + roundsF n m e m b) := by
  refine ⟨fun a b => le_rfl, ?_, ?_⟩
  · intro m a b
    rw [roundsF_succ]
    exact (loopIF_visit n m (roundsF n m e)).1 a b
  · intro m a b _ ha hb
    rw [roundsF_succ]
    exact (loopIF_visit n m (roundsF n m e)).2 a ha b hb

theorem layer_seq (n : Nat) (e : Nat → Nat → WithTop α) :
    (∀ a b, layer e 0 a b ≤ e a b) ∧
    (∀ m a b, layer e (m + 1) a b ≤ layer e m a b) ∧
    (∀ m a b, m < n → a < n → b < n →
      layer e (m + 1) a b ≤ layer e m a m + layer e m m b) :=
  ⟨fun _ _ => le_rfl, fun _ _ _ => min_le_left _ _, fun _ _ _ _ _ _ => min_le_right _ _⟩

theorem seq_le (e : Nat → Nat → WithTop α) (D : Nat → Nat → Nat → WithTop α)
    (h0 : ∀ a b, D 0 a b ≤ e a b) (hle : ∀ m a b, D (m + 1) a b ≤ D m a b) :
    ∀ m a b, D m a b ≤ e a b := by
  intro m
  induction m with
  | zero => exact h0
  | succ m ih => exact fun a b => le_trans (hle m a b) (ih a b)

/-- After `m` rounds every cell is the weight of a walk whose intermediate vertices are
smaller than `m`. -/
theorem roundsF_realised (n m : Nat) (e : Nat → Nat → WithTop α) (a b : Nat) :
    ∃ l : List Nat, (∀ v ∈ l, v < m) ∧ walkWeight e a b l = roundsF n m e a b := by
  have hP : ∀ k i j (d : Nat → Nat → WithTop α), k < m →
      (∀ a b, ∃ l : List Nat, (∀ v ∈ l, v < m) ∧ walkWeight e a b l = d a b) →
      ∀ a b, ∃ l : List Nat, (∀ v ∈ l, v < m) ∧ walkWeight e a b l = relaxF k i j d a b := by
    intro k i j d hk hd a b
    unfold relaxF
    by_cases hc : d i k + d k j < d i j
    · rw [if_pos hc]
      by_cases hab : a = i ∧ b = j
      · obtain ⟨rfl, rfl⟩ := hab
        obtain ⟨l1, hl1, hw1⟩ := hd a k
        obtain ⟨l2, hl2, hw2⟩ := hd k b
        refine ⟨l1 ++ k :: l2, ?_, ?_⟩
        · intro v hv
          rcases List.mem_append.mp hv with h | h
          · exact hl1 v h
          · rcases List.mem_cons.mp h with h | h
            · exact h ▸ hk
            · exact hl2 v h
        · simp [walkWeight_append, hw1, hw2]
      · simpa only [if_neg hab] using hd a b
    · simpa only [if_neg hc] using hd a b
  let P : (Nat → Nat → WithTop α) → Prop :=
    fun d => ∀ a b, ∃ l : List Nat, (∀ v ∈ l, v < m) ∧ walkWeight e a b l = d a b
  have h : P (roundsF n m e) := foldl_preserve P (fun d k => loopIF n k d) (fun k => k < m)
    (by
      intro d1 k hk hd1
      refine foldl_preserve P (fun d i => loopJF n k i d) (fun _ => True) ?_ (List.range n) d1
        (fun _ _ => trivial) hd1
      intro d2 i _ hd2
      refine foldl_preserve P (fun d j => relaxF k i j d) (fun _ => True) ?_ (List.range n) d2
        (fun _ _ => trivial) hd2
      intro d3 j _ hd3
      exact hP k i j d3 hk hd3)
    (List.range m) e (fun x hx => List.mem_range.mp hx) (fun a b => ⟨[], by simp, rfl⟩)
  exact h a b

/-- Every cell of the layer `m` is the weight of a walk whose intermediate vertices are
smaller than `m`. -/
theorem layer_realised (e : Nat → Nat → WithTop α) :
    ∀ (m a b : Nat), ∃ l : List Nat, (∀ v ∈ l, v < m) ∧ walkWeight e a b l = layer e m a b := by
  intro m
  induction m with
  | zero => intro a b; exact ⟨[], by simp, rfl⟩
  | succ m ih =>
    intro a b
    rw [layer]
    rcases min_choice (layer e m a b) (layer e m a m + layer e m m b) with h | h
    · obtain ⟨l, hl, hw⟩ := ih a b
      exact ⟨l, fun v hv => Nat.lt_succ_of_lt (hl v hv), by rw [h, hw]⟩
    · obtain ⟨l1, hl1, hw1⟩ := ih a m
      obtain ⟨l2, hl2, hw2⟩ := ih m b
      refine ⟨l1 ++ m :: l2, ?_, by rw [h, walkWeight_append, hw1, hw2]⟩
      intro v hv
      rcases List.mem_append.mp hv with h' | h'
      · exact Nat.lt_succ_of_lt (hl1 v h')
      · rcases List.mem_cons.mp h' with h' | h'
        · exact h' ▸ Nat.lt_succ_self m
        · exact Nat.lt_succ_of_lt (hl2 v h')


/-! ## The queries through the heap -/

theorem foldlM_map_option {σ σ' ι : Type} (φ : σ → σ') (f : σ → ι → Option σ)
    (f' : σ' → ι → Option σ') (P : ι → Prop)
    (hstep : ∀ s x, P x → f' (φ s) x = (f s x).map φ) :
    ∀ (l : List ι) (s : σ), (∀ x ∈ l, P x) → l.foldlM f' (φ s) = (l.foldlM f s).map φ := by
  intro l
  induction l with
  | nil => intro s _; rfl
  | cons x l ih =>
    intro s hP
    rw [List.foldlM_cons, List.foldlM_cons, hstep s x (hP x (List.mem_cons_self x l))]
    cases hfs : f s x with
    | none => rfl
    | some s1 =>
      simp only [Option.map_some', Option.some_bind, Option.bind_eq_bind]
      exact ih s1 (fun y hy => hP y (List.mem_cons_of_mem x hy))

theorem range'_getElem? (s n i : Nat) (hi : i < n) : (List.range' s n)[i]? = some (s + i) := by
  rw [List.getElem?_range' s 1 hi, Nat.one_mul]

theorem hGetCell_fresh (h m' : List (List (WithTop α))) (n : Nat) {i : Nat} (hi : i < n)
    (j : Nat) : hGetCell (h ++ m') (List.range' h.length n) i j = getCell m' i j := by
  have hidx : (h ++ m')[h.length + i]? = m'[i]? := by
    rw [List.getElem?_append_right (Nat.le_add_right _ _), Nat.add_sub_cancel_left]
  simp only [hGetCell, getCell, range'_getElem? _ _ _ hi, hidx]

theorem hSetCell_fresh (h m' : List (List (WithTop α))) (n : Nat) {i : Nat} (hi : i < n)
    (j : Nat) (w : WithTop α) :
    hSetCell (h ++ m') (List.range' h.length n) i j w =
      (setCell m' i j w).map fun d => h ++ d := by
  have hidx : (h ++ m')[h.length + i]? = m'[i]? := by
    rw [List.getElem?_append_right (Nat.le_add_right _ _), Nat.add_sub_cancel_left]
  simp only [hSetCell, setCell, range'_getElem? _ _ _ hi, hidx]
  cases hrow : m'[i]? with
  | none => rfl
  | some row =>
    simp only
    by_cases hj : j < row.length
    · rw [if_pos hj, if_pos hj, List.set_append_right _ _ (Nat.le_add_right _ _),
        Nat.add_sub_cancel_left]
      rfl
    · rw [if_neg hj, if_neg hj]
      rfl

theorem hRelax_fresh (h m' : List (List (WithTop α))) (n : Nat) {k i : Nat} (hk : k < n)
    (hi : i < n) (j : Nat) :
    hRelax (List.range' h.length n) k i j (h ++ m') =
      (relax k i j m').map fun d => h ++ d := by
  simp only [hRelax, relax, hGetCell_fresh h m' n hi, hGetCell_fresh h m' n hk]
  cases getCell m' i k with
  | none => rfl
  | some a =>
    cases getCell m' k j with
    | none => rfl
    | some b =>
      cases getCell m' i j with
      | none => rfl
      | some c =>
        simp only [Option.some_bind]
        by_cases hc : a + b < c
        · rw [if_pos hc, if_pos hc, hSetCell_fresh h m' n hi]
        · rw [if_neg hc, if_neg hc]
          rfl

theorem hLoopJ_fresh (h m' : List (List (WithTop α))) (n : Nat) {k i : Nat} (hk : k < n)
    (hi : i < n) :
    hLoopJ (List.range' h.length n) n k i (h ++ m') =
      (loopJ n k i m').map fun d => h ++ d :=
  foldlM_map_option (fun d => h ++ d) (fun d j => relax k i j d)
    (fun d j => hRelax (List.range' h.length n) k i j d) (fun _ => True)
    (fun s j _ => hRelax_fresh h s n hk hi j) (List.range n) m' (fun _ _ => trivial)

theorem hLoopI_fresh (h m' : List (List (WithTop α))) (n : Nat) {k : Nat} (hk : k < n) :
    hLoopI (List.range' h.length n) n k (h ++ m') =
      (loopI n k m').map fun d => h ++ d :=
  foldlM_map_option (fun d => h ++ d) (fun d i => loopJ n k i d)
    (fun d i => hLoopJ (List.range' h.length n) n k i d) (fun i => i < n)
    (fun s _ hi => hLoopJ_fresh h s n hk hi) (List.range n) m'
    (fun _ hx => List.mem_range.mp hx)

theorem hLoopK_fresh (h m' : List (List (WithTop α))) (n : Nat) :
    hLoopK (List.range' h.length n) n (h ++ m') = (loopK n m').map fun d => h ++ d :=
  foldlM_map_option (fun d => h ++ d) (fun d k => loopI n k d)
    (fun d k => hLoopI (List.range' h.length n) n k d) (fun k => k < n)
    (fun s _ hk => hLoopI_fresh h s n hk) (List.range n) m'
    (fun _ hx => List.mem_range.mp hx)

theorem hMatrix_getElem? (h : List (List (WithTop α))) (rows : List Nat) (i : Nat) :
    (hMatrix h rows)[i]? = (rows[i]?).map fun a => h.getD a [] := by
  simp [hMatrix]

theorem hCopyMatrix_prefix {h : List (List (WithTop α))} {g : HeapGraph} (hg : g.WF h) :
    ∀ r, r ≤ g.vertices →
      (List.range r).foldlM (hCopyStep g) (h, []) =
        some (h ++ (hMatrix h g.rows).take r, List.range' h.length r) := by
  obtain ⟨hlen, haddr, hshape⟩ := hg
  intro r
  induction r with
  | zero => intro _; simp
  | succ r ih =>
    intro hr
    have hr' : r < g.rows.length := by omega
    have ha : g.rows[r] < h.length := haddr _ (List.getElem_mem _)
    have hrow : (hMatrix h g.rows)[r]? = some (h[g.rows[r]]) := by
      rw [hMatrix_getElem?, List.getElem?_eq_getElem hr']
      simp [List.getElem?_eq_getElem ha]
    have hrl : (h[g.rows[r]]).length = g.vertices :=
      hshape.2 _ (List.getElem?_mem hrow)
    have hsrc : (h ++ (hMatrix h g.rows).take r)[g.rows[r]]? = some (h[g.rows[r]]) := by
      rw [List.getElem?_append_left ha, List.getElem?_eq_getElem ha]
    have hlt : (h ++ (hMatrix h g.rows).take r).length = h.length + r := by
      rw [List.length_append, List.length_take, hshape.1]
      omega
    rw [List.range_succ, List.foldlM_append, ih (by omega)]
    simp only [Option.bind_eq_bind, Option.some_bind, List.foldlM_cons, List.foldlM_nil,
      hCopyStep, List.getElem?_eq_getElem hr', hsrc, copyRow_eq hrl, hlt]
    rw [List.take_succ, hrow, List.range'_1_concat, List.append_assoc]
    rfl

theorem hCopyMatrix_wf {h : List (List (WithTop α))} {g : HeapGraph} (hg : g.WF h) :
    hCopyMatrix h g = some (h ++ hMatrix h g.rows, List.range' h.length g.vertices) := by
  rw [hCopyMatrix, hCopyMatrix_prefix hg g.vertices le_rfl]
  have : (hMatrix h g.rows).take g.vertices = hMatrix h g.rows := by
    apply List.take_of_length_le
    rw [hg.2.2.1]
  rw [this]

/-- On a well-formed graph the query through the heap leaves the old heap followed by
the matrix that `ShortestPath` returns for the matrix the rows denote. -/
theorem hShortestPath_eq {h : List (List (WithTop α))} {g : HeapGraph} (hg : g.WF h) :
    hShortestPath h g =
      (ShortestPath (Graph.mk g.vertices (hMatrix h g.rows))).map
        fun d => (h ++ d, List.range' h.length g.vertices) := by
  have hwf : (Graph.mk g.vertices (hMatrix h g.rows)).WF := hg.2.2
  rw [hShortestPath, hCopyMatrix_wf hg, ShortestPath, copyMatrix_eq hwf]
  simp only [Option.some_bind, hLoopK_fresh]
  cases loopK g.vertices (hMatrix h g.rows) with
  | none => rfl
  | some d => rfl

theorem hMatrix_fresh (h d : List (List (WithTop α))) :
    hMatrix (h ++ d) (List.range' h.length d.length) = d := by
  apply List.ext_getElem?
  intro i
  rw [hMatrix_getElem?]
  by_cases hi : i < d.length
  · rw [range'_getElem? _ _ _ hi]
    simp [List.getElem?_append_right, List.getElem?_eq_getElem hi]
  · have h1 : (List.range' h.length d.length).length ≤ i := by simp; omega
    rw [List.getElem?_eq_none h1, List.getElem?_eq_none (by omega)]
    rfl

theorem hMatrix_old (h d : List (List (WithTop α))) (rows : List Nat)
    (hr : ∀ a ∈ rows, a < h.length) : hMatrix (h ++ d) rows = hMatrix h rows := by
  unfold hMatrix
  apply List.map_congr_left
  intro a ha
  simp [List.getElem?_append_left (hr a ha)]

theorem heapGraph_wf_append {h : List (List (WithTop α))} {g : HeapGraph} (hg : g.WF h)
    (d : List (List (WithTop α))) : g.WF (h ++ d) := by
  obtain ⟨hlen, haddr, hshape⟩ := hg
  refine ⟨hlen, ?_, ?_⟩
  · intro a ha
    have := haddr a ha
    rw [List.length_append]
    omega
  · rw [hMatrix_old h d g.rows haddr]
    exact hshape


/-! ## Properties of the specification, continued -/

/-- C11. Construction: for every `n`, `NewGraph(n)` has the vertex count `n` and a matrix
of `n` rows of length `n`, with `0` in every diagonal cell and `⊤` in every other cell. -/
theorem newGraph_construction (n : Nat) :
    (NewGraph n : Graph α).vertices = n ∧ (NewGraph n : Graph α).edges.length = n ∧
    (∀ row ∈ (NewGraph n : Graph α).edges, row.length = n) ∧
    (∀ i, i < n → getCell (NewGraph n : Graph α).edges i i = some 0) ∧
    (∀ i j, i < n → j < n → i ≠ j → getCell (NewGraph n : Graph α).edges i j = some ⊤) := by
  refine ⟨rfl, (newGraph_wf n).1, (newGraph_wf n).2, ?_, ?_⟩
  · intro i hi
    rw [newGraph_cell n hi hi]
    simp [initCell]
  · intro i j hi hj hij
    rw [newGraph_cell n hi hj]
    simp [initCell, hij]

/-- C12. Queries do not mutate.  Let the rows of `g` be allocated in the heap `h` and
form an `n × n` matrix.  Then `ShortestPath` succeeds and leaves every array of `h`, the
rows of `g` among them, as it was; the matrix it returns is the one computed from the
matrix of `g`; a second call right after it returns an identical matrix and does not
touch the first one; and `GetShortestDistance` with any arguments leaves every array of
`h` as it was too.  No query assigns a field of `g`. -/
theorem queries_do_not_mutate (h : List (List (WithTop α))) (g : HeapGraph) (hg : g.WF h) :
    ∃ h1 dist1 d,
      hShortestPath h g = some (h1, dist1) ∧
      (∀ a, a < h.length → h1[a]? = h[a]?) ∧
      hMatrix h1 g.rows = hMatrix h g.rows ∧
      hMatrix h1 dist1 = d ∧
      ShortestPath (Graph.mk g.vertices (hMatrix h g.rows)) = some d ∧
      (∃ h2 dist2, hShortestPath h1 g = some (h2, dist2) ∧ hMatrix h2 dist2 = d ∧
        hMatrix h2 dist1 = d ∧ hMatrix h2 g.rows = hMatrix h g.rows) ∧
      ∀ start stop : Int, ∃ h3 x, hGetShortestDistance h g start stop = some (h3, x) ∧
        (∀ a, a < h.length → h3[a]? = h[a]?) ∧ hMatrix h3 g.rows = hMatrix h g.rows ∧
        GetShortestDistance (Graph.mk g.vertices (hMatrix h g.rows)) start stop = some x := by
  have hwf : (Graph.mk g.vertices (hMatrix h g.rows)).WF := hg.2.2
  obtain ⟨d, hsp, hshape, hd⟩ := shortestPath_cells hwf
  have hdl : d.length = g.vertices := hshape.1
  have hfresh : hMatrix (h ++ d) (List.range' h.length g.vertices) = d := by
    rw [← hdl]
    exact hMatrix_fresh h d
  have hframe : ∀ (d' : List (List (WithTop α))) (a : Nat), a < h.length →
      (h ++ d')[a]? = h[a]? := fun d' a ha => List.getElem?_append_left ha
  have hg1 : g.WF (h ++ d) := heapGraph_wf_append hg d
  have hold1 : hMatrix (h ++ d) g.rows = hMatrix h g.rows := hMatrix_old h d g.rows hg.2.1
  refine ⟨h ++ d, List.range' h.length g.vertices, d, ?_, hframe d, hold1, hfresh, hsp,
    ?_, ?_⟩
  · rw [hShortestPath_eq hg, hsp]
    rfl
  · refine ⟨(h ++ d) ++ d, List.range' (h ++ d).length g.vertices, ?_, ?_, ?_, ?_⟩
    · rw [hShortestPath_eq hg1, hold1, hsp]
      rfl
    · rw [← hdl]
      exact hMatrix_fresh (h ++ d) d
    · rw [hMatrix_old (h ++ d) d]
      · exact hfresh
      · intro a ha
        have := List.mem_range'_1.mp ha
        rw [List.length_append]
        omega
    · rw [hMatrix_old (h ++ d) d g.rows hg1.2.1, hold1]
  · intro start stop
    by_cases hr : start < 0 ∨ start ≥ g.vertices ∨ stop < 0 ∨ stop ≥ g.vertices
    · refine ⟨h, ⊤, ?_, fun _ _ => rfl, rfl, ?_⟩
      · simp only [hGetShortestDistance, if_pos hr]
      · simp only [GetShortestDistance, if_pos hr]
    · have h1 : start.toNat < g.vertices := by omega
      have h2 : stop.toNat < g.vertices := by omega
      refine ⟨h ++ d, loopKF g.vertices (cellFn (hMatrix h g.rows)) start.toNat stop.toNat,
        ?_, hframe d, hold1, ?_⟩
      · simp only [hGetShortestDistance, if_neg hr, hShortestPath_eq hg, hsp,
          Option.map_some', Option.some_bind, hGetCell_fresh h d g.vertices h1,
          hd _ _ h1 h2]
      · simp only [GetShortestDistance, if_neg hr, hsp, Option.some_bind]
        exact hd _ _ h1 h2

theorem queries_do_not_mutate_witness :
    demoHeapGraph.WF demoGraph.edges ∧
    ∃ h1 dist1 d,
      hShortestPath demoGraph.edges demoHeapGraph = some (h1, dist1) ∧
      (∀ a, a < demoGraph.edges.length → h1[a]? = demoGraph.edges[a]?) ∧
      hMatrix h1 demoHeapGraph.rows = hMatrix demoGraph.edges demoHeapGraph.rows ∧
      hMatrix h1 dist1 = d ∧
      ShortestPath (Graph.mk demoHeapGraph.vertices
        (hMatrix demoGraph.edges demoHeapGraph.rows)) = some d ∧
      (∃ h2 dist2, hShortestPath h1 demoHeapGraph = some (h2, dist2) ∧
        hMatrix h2 dist2 = d ∧ hMatrix h2 dist1 = d ∧
        hMatrix h2 demoHeapGraph.rows = hMatrix demoGraph.edges demoHeapGraph.rows) ∧
      ∀ start stop : Int, ∃ h3 x,
        hGetShortestDistance demoGraph.edges demoHeapGraph start stop = some (h3, x) ∧
        (∀ a, a < demoGraph.edges.length → h3[a]? = demoGraph.edges[a]?) ∧
        hMatrix h3 demoHeapGraph.rows = hMatrix demoGraph.edges demoHeapGraph.rows ∧
        GetShortestDistance (Graph.mk demoHeapGraph.vertices
          (hMatrix demoGraph.edges demoHeapGraph.rows)) start stop = some x :=
  ⟨by decide, queries_do_not_mutate demoGraph.edges demoHeapGraph (by decide)⟩

/-- C13. Shape invariant: for every `n` and every sequence of `AddEdge` calls applied to
`NewGraph(n)`, in range or not, the vertex count is still `n`, the stored matrix has
exactly `n` rows of length `n`, and so has the matrix returned by `ShortestPath`. -/
theorem shape_invariant (n : Nat) (ops : List (Int × Int × WithTop α)) :
    ∃ g, build n ops = some g ∧ g.vertices = n ∧ g.edges.length = n ∧
      (∀ row ∈ g.edges, row.length = n) ∧
      ∃ dist, ShortestPath g = some dist ∧ dist.length = n ∧
        ∀ row ∈ dist, row.length = n := by
  obtain ⟨g, hb, hn, hwf, -⟩ := build_spec n ops
  obtain ⟨dist, hsp, hshape, -⟩ := shortestPath_cells hwf
  subst hn
  exact ⟨g, hb, rfl, hwf.1, hwf.2, dist, hsp, hshape.1, hshape.2⟩

/-- C14. Stored diagonal invariant: after `NewGraph(n)` and `AddEdge` calls none of which
has an in-range source equal to its target, every diagonal cell of the stored matrix is
`0`; it is `0` right after construction, and every call `AddEdge(u, v, w)` with `u ≠ v`
keeps a zero diagonal. -/
theorem stored_diagonal_invariant (n : Nat) (ops : List (Int × Int × WithTop α))
    (hdiag : ∀ op ∈ ops, ¬ (op.1 = op.2.1 ∧ 0 ≤ op.1 ∧ op.1 < (n : Int))) :
    (∃ g, build n ops = some g ∧ ∀ i, i < n → getCell g.edges i i = some 0) ∧
    (∀ i, i < n → getCell (NewGraph n : Graph α).edges i i = some 0) ∧
    (∀ g : Graph α, g.WF → g.vertices = n → (∀ i, i < n → getCell g.edges i i = some 0) →
      ∀ (u v : Int) (w : WithTop α), u ≠ v →
        ∃ g', AddEdge g u v w = some g' ∧ ∀ i, i < n → getCell g'.edges i i = some 0) := by
  refine ⟨?_, ?_, ?_⟩
  · obtain ⟨g, hb, -, -, hcell⟩ := build_spec n ops
    refine ⟨g, hb, ?_⟩
    intro i hi
    have hnone : lastWrite ops i i = none := by
      apply lastWrite_eq_none
      intro op hop hmatch
      refine hdiag op hop ⟨?_, ?_, ?_⟩
      · rw [hmatch.1, hmatch.2]
      · rw [hmatch.1]; exact Int.ofNat_nonneg i
      · rw [hmatch.1]; exact Int.ofNat_lt.mpr hi
    rw [hcell i i hi hi, hnone]
    simp [initCell]
  · intro i hi
    rw [newGraph_cell n hi hi]
    simp [initCell]
  · intro g hwf hn h0 u v w huv
    by_cases hr : u ≥ 0 ∧ u < g.vertices ∧ v ≥ 0 ∧ v < g.vertices
    · obtain ⟨g', hadd, -, -, hcell⟩ :=
        addEdge_inRange hwf hr.1 hr.2.1 hr.2.2.1 hr.2.2.2 w
      refine ⟨g', hadd, ?_⟩
      intro i hi
      have hne : ¬ (i = u.toNat ∧ i = v.toNat) := by omega
      rw [hcell, if_neg hne]
      exact h0 i hi
    · have hout : u < 0 ∨ u ≥ g.vertices ∨ v < 0 ∨ v ≥ g.vertices := by omega
      exact ⟨g, addEdge_outOfRange g hout w, h0⟩

theorem stored_diagonal_invariant_witness :
    (∃ g, build 4 (finiteOps demoEdges) = some g ∧
      ∀ i, i < 4 → getCell g.edges i i = some 0) ∧
    (∀ i, i < 4 → getCell (NewGraph 4 : Graph ℤ).edges i i = some 0) ∧
    (∀ g : Graph ℤ, g.WF → g.vertices = 4 → (∀ i, i < 4 → getCell g.edges i i = some 0) →
      ∀ (u v : Int) (w : WithTop ℤ), u ≠ v →
        ∃ g', AddEdge g u v w = some g' ∧ ∀ i, i < 4 → getCell g'.edges i i = some 0) :=
  stored_diagonal_invariant 4 (finiteOps demoEdges) (by decide)


theorem intermediates_walk (i j : Nat) (l : List Nat) :
    intermediates (i :: (l ++ [j])) = l := by
  simp [intermediates]

theorem cellFn_diag_zero {g : Graph α}
    (h0 : ∀ v, v < g.vertices → getCell g.edges v v = some 0) (v : Nat)
    (hv : v < g.vertices) : cellFn g.edges v v = 0 :=
  cellFn_of_getCell_eq (h0 v hv)

/-- C16. No error conditions: for every `n`, `0` included, and every sequence of `AddEdge`
calls with arbitrary integer indices applied to `NewGraph(n)`, every call succeeds,
`ShortestPath` returns a matrix and `GetShortestDistance(start, end)` returns a value for
all integers `start`, `end`: no row or cell is indexed out of range, and the loops, being
bounded, terminate.  `NewGraph(0)` has an empty matrix and `ShortestPath` returns an empty
matrix for it. -/
theorem no_error_conditions (n : Nat) (ops : List (Int × Int × WithTop α)) :
    (∃ g, build n ops = some g ∧ (∃ dist, ShortestPath g = some dist) ∧
      ∀ start stop : Int, ∃ x, GetShortestDistance g start stop = some x) ∧
    (NewGraph 0 : Graph α).edges = [] ∧ ShortestPath (NewGraph 0 : Graph α) = some [] := by
  refine ⟨?_, rfl, rfl⟩
  obtain ⟨g, hb, -, hwf, -⟩ := build_spec n ops
  obtain ⟨dist, hsp, -, hd⟩ := shortestPath_cells hwf
  refine ⟨g, hb, ⟨dist, hsp⟩, ?_⟩
  intro start stop
  by_cases hr : start < 0 ∨ start ≥ g.vertices ∨ stop < 0 ∨ stop ≥ g.vertices
  · exact ⟨⊤, by simp only [GetShortestDistance, if_pos hr]⟩
  · have h1 : start.toNat < g.vertices := by omega
    have h2 : stop.toNat < g.vertices := by omega
    refine ⟨loopKF g.vertices (cellFn g.edges) start.toNat stop.toNat, ?_⟩
    simp only [GetShortestDistance, if_neg hr, hsp, Option.some_bind]
    exact hd _ _ h1 h2

/-- C19. Monotonicity in the weights: for two graphs `g` and `g'` with `n × n` matrices
such that every cell of `g` is at most the same cell of `g'`, every cell of the result of
`ShortestPath` on `g` is at most the same cell of the result on `g'`.  In particular the
result after a call `AddEdge(u, v, w)` that lowers the cell `(u, v)` of `g'` is cell by
cell at most the result before it. -/
theorem shortestPath_monotone (g g' : Graph α) (hg : g.WF) (hg' : g'.WF)
    (hn : g.vertices = g'.vertices)
    (hle : ∀ i, i < g.vertices → ∀ j, j < g.vertices →
      cellFn g.edges i j ≤ cellFn g'.edges i j) :
    (∃ dist dist', ShortestPath g = some dist ∧ ShortestPath g' = some dist' ∧
      ∀ i j, i < g.vertices → j < g.vertices →
        ∃ x x', getCell dist i j = some x ∧ getCell dist' i j = some x' ∧ x ≤ x') ∧
    (∀ (u v : Nat) (w : WithTop α), u < g'.vertices → v < g'.vertices →
      w ≤ cellFn g'.edges u v →
      ∃ g1 dist1 dist', AddEdge g' u v w = some g1 ∧ ShortestPath g1 = some dist1 ∧
        ShortestPath g' = some dist' ∧
        ∀ i j, i < g'.vertices → j < g'.vertices →
          ∃ x x', getCell dist1 i j = some x ∧ getCell dist' i j = some x' ∧ x ≤ x') := by
  have key : ∀ (g1 g2 : Graph α), g1.WF → g2.WF → g1.vertices = g2.vertices →
      (∀ i j, i < g1.vertices → j < g1.vertices →
        cellFn g1.edges i j ≤ cellFn g2.edges i j) →
      ∃ dist dist', ShortestPath g1 = some dist ∧ ShortestPath g2 = some dist' ∧
        ∀ i j, i < g1.vertices → j < g1.vertices →
          ∃ x x', getCell dist i j = some x ∧ getCell dist' i j = some x' ∧ x ≤ x' := by
    intro g1 g2 h1 h2 hn12 hle12
    obtain ⟨dist, hsp, -, hd⟩ := shortestPath_cells h1
    obtain ⟨dist', hsp', -, hd'⟩ := shortestPath_cells h2
    refine ⟨dist, dist', hsp, hsp', ?_⟩
    intro i j hi hj
    refine ⟨_, _, hd i j hi hj, hd' i j (hn12 ▸ hi) (hn12 ▸ hj), ?_⟩
    rw [← hn12]
    apply loopKF_mono
    intro a b
    by_cases hab : a < g1.vertices ∧ b < g1.vertices
    · exact hle12 a b hab.1 hab.2
    · rw [cellFn_eq_top_of_shaped h2 (hn12 ▸ hab)]
      exact le_top
  refine ⟨key g g' hg hg' hn (fun i j hi hj => hle i hi j hj), ?_⟩
  intro u v w hu hv hw
  obtain ⟨g1, hadd, hn1, hwf1, hcell⟩ := addEdge_inRange hg' (Int.ofNat_nonneg u)
    (Int.ofNat_lt.mpr hu) (Int.ofNat_nonneg v) (Int.ofNat_lt.mpr hv) w
  simp only [Int.toNat_ofNat] at hcell
  obtain ⟨dist1, dist', h1, h2, h3⟩ := key g1 g' hwf1 hg' hn1 (by
    intro i j _ _
    have hc := cellFn_of_getCell hcell
    rw [hc]
    show (if i = u ∧ j = v then w else cellFn g'.edges i j) ≤ cellFn g'.edges i j
    by_cases hab : i = u ∧ j = v
    · rw [if_pos hab, hab.1, hab.2]
      exact hw
    · rw [if_neg hab])
  exact ⟨g1, dist1, dist', hadd, h1, h2, fun i j hi hj => h3 i j (hn1 ▸ hi) (hn1 ▸ hj)⟩

theorem shortestPath_monotone_witness :
    demoGraph.WF ∧
    ((∃ dist dist', ShortestPath (Graph.mk 4
        [[0, 5, 3, 4], [⊤, 0, 2, 6], [⊤, ⊤, 0, 7], [⊤, ⊤, ⊤, 0]] : Graph ℤ) = some dist ∧
      ShortestPath demoGraph = some dist' ∧
      ∀ i j, i < 4 → j < 4 →
        ∃ x x', getCell dist i j = some x ∧ getCell dist' i j = some x' ∧ x ≤ x') ∧
    (∀ (u v : Nat) (w : WithTop ℤ), u < demoGraph.vertices → v < demoGraph.vertices →
      w ≤ cellFn demoGraph.edges u v →
      ∃ g1 dist1 dist', AddEdge demoGraph u v w = some g1 ∧ ShortestPath g1 = some dist1 ∧
        ShortestPath demoGraph = some dist' ∧
        ∀ i j, i < demoGraph.vertices → j < demoGraph.vertices →
          ∃ x x', getCell dist1 i j = some x ∧ getCell dist' i j = some x' ∧ x ≤ x')) :=
  ⟨by decide, shortestPath_monotone
    (Graph.mk 4 [[0, 5, 3, 4], [⊤, 0, 2, 6], [⊤, ⊤, 0, 7], [⊤, ⊤, ⊤, 0]]) demoGraph
    (by decide) (by decide) rfl (by decide)⟩


/-! ## The `float64` run and the exact run -/

theorem ofExact_injective {a b : WithTop ℤ} (h : ofExact a = ofExact b) : a = b := by
  induction a using WithTop.recTopCoe with
  | top =>
    induction b using WithTop.recTopCoe with
    | top => rfl
    | coe y => exact absurd h (by simp [ofExact, WithTop.some, WithTop.top, Top.top])
  | coe x =>
    induction b using WithTop.recTopCoe with
    | top => exact absurd h (by simp [ofExact, WithTop.some, WithTop.top, Top.top])
    | coe y =>
      have : x = y := by simpa [ofExact, WithTop.some] using h
      rw [this]

theorem flt_ofExact (a b : WithTop ℤ) : flt (ofExact a) (ofExact b) = decide (a < b) := by
  induction a using WithTop.recTopCoe with
  | top =>
    induction b using WithTop.recTopCoe with
    | top => simp [ofExact, flt, WithTop.top, Top.top]
    | coe y => simp [ofExact, flt, WithTop.some, WithTop.top, Top.top]
  | coe x =>
    induction b using WithTop.recTopCoe with
    | top =>
      have h1 : ofExact (↑x : WithTop ℤ) = F64.fin x := rfl
      have h2 : ofExact (⊤ : WithTop ℤ) = F64.pinf := rfl
      simp [h1, h2, flt]
    | coe y =>
      have h1 : ofExact (↑x : WithTop ℤ) = F64.fin x := rfl
      have h2 : ofExact (↑y : WithTop ℤ) = F64.fin y := rfl
      simp [h1, h2, flt]

theorem fadd_ofExact {a b : WithTop ℤ} (h : exactAdd (ofExact a) (ofExact b) = true) :
    fadd (ofExact a) (ofExact b) = ofExact (a + b) := by
  induction a using WithTop.recTopCoe with
  | top =>
    induction b using WithTop.recTopCoe with
    | top => rfl
    | coe y => rfl
  | coe x =>
    induction b using WithTop.recTopCoe with
    | top => rfl
    | coe y =>
      have h1 : ofExact (↑x : WithTop ℤ) = F64.fin x := rfl
      have h2 : ofExact (↑y : WithTop ℤ) = F64.fin y := rfl
      have h3 : ofExact ((↑x : WithTop ℤ) + ↑y) = F64.fin (x + y) := by
        rw [← WithTop.coe_add]
        rfl
      rw [h1, h2] at h
      rw [h1, h2, h3]
      simpa [exactAdd] using h

theorem getCell64_float (m : List (List (WithTop ℤ))) (i j : Nat) :
    getCell64 (floatMatrix m) i j = (getCell m i j).map ofExact := by
  unfold getCell64 getCell floatMatrix
  rw [List.getElem?_map]
  cases m[i]? with
  | none => rfl
  | some row => simp

theorem setCell64_float (m : List (List (WithTop ℤ))) (i j : Nat) (w : WithTop ℤ) :
    setCell64 (floatMatrix m) i j (ofExact w) = (setCell m i j w).map floatMatrix := by
  unfold setCell64 setCell floatMatrix
  rw [List.getElem?_map]
  cases hrow : m[i]? with
  | none => rfl
  | some row =>
    simp only [Option.map_some', List.length_map]
    by_cases hj : j < row.length
    · rw [if_pos hj, if_pos hj]
      simp [List.map_set]
    · rw [if_neg hj, if_neg hj]
      rfl

theorem relax_sim (k i j : Nat) (m : List (List (WithTop ℤ))) (d' : List (List F64))
    (h : (relaxGuard exactAdd) k i j (floatMatrix m) = some d') :
    ∃ m', relax k i j m = some m' ∧ d' = floatMatrix m' ∧
      relax64 k i j (floatMatrix m) = some d' := by
  unfold relaxGuard at h
  unfold relax relax64
  rw [getCell64_float, getCell64_float, getCell64_float] at h ⊢
  cases ha : getCell m i k with
  | none => simp [ha] at h
  | some a =>
    cases hb : getCell m k j with
    | none => simp [ha, hb] at h
    | some b =>
      cases hc : getCell m i j with
      | none => simp [ha, hb, hc] at h
      | some c =>
        simp only [ha, hb, hc, Option.map_some', Option.some_bind] at h ⊢
        by_cases hex : exactAdd (ofExact a) (ofExact b) = true
        · rw [if_pos hex, fadd_ofExact hex, flt_ofExact] at h
          rw [fadd_ofExact hex, flt_ofExact]
          by_cases hlt : a + b < c
          · simp only [hlt, decide_True, if_true] at h ⊢
            rw [setCell64_float] at h ⊢
            cases hs : setCell m i j (a + b) with
            | none => simp [hs] at h
            | some m' =>
              rw [hs] at h
              exact ⟨m', rfl, (Option.some.inj h).symm, h⟩
          · simp only [hlt, decide_False, if_false] at h ⊢
            exact ⟨m, rfl, (Option.some.inj h).symm, h⟩
        · rw [if_neg hex] at h
          exact absurd h (by simp)

theorem foldlM_sim {σ σ' ι : Type} (φ : σ → σ') (f : σ → ι → Option σ)
    (f' c' : σ' → ι → Option σ')
    (hstep : ∀ s x t', c' (φ s) x = some t' →
      ∃ t, f s x = some t ∧ t' = φ t ∧ f' (φ s) x = some t') :
    ∀ (l : List ι) (s : σ) (t' : σ'), l.foldlM c' (φ s) = some t' →
      ∃ t, l.foldlM f s = some t ∧ t' = φ t ∧ l.foldlM f' (φ s) = some t' := by
  intro l
  induction l with
  | nil =>
    intro s t' h
    exact ⟨s, rfl, (Option.some.inj h).symm, h⟩
  | cons x l ih =>
    intro s t' h
    rw [List.foldlM_cons] at h
    cases hc : c' (φ s) x with
    | none => simp [hc] at h
    | some t1' =>
      obtain ⟨t1, h1, h2, h3⟩ := hstep s x t1' hc
      subst h2
      rw [hc] at h
      obtain ⟨t, h4, h5, h6⟩ := ih t1 t' h
      refine ⟨t, ?_, h5, ?_⟩
      · rw [List.foldlM_cons, h1]
        exact h4
      · rw [List.foldlM_cons, h3]
        exact h6

theorem loopJ_sim (n k i : Nat) (m : List (List (WithTop ℤ))) (d' : List (List F64))
    (h : loopJ64 (relaxGuard exactAdd) n k i (floatMatrix m) = some d') :
    ∃ m', loopJ n k i m = some m' ∧ d' = floatMatrix m' ∧
      loopJ64 relax64 n k i (floatMatrix m) = some d' :=
  foldlM_sim floatMatrix (fun d j => relax k i j d) (fun d j => relax64 k i j d)
    (fun d j => (relaxGuard exactAdd) k i j d) (fun s j t' ht => relax_sim k i j s t' ht)
    (List.range n) m d' h

theorem loopI_sim (n k : Nat) (m : List (List (WithTop ℤ))) (d' : List (List F64))
    (h : loopI64 (relaxGuard exactAdd) n k (floatMatrix m) = some d') :
    ∃ m', loopI n k m = some m' ∧ d' = floatMatrix m' ∧
      loopI64 relax64 n k (floatMatrix m) = some d' :=
  foldlM_sim floatMatrix (fun d i => loopJ n k i d) (fun d i => loopJ64 relax64 n k i d)
    (fun d i => loopJ64 (relaxGuard exactAdd) n k i d) (fun s i t' ht => loopJ_sim n k i s t' ht)
    (List.range n) m d' h

theorem rounds_sim (n r : Nat) (m : List (List (WithTop ℤ))) (d' : List (List F64))
    (h : rounds64 (relaxGuard exactAdd) n r (floatMatrix m) = some d') :
    ∃ m', rounds n r m = some m' ∧ d' = floatMatrix m' ∧
      rounds64 relax64 n r (floatMatrix m) = some d' :=
  foldlM_sim floatMatrix (fun d k => loopI n k d) (fun d k => loopI64 relax64 n k d)
    (fun d k => loopI64 (relaxGuard exactAdd) n k d) (fun s k t' ht => loopI_sim n k s t' ht)
    (List.range r) m d' h


theorem mapM_option_map {ι β γ : Type} (f : ι → Option β) (ψ : β → γ) :
    ∀ l : List ι, l.mapM (fun i => (f i).map ψ) = (l.mapM f).map (List.map ψ) := by
  intro l
  induction l with
  | nil => rfl
  | cons x l ih =>
    rw [List.mapM_cons, List.mapM_cons, ih]
    cases f x with
    | none => rfl
    | some y =>
      cases l.mapM f with
      | none => rfl
      | some ys => rfl

theorem copyRow64_float (n : Nat) (row : List (WithTop ℤ)) :
    copyRow64 n (row.map ofExact) = (copyRow n row).map ofExact := by
  have h0 : ofExact (0 : WithTop ℤ) = F64.fin 0 := rfl
  simp [copyRow64, copyRow, List.map_take, h0]

theorem copyMatrix64_float (g : Graph ℤ) :
    copyMatrix64 (floatGraph g) = (copyMatrix g).map floatMatrix := by
  unfold copyMatrix64 copyMatrix
  have h := mapM_option_map (fun i => (g.edges[i]?).map (copyRow g.vertices))
    (List.map ofExact) (List.range g.vertices)
  rw [show floatMatrix = List.map (List.map ofExact) from rfl, ← h]
  congr 1
  funext i
  simp only [floatGraph, floatMatrix, List.getElem?_map, Option.map_map]
  cases g.edges[i]? with
  | none => rfl
  | some row => simp [copyRow64_float]

/-- When no addition of the first `r` rounds is rounded or overflows, the `float64` run
computes the cells of the exact run. -/
theorem exactRounds_cells {g : Graph ℤ} (hg : g.WF) {r : Nat} (hr : r ≤ g.vertices)
    (hex : ExactRounds (floatGraph g) r) :
    ∃ d64, (copyMatrix64 (floatGraph g)).bind (rounds64 relax64 g.vertices r) = some d64 ∧
      ∀ i j, i < g.vertices → j < g.vertices →
        getCell64 d64 i j = some (ofExact (roundsF g.vertices r (cellFn g.edges) i j)) := by
  unfold ExactRounds GuardedRounds at hex
  rw [copyMatrix64_float, copyMatrix_eq hg] at hex ⊢
  simp only [Option.map_some', Option.some_bind] at hex ⊢
  have hv : (floatGraph g).vertices = g.vertices := rfl
  rw [hv] at hex
  cases hc : rounds64 (relaxGuard exactAdd) g.vertices r (floatMatrix g.edges) with
  | none => simp [hc] at hex
  | some d' =>
    obtain ⟨m', h1, h2, h3⟩ := rounds_sim g.vertices r g.edges d' hc
    obtain ⟨m'', h4, hshape, hfn⟩ := rounds_refine (n := g.vertices) hg hr
    rw [h1] at h4
    obtain rfl := Option.some.inj h4
    refine ⟨d', h3, ?_⟩
    intro i j hi hj
    rw [h2, getCell64_float, getCell_eq_cellFn hshape hi hj, hfn]
    rfl

/-- When no addition of `ShortestPath` is rounded or overflows, the `float64` run
computes the cells of the exact run. -/
theorem exactRun_cells {g : Graph ℤ} (hg : g.WF) (hex : ExactRun (floatGraph g)) :
    ∃ d64, ShortestPath64 (floatGraph g) = some d64 ∧
      ∀ i j, i < g.vertices → j < g.vertices →
        getCell64 d64 i j = some (ofExact (loopKF g.vertices (cellFn g.edges) i j)) :=
  exactRounds_cells hg le_rfl hex

theorem getShortestDistance64_cell {g : Graph ℤ} (hg : g.WF)
    (hex : ExactRun (floatGraph g)) {i j : Nat} (hi : i < g.vertices)
    (hj : j < g.vertices) :
    GetShortestDistance64 (floatGraph g) i j =
      some (ofExact (loopKF g.vertices (cellFn g.edges) i j)) := by
  obtain ⟨d64, h1, h2⟩ := exactRun_cells hg hex
  have hguard : ¬ ((i : Int) < 0 ∨ (i : Int) ≥ (floatGraph g).vertices ∨ (j : Int) < 0 ∨
      (j : Int) ≥ (floatGraph g).vertices) := by
    have hv : (floatGraph g).vertices = g.vertices := rfl
    omega
  simp only [GetShortestDistance64, if_neg hguard, h1, Option.some_bind, Int.toNat_ofNat]
  exact h2 i j hi hj

theorem newGraph64_float (n : Nat) : NewGraph64 n = floatGraph (NewGraph n) := by
  have h0 : ofExact (0 : WithTop ℤ) = F64.fin 0 := rfl
  have h1 : ofExact (⊤ : WithTop ℤ) = F64.pinf := rfl
  simp only [NewGraph64, floatGraph, NewGraph, floatMatrix, List.map_map]
  congr 1
  apply List.map_congr_left
  intro i _
  simp only [Function.comp_apply, List.map_map]
  apply List.map_congr_left
  intro j _
  simp only [Function.comp_apply]
  by_cases hij : i = j
  · simp [hij, h0]
  · simp [hij, h1]

theorem addEdge64_float (g : Graph ℤ) (u v : Int) (w : WithTop ℤ) :
    AddEdge64 (floatGraph g) u v (ofExact w) = (AddEdge g u v w).map floatGraph := by
  unfold AddEdge64 AddEdge
  have hv : (floatGraph g).vertices = g.vertices := rfl
  have he : (floatGraph g).edges = floatMatrix g.edges := rfl
  rw [hv, he]
  by_cases hr : u ≥ 0 ∧ u < g.vertices ∧ v ≥ 0 ∧ v < g.vertices
  · rw [if_pos hr, if_pos hr, setCell64_float]
    cases setCell g.edges u.toNat v.toNat w with
    | none => rfl
    | some m' => rfl
  · rw [if_neg hr, if_neg hr]
    rfl

/-- The calls on `float64` cells build the `float64` image of what they build on exact
cells. -/
theorem build64_float (n : Nat) (ops : List (Int × Int × WithTop ℤ)) :
    build64 n (floatOps ops) = (build n ops).map floatGraph := by
  have key : ∀ (l : List (Int × Int × WithTop ℤ)) (g : Graph ℤ),
      (floatOps l).foldlM (fun g op => AddEdge64 g op.1 op.2.1 op.2.2) (floatGraph g) =
        (l.foldlM (fun g op => AddEdge g op.1 op.2.1 op.2.2) g).map floatGraph := by
    intro l
    induction l with
    | nil => intro g; rfl
    | cons op l ih =>
      intro g
      rw [show floatOps (op :: l) = (op.1, op.2.1, ofExact op.2.2) :: floatOps l from rfl,
        List.foldlM_cons, List.foldlM_cons, addEdge64_float]
      cases AddEdge g op.1 op.2.1 op.2.2 with
      | none => rfl
      | some g1 => exact ih g1
  rw [build64, newGraph64_float, key]
  rfl


/-! ## Runs in which every addition passes a test -/

theorem setCell64_get {m m' : List (List F64)} {i j : Nat} {w : F64}
    (h : setCell64 m i j w = some m') (a b : Nat) :
    getCell64 m' a b = if a = i ∧ b = j then some w else getCell64 m a b := by
  unfold setCell64 at h
  cases hrow : m[i]? with
  | none =>
    rw [hrow] at h
    exact absurd h (by simp)
  | some row =>
    rw [hrow] at h
    simp only at h
    by_cases hj : j < row.length
    · rw [if_pos hj] at h
      obtain rfl := Option.some.inj h
      obtain ⟨hi, hri⟩ := List.getElem?_eq_some.mp hrow
      unfold getCell64
      by_cases ha : a = i
      · subst ha
        simp only [List.getElem?_set, if_true, hi, true_and]
        by_cases hb : b = j
        · subst hb
          simp [List.getElem?_set, hj]
        · rw [if_neg hb, hrow]
          simp [List.getElem?_set, Ne.symm hb]
      · have hne : ¬ (a = i ∧ b = j) := fun hc => ha hc.1
        rw [if_neg hne]
        simp [List.getElem?_set, Ne.symm ha]
    · rw [if_neg hj] at h
      exact absurd h (by simp)

theorem foldlM_rel {σ τ ι : Type} (R : σ → τ → Prop) (c f : σ → ι → Option σ)
    (g : τ → ι → τ) (Q : ι → Prop)
    (hstep : ∀ s t x s', Q x → R s t → c s x = some s' → f s x = some s' ∧ R s' (g t x)) :
    ∀ (l : List ι), (∀ x ∈ l, Q x) → ∀ s t s', R s t → l.foldlM c s = some s' →
      l.foldlM f s = some s' ∧ R s' (l.foldl g t) := by
  intro l
  induction l with
  | nil =>
    intro _ s t s' hR h
    obtain rfl := Option.some.inj h
    exact ⟨rfl, hR⟩
  | cons x l ih =>
    intro hQ s t s' hR h
    rw [List.foldlM_cons] at h
    cases hc : c s x with
    | none => simp [hc] at h
    | some s1 =>
      rw [hc] at h
      obtain ⟨h1, hR1⟩ := hstep s t x s1 (hQ x (List.mem_cons_self _ _)) hR hc
      obtain ⟨h2, hR2⟩ := ih (fun y hy => hQ y (List.mem_cons_of_mem _ hy)) s1 (g t x) s' hR1 h
      refine ⟨?_, hR2⟩
      rw [List.foldlM_cons, h1]
      exact h2

/-- One guarded relaxation: when the cells are related by `P` before, and `P` is kept by
a relaxation whose sum passes the test, the unguarded body computes the same matrix and
the cells are related after. -/
theorem relaxGuard_step (ok : F64 → F64 → Bool) (P : Nat → Nat → F64 → WithTop ℤ → Prop)
    (n : Nat)
    (hcell : ∀ k i j, k < n → i < n → j < n → ∀ af bf cf ae be ce,
      P i k af ae → P k j bf be → P i j cf ce → ok af bf = true →
        P i j (if flt (fadd af bf) cf then fadd af bf else cf) (min ce (ae + be)))
    {k i j : Nat} (hk : k < n) (hi : i < n) (hj : j < n) {d d' : List (List F64)}
    {e : Nat → Nat → WithTop ℤ} (hR : CellsRel n P d e)
    (h : relaxGuard ok k i j d = some d') :
    relax64 k i j d = some d' ∧ CellsRel n P d' (relaxF k i j e) := by
  obtain ⟨af, haf, hPa⟩ := hR i k hi hk
  obtain ⟨bf, hbf, hPb⟩ := hR k j hk hj
  obtain ⟨cf, hcf, hPc⟩ := hR i j hi hj
  unfold relaxGuard at h
  unfold relax64
  simp only [haf, hbf, hcf, Option.some_bind] at h ⊢
  by_cases hok : ok af bf = true
  · rw [if_pos hok] at h
    have hnew := hcell k i j hk hi hj af bf cf _ _ _ hPa hPb hPc hok
    refine ⟨h, ?_⟩
    intro a b ha hb
    rw [relaxF_eq_min]
    by_cases hlt : flt (fadd af bf) cf = true
    · rw [if_pos hlt] at h hnew
      rw [setCell64_get h a b]
      by_cases hab : a = i ∧ b = j
      · rw [if_pos hab, if_pos hab, hab.1, hab.2]
        exact ⟨_, rfl, hnew⟩
      · rw [if_neg hab, if_neg hab]
        exact hR a b ha hb
    · rw [if_neg hlt] at h hnew
      obtain rfl := Option.some.inj h
      by_cases hab : a = i ∧ b = j
      · rw [if_pos hab, hab.1, hab.2]
        exact ⟨cf, hcf, hnew⟩
      · rw [if_neg hab]
        exact hR a b ha hb
  · rw [if_neg hok] at h
    exact absurd h (by simp)

/-- The rounds of a guarded run: the unguarded run computes the same matrix, and its
cells are related by `P` to the cells of the run on numbers. -/
theorem guardedRounds_rel (ok : F64 → F64 → Bool) (P : Nat → Nat → F64 → WithTop ℤ → Prop)
    (n : Nat)
    (hcell : ∀ k i j, k < n → i < n → j < n → ∀ af bf cf ae be ce,
      P i k af ae → P k j bf be → P i j cf ce → ok af bf = true →
        P i j (if flt (fadd af bf) cf then fadd af bf else cf) (min ce (ae + be)))
    {r : Nat} (hr : r ≤ n) {d d' : List (List F64)} {e : Nat → Nat → WithTop ℤ}
    (hR : CellsRel n P d e) (h : rounds64 (relaxGuard ok) n r d = some d') :
    rounds64 relax64 n r d = some d' ∧ CellsRel n P d' (roundsF n r e) := by
  have hJ : ∀ k i, k < n → i < n → ∀ s t s', CellsRel n P s t →
      loopJ64 (relaxGuard ok) n k i s = some s' →
      loopJ64 relax64 n k i s = some s' ∧ CellsRel n P s' (loopJF n k i t) := by
    intro k i hk hi s t s' hs hrun
    exact foldlM_rel (CellsRel n P) (fun d j => relaxGuard ok k i j d)
      (fun d j => relax64 k i j d) (fun d j => relaxF k i j d) (fun j => j < n)
      (fun s t j s' hj hs hrun => relaxGuard_step ok P n hcell hk hi hj hs hrun)
      (List.range n) (fun _ hx => List.mem_range.mp hx) s t s' hs hrun
  have hI : ∀ k, k < n → ∀ s t s', CellsRel n P s t →
      loopI64 (relaxGuard ok) n k s = some s' →
      loopI64 relax64 n k s = some s' ∧ CellsRel n P s' (loopIF n k t) := by
    intro k hk s t s' hs hrun
    exact foldlM_rel (CellsRel n P) (fun d i => loopJ64 (relaxGuard ok) n k i d)
      (fun d i => loopJ64 relax64 n k i d) (fun d i => loopJF n k i d) (fun i => i < n)
      (fun s t i s' hi hs hrun => hJ k i hk hi s t s' hs hrun)
      (List.range n) (fun _ hx => List.mem_range.mp hx) s t s' hs hrun
  exact foldlM_rel (CellsRel n P) (fun d k => loopI64 (relaxGuard ok) n k d)
    (fun d k => loopI64 relax64 n k d) (fun d k => loopIF n k d) (fun k => k < n)
    (fun s t k s' hk hs hrun => hI k hk s t s' hs hrun)
    (List.range r) (fun _ hx => Nat.lt_of_lt_of_le (List.mem_range.mp hx) hr) d e d' hR h

/-- A guarded run on the `float64` image of a graph of numbers: `ShortestPath` computes a
matrix whose cells are related by `P` to the cells of the run on numbers. -/
theorem guardedRounds_cells (ok : F64 → F64 → Bool)
    (P : Nat → Nat → F64 → WithTop ℤ → Prop) {g : Graph ℤ} (hg : g.WF)
    (hcell : ∀ k i j, k < g.vertices → i < g.vertices → j < g.vertices →
      ∀ af bf cf ae be ce,
      P i k af ae → P k j bf be → P i j cf ce → ok af bf = true →
        P i j (if flt (fadd af bf) cf then fadd af bf else cf) (min ce (ae + be)))
    (hinit : ∀ i j, i < g.vertices → j < g.vertices →
      P i j (ofExact (cellFn g.edges i j)) (cellFn g.edges i j))
    {r : Nat} (hr : r ≤ g.vertices) (hrun : GuardedRounds ok (floatGraph g) r) :
    ∃ d64, (copyMatrix64 (floatGraph g)).bind (rounds64 relax64 g.vertices r) = some d64 ∧
      ∀ i j, i < g.vertices → j < g.vertices →
        ∃ y, getCell64 d64 i j = some y ∧
          P i j y (roundsF g.vertices r (cellFn g.edges) i j) := by
  unfold GuardedRounds at hrun
  rw [copyMatrix64_float, copyMatrix_eq hg] at hrun ⊢
  simp only [Option.map_some', Option.some_bind] at hrun ⊢
  have hv : (floatGraph g).vertices = g.vertices := rfl
  rw [hv] at hrun
  cases hc : rounds64 (relaxGuard ok) g.vertices r (floatMatrix g.edges) with
  | none => simp [hc] at hrun
  | some d' =>
    have h0 : CellsRel g.vertices P (floatMatrix g.edges) (cellFn g.edges) := by
      intro a b ha hb
      refine ⟨ofExact (cellFn g.edges a b), ?_, hinit a b ha hb⟩
      rw [getCell64_float, getCell_eq_cellFn hg ha hb]
      rfl
    obtain ⟨h1, h2⟩ := guardedRounds_rel ok P g.vertices hcell hr h0 hc
    exact ⟨d', h1, h2⟩

theorem roundUnits_ne_nan (s : Int) : roundUnits s ≠ F64.nan := by
  unfold roundUnits
  split_ifs <;> simp

theorem leExact_ne_nan {y : F64} {x : WithTop ℤ} (h : leExact y x) : y ≠ F64.nan := by
  rintro rfl
  exact h

theorem leExact_mono {y : F64} {x x' : WithTop ℤ} (h : leExact y x) (hx : x ≤ x') :
    leExact y x' := by
  cases y with
  | fin k => exact le_trans h hx
  | pinf =>
    have h' : x = ⊤ := h
    rw [h'] at hx
    exact top_le_iff.mp hx
  | ninf => trivial
  | nan => exact h

theorem leExact_top {y : F64} (h : y ≠ F64.nan) : leExact y ⊤ := by
  cases y with
  | fin k => exact le_top
  | pinf => rfl
  | ninf => trivial
  | nan => exact absurd rfl h

theorem leExact_min {y : F64} {a b : WithTop ℤ} (ha : leExact y a) (hb : leExact y b) :
    leExact y (min a b) := by
  rcases min_choice a b with h | h <;> rw [h] <;> assumption

theorem geExact_anti {y : F64} {x x' : WithTop ℤ} (h : geExact y x) (hx : x' ≤ x) :
    geExact y x' := by
  cases y with
  | fin k => exact le_trans hx h
  | pinf => trivial
  | ninf => exact h
  | nan => exact h

theorem leExact_ofExact (x : WithTop ℤ) : leExact (ofExact x) x := by
  induction x using WithTop.recTopCoe with
  | top => rfl
  | coe k => exact le_refl _

theorem geExact_ofExact (x : WithTop ℤ) : geExact (ofExact x) x := by
  induction x using WithTop.recTopCoe with
  | top => trivial
  | coe k => exact le_refl _

theorem ofExact_ne_nan (x : WithTop ℤ) : ofExact x ≠ F64.nan := by
  induction x using WithTop.recTopCoe with
  | top => exact fun h => F64.noConfusion h
  | coe k => exact fun h => F64.noConfusion h

theorem leExact_of_flt {s c : F64} {x : WithTop ℤ} (hlt : flt s c = true)
    (hc : leExact c x) : leExact s x := by
  cases s with
  | fin a =>
    cases c with
    | fin b =>
      have hab : a < b := by simpa [flt] using hlt
      have h1 : ((a : ℤ) : WithTop ℤ) ≤ ((b : ℤ) : WithTop ℤ) :=
        WithTop.coe_le_coe.mpr (le_of_lt hab)
      exact le_trans h1 hc
    | pinf =>
      have h' : x = ⊤ := hc
      rw [h']
      exact le_top
    | ninf => simp [flt] at hlt
    | nan => simp [flt] at hlt
  | pinf => simp [flt] at hlt
  | ninf => trivial
  | nan => simp [flt] at hlt

theorem leExact_of_not_flt {s c : F64} {x : WithTop ℤ} (hlt : ¬ flt s c = true)
    (hs : leExact s x) (hc : c ≠ F64.nan) : leExact c x := by
  cases s with
  | fin a =>
    cases c with
    | fin b =>
      have hab : b ≤ a := by simpa [flt] using hlt
      have h1 : ((b : ℤ) : WithTop ℤ) ≤ ((a : ℤ) : WithTop ℤ) := WithTop.coe_le_coe.mpr hab
      exact le_trans h1 hs
    | pinf => simp [flt] at hlt
    | ninf => trivial
    | nan => exact absurd rfl hc
  | pinf =>
    have h' : x = ⊤ := hs
    rw [h']
    exact leExact_top hc
  | ninf =>
    cases c with
    | fin b => simp [flt] at hlt
    | pinf => simp [flt] at hlt
    | ninf => trivial
    | nan => exact absurd rfl hc
  | nan => exact absurd hs id

/-- A sum that is not rounded upwards is at most the sum of the numbers above its
operands. -/
theorem fadd_le {a b : F64} {ae be : WithTop ℤ} (ha : leExact a ae) (hb : leExact b be)
    (hok : noUpAdd a b = true) (hn : fadd a b ≠ F64.nan) : leExact (fadd a b) (ae + be) := by
  cases a with
  | fin x =>
    cases b with
    | fin y =>
      have hsum : ((x + y : ℤ) : WithTop ℤ) ≤ ae + be := by
        rw [WithTop.coe_add]
        exact add_le_add ha hb
      have hf : fadd (F64.fin x) (F64.fin y) = roundUnits (x + y) := rfl
      have hg : noUpAdd (F64.fin x) (F64.fin y) = atMost (x + y) (roundUnits (x + y)) :=
        rfl
      rw [hg] at hok
      rw [hf]
      cases hr : roundUnits (x + y) with
      | fin r =>
        rw [hr] at hok
        have hle : r ≤ x + y := by simpa [atMost] using hok
        exact le_trans (WithTop.coe_le_coe.mpr hle) hsum
      | pinf =>
        rw [hr] at hok
        simp [atMost] at hok
      | ninf => trivial
      | nan => exact absurd hr (roundUnits_ne_nan _)
    | pinf =>
      have h' : be = ⊤ := hb
      rw [h', WithTop.add_top]
      rfl
    | ninf => trivial
    | nan => exact absurd hb id
  | pinf =>
    have h' : ae = ⊤ := ha
    rw [h', WithTop.top_add]
    cases b with
    | fin y => rfl
    | pinf => rfl
    | ninf => exact absurd rfl hn
    | nan => exact absurd hb id
  | ninf =>
    cases b with
    | fin y => trivial
    | pinf => exact absurd rfl hn
    | ninf => trivial
    | nan => exact absurd hb id
  | nan => exact absurd ha id

/-- A sum of values that are not `NaN` is `NaN` only when an operand is `+Inf`. -/
theorem fadd_nan_top {a b : F64} {ae be : WithTop ℤ} (ha : leExact a ae)
    (hb : leExact b be) (hn : fadd a b = F64.nan) : ae + be = ⊤ := by
  cases a with
  | fin x =>
    cases b with
    | fin y => exact absurd hn (roundUnits_ne_nan _)
    | pinf => exact absurd hn (fun h => F64.noConfusion h)
    | ninf => exact absurd hn (fun h => F64.noConfusion h)
    | nan => exact absurd hb id
  | pinf =>
    have h' : ae = ⊤ := ha
    rw [h', WithTop.top_add]
  | ninf =>
    cases b with
    | fin y => exact absurd hn (fun h => F64.noConfusion h)
    | pinf =>
      have h' : be = ⊤ := hb
      rw [h', WithTop.add_top]
    | ninf => exact absurd hn (fun h => F64.noConfusion h)
    | nan => exact absurd hb id
  | nan => exact absurd ha id

/-- A sum that is not rounded downwards is at least the sum of the numbers below its
operands. -/
theorem fadd_ge {a b : F64} {ae be : WithTop ℤ} (ha : geExact a ae) (hb : geExact b be)
    (hok : noDownAdd a b = true) : geExact (fadd a b) (ae + be) := by
  cases a with
  | fin x =>
    cases b with
    | fin y =>
      have hsum : ae + be ≤ ((x + y : ℤ) : WithTop ℤ) := by
        rw [WithTop.coe_add]
        exact add_le_add ha hb
      have hf : fadd (F64.fin x) (F64.fin y) = roundUnits (x + y) := rfl
      have hg : noDownAdd (F64.fin x) (F64.fin y) =
          atLeast (x + y) (roundUnits (x + y)) := rfl
      rw [hg] at hok
      rw [hf]
      cases hr : roundUnits (x + y) with
      | fin r =>
        rw [hr] at hok
        have hle : x + y ≤ r := by simpa [atLeast] using hok
        exact le_trans hsum (WithTop.coe_le_coe.mpr hle)
      | pinf => trivial
      | ninf =>
        rw [hr] at hok
        simp [atLeast] at hok
      | nan => exact absurd hr (roundUnits_ne_nan _)
    | pinf => trivial
    | ninf => exact absurd hb id
    | nan => exact absurd hb id
  | pinf =>
    cases b with
    | fin y => trivial
    | pinf => trivial
    | ninf => exact absurd hb id
    | nan => exact absurd hb id
  | ninf => exact absurd ha id
  | nan => exact absurd ha id

/-- A relaxation none of whose sums is rounded upwards keeps the cell at most the number
that the exact relaxation computes. -/
theorem relax_cell_le {af bf cf : F64} {ae be ce : WithTop ℤ} (ha : leExact af ae)
    (hb : leExact bf be) (hc : leExact cf ce) (hok : noUpAdd af bf = true) :
    leExact (if flt (fadd af bf) cf then fadd af bf else cf) (min ce (ae + be)) := by
  by_cases hlt : flt (fadd af bf) cf = true
  · rw [if_pos hlt]
    have hn : fadd af bf ≠ F64.nan := by
      intro h
      rw [h] at hlt
      simp [flt] at hlt
    exact leExact_min (leExact_of_flt hlt hc) (fadd_le ha hb hok hn)
  · rw [if_neg hlt]
    refine leExact_min hc ?_
    by_cases hn : fadd af bf = F64.nan
    · rw [fadd_nan_top ha hb hn]
      exact leExact_top (leExact_ne_nan hc)
    · exact leExact_of_not_flt hlt (fadd_le ha hb hok hn) (leExact_ne_nan hc)

/-- A relaxation none of whose sums is rounded downwards keeps the cell at least the
number that the exact relaxation computes, and at most any number above the cell. -/
theorem relax_cell_ge {af bf cf : F64} {ae be ce x0 : WithTop ℤ} (ha : geExact af ae)
    (hb : geExact bf be) (hc : geExact cf ce ∧ leExact cf x0)
    (hok : noDownAdd af bf = true) :
    geExact (if flt (fadd af bf) cf then fadd af bf else cf) (min ce (ae + be)) ∧
      leExact (if flt (fadd af bf) cf then fadd af bf else cf) x0 := by
  by_cases hlt : flt (fadd af bf) cf = true
  · rw [if_pos hlt]
    exact ⟨geExact_anti (fadd_ge ha hb hok) (min_le_right _ _), leExact_of_flt hlt hc.2⟩
  · rw [if_neg hlt]
    exact ⟨geExact_anti hc.1 (min_le_left _ _), hc.2⟩

/-- A relaxation none of whose sums of finite values overflows to `+Inf` keeps the cell
`+Inf` exactly when the number that the exact relaxation computes is `⊤`. -/
theorem relax_cell_inf {af bf cf : F64} {ae be ce : WithTop ℤ}
    (ha : af ≠ F64.nan ∧ (af = F64.pinf ↔ ae = ⊤))
    (hb : bf ≠ F64.nan ∧ (bf = F64.pinf ↔ be = ⊤))
    (hc : cf ≠ F64.nan ∧ (cf = F64.pinf ↔ ce = ⊤)) (hok : noInfAdd af bf = true) :
    (if flt (fadd af bf) cf then fadd af bf else cf) ≠ F64.nan ∧
      ((if flt (fadd af bf) cf then fadd af bf else cf) = F64.pinf ↔
        min ce (ae + be) = ⊤) := by
  have hsum : fadd af bf = F64.pinf ∨ fadd af bf = F64.nan ↔ ae + be = ⊤ := by
    rw [WithTop.add_eq_top, ← ha.2, ← hb.2]
    cases af with
    | fin x =>
      cases bf with
      | fin y =>
        have h1 : roundUnits (x + y) ≠ F64.pinf := by simpa [noInfAdd] using hok
        simp [fadd, h1, roundUnits_ne_nan]
      | pinf => simp [fadd]
      | ninf => simp [fadd]
      | nan => exact absurd rfl hb.1
    | pinf =>
      cases bf with
      | fin y => simp [fadd]
      | pinf => simp [fadd]
      | ninf => simp [fadd]
      | nan => exact absurd rfl hb.1
    | ninf =>
      cases bf with
      | fin y => simp [fadd]
      | pinf => simp [fadd]
      | ninf => simp [fadd]
      | nan => exact absurd rfl hb.1
    | nan => exact absurd rfl ha.1
  by_cases hlt : flt (fadd af bf) cf = true
  · rw [if_pos hlt]
    have hn : fadd af bf ≠ F64.nan := by
      intro h
      rw [h] at hlt
      simp [flt] at hlt
    have hp : fadd af bf ≠ F64.pinf := by
      intro h
      rw [h] at hlt
      simp [flt] at hlt
    refine ⟨hn, ?_⟩
    constructor
    · intro h
      exact absurd h hp
    · intro h
      have h2 : ae + be = ⊤ := by
        rcases min_choice ce (ae + be) with hm | hm
        · rw [hm] at h
          have hcp : cf = F64.pinf := hc.2.mpr h
          rw [hcp] at hlt
          have hle := min_le_right ce (ae + be)
          rw [hm, h] at hle
          exact top_le_iff.mp hle
        · rw [hm] at h
          exact h
      rcases hsum.mpr h2 with h3 | h3
      · exact absurd h3 hp
      · exact absurd h3 hn
  · rw [if_neg hlt]
    refine ⟨hc.1, ?_⟩
    constructor
    · intro h
      have hce : ce = ⊤ := hc.2.mp h
      rw [hce, min_eq_right le_top]
      apply hsum.mp
      rw [h] at hlt
      cases hs : fadd af bf with
      | fin r =>
        rw [hs] at hlt
        simp [flt] at hlt
      | pinf => exact Or.inl rfl
      | ninf =>
        rw [hs] at hlt
        simp [flt] at hlt
      | nan => exact Or.inr rfl
    · intro h
      apply hc.2.mpr
      have hle := min_le_left ce (ae + be)
      rw [h] at hle
      exact top_le_iff.mp hle

/-- A guarded run of `ShortestPath` on the `float64` image of a graph of numbers returns
a matrix whose cells are related by `P` to the cells of the run on numbers. -/
theorem guardedRun_cells (ok : F64 → F64 → Bool)
    (P : Nat → Nat → F64 → WithTop ℤ → Prop) {g : Graph ℤ} (hg : g.WF)
    (hcell : ∀ k i j, k < g.vertices → i < g.vertices → j < g.vertices →
      ∀ af bf cf ae be ce,
      P i k af ae → P k j bf be → P i j cf ce → ok af bf = true →
        P i j (if flt (fadd af bf) cf then fadd af bf else cf) (min ce (ae + be)))
    (hinit : ∀ i j, i < g.vertices → j < g.vertices →
      P i j (ofExact (cellFn g.edges i j)) (cellFn g.edges i j))
    (hrun : GuardedRounds ok (floatGraph g) g.vertices) :
    ∃ d64, ShortestPath64 (floatGraph g) = some d64 ∧
      ∀ i j, i < g.vertices → j < g.vertices →
        ∃ y, getCell64 d64 i j = some y ∧
          P i j y (loopKF g.vertices (cellFn g.edges) i j) :=
  guardedRounds_cells ok P hg hcell hinit le_rfl hrun

theorem getShortestDistance64_of_cells {G : Graph64} {d : List (List F64)}
    (h : ShortestPath64 G = some d) {i j : Nat} (hi : i < G.vertices)
    (hj : j < G.vertices) : GetShortestDistance64 G i j = getCell64 d i j := by
  have hguard : ¬ ((i : Int) < 0 ∨ (i : Int) ≥ G.vertices ∨ (j : Int) < 0 ∨
      (j : Int) ≥ G.vertices) := by
    omega
  simp only [GetShortestDistance64, if_neg hguard, h, Option.some_bind, Int.toNat_ofNat]

/-- With a potential `π` on the vertices such that `π v ≤ e u v + π u` for every cell,
a walk from `a` to `b` weighs at least `π b - π a`. -/
theorem walkWeight_potential (n : Nat) (e : Nat → Nat → WithTop ℤ) (π : Nat → ℤ)
    (h : ∀ u, u < n → ∀ v, v < n → ((π v : ℤ) : WithTop ℤ) ≤ e u v + ((π u : ℤ) : WithTop ℤ))
    {b : Nat} (hb : b < n) :
    ∀ (l : List Nat) (a : Nat), a < n → (∀ v ∈ l, v < n) →
      ((π b : ℤ) : WithTop ℤ) ≤ walkWeight e a b l + ((π a : ℤ) : WithTop ℤ) := by
  intro l
  induction l with
  | nil =>
    intro a ha _
    exact h a ha b hb
  | cons v l ih =>
    intro a ha hl
    have hv : v < n := hl v (List.mem_cons_self _ _)
    have h1 := ih v hv (fun u hu => hl u (List.mem_cons_of_mem _ hu))
    have h2 := h a ha v hv
    rw [walkWeight]
    calc ((π b : ℤ) : WithTop ℤ) ≤ walkWeight e v b l + ((π v : ℤ) : WithTop ℤ) := h1
      _ ≤ walkWeight e v b l + (e a v + ((π a : ℤ) : WithTop ℤ)) := add_le_add_left h2 _
      _ = e a v + walkWeight e v b l + ((π a : ℤ) : WithTop ℤ) := by
        rw [← add_assoc, add_comm (walkWeight e v b l) (e a v)]

/-- A graph with a potential has no closed walk of negative total weight. -/
theorem noNegClosedWalkAt_of_potential (g : Graph ℤ) (π : Nat → ℤ)
    (h : ∀ u, u < g.vertices → ∀ v, v < g.vertices →
      ((π v : ℤ) : WithTop ℤ) ≤ cellFn g.edges u v + ((π u : ℤ) : WithTop ℤ))
    (i : Nat) (hi : i < g.vertices) : NoNegClosedWalkAt g i := by
  intro l hl
  rw [pathWeight, pathWeightF_walk]
  have hw := walkWeight_potential g.vertices (cellFn g.edges) π h hi l i hi hl
  generalize walkWeight (cellFn g.edges) i i l = x at hw
  induction x using WithTop.recTopCoe with
  | top => exact le_top
  | coe w =>
    rw [← WithTop.coe_add, WithTop.coe_le_coe] at hw
    have h0 : (0 : ℤ) ≤ w := by omega
    exact WithTop.coe_le_coe.mpr h0

/-- A graph without a negative cycle has no closed walk of negative total weight. -/
theorem noNegClosedWalkAt_of_noNegCycle {g : Graph ℤ} (hcyc : NoNegCycle g) (i : Nat)
    (hi : i < g.vertices) : NoNegClosedWalkAt g i := by
  intro l hl
  rw [pathWeight, pathWeightF_walk]
  refine noNegCycle_closedWalk hcyc i l ?_
  intro u hu
  rcases List.mem_cons.mp hu with rfl | hu
  · exact hi
  · exact hl u hu

/-! ## Properties that rest on sums, on `float64` cells

In what follows the weights of a graph `g` are numbers in units of `2⁻¹⁰⁷⁴`, `⊤` for a
missing edge, and `floatGraph g` is the state of the program that holds them. -/

theorem build_wf {n : Nat} {ops : List (Int × Int × WithTop ℤ)} {g : Graph ℤ}
    (hg : build n ops = some g) :
    g.vertices = n ∧ g.WF ∧ ∀ i j, i < n → j < n →
      cellFn g.edges i j = (lastWrite ops i j).getD (initCell i j) := by
  obtain ⟨g', hb, hn, hwf, hcell⟩ := build_spec n ops
  rw [hg] at hb
  obtain rfl := Option.some.inj hb
  exact ⟨hn, hwf, fun i j hi hj => cellFn_of_getCell_eq (hcell i j hi hj)⟩

theorem zero_diag_of_build {n : Nat} {ops : List (Int × Int × ℤ)} {g : Graph ℤ}
    (hg : build n (finiteOps ops) = some g)
    (hdiag : ∀ op ∈ ops, ¬ (op.1 = op.2.1 ∧ 0 ≤ op.1 ∧ op.1 < (n : Int))) :
    ∀ v, v < n → cellFn g.edges v v = 0 := by
  intro v hv
  have hnone : lastWrite (finiteOps ops) v v = none := by
    apply lastWrite_eq_none
    intro op' hop' hmatch
    obtain ⟨op, hop, rfl⟩ := List.mem_map.mp hop'
    simp only at hmatch
    refine hdiag op hop ⟨?_, ?_, ?_⟩
    · rw [hmatch.1, hmatch.2]
    · rw [hmatch.1]; exact Int.ofNat_nonneg v
    · rw [hmatch.1]; exact Int.ofNat_lt.mpr hv
  rw [(build_wf hg).2.2 v v hv hv, hnone]
  simp [initCell]

theorem build64_of_build {n : Nat} {ops : List (Int × Int × WithTop ℤ)} {g : Graph ℤ}
    (hg : build n ops = some g) : build64 n (floatOps ops) = some (floatGraph g) := by
  rw [build64_float, hg]
  rfl

/-- C1, as stated, fails: after `NewGraph(3)`, `AddEdge(0,1,2⁵³)`, `AddEdge(1,2,1)`, two
calls with `float64` weights, the cell `(0, 2)` of the result of `ShortestPath` is `2⁵³`,
while there is a directed path from `0` to `2` and every such path weighs at least
`2⁵³ + 1`: the sum `2⁵³ + 1` is rounded to `2⁵³`. -/
theorem minimum_counterexample :
    build64 3 (floatOps (finiteOps (wholeOps roundEdges))) = some (floatGraph roundGraph) ∧
    build 3 (finiteOps (wholeOps roundEdges)) = some roundGraph ∧
    (∀ op ∈ wholeOps roundEdges, Representable op.2.2) ∧
    (∀ op ∈ wholeOps roundEdges, ¬ (op.1 = op.2.1 ∧ 0 ≤ op.1 ∧ op.1 < 3)) ∧
    NoNegCycle roundGraph ∧
    (∃ dist, ShortestPath64 (floatGraph roundGraph) = some dist ∧
      getCell64 dist 0 2 = some (ofExact (wcell 9007199254740992))) ∧
    IsPath roundGraph 0 2 [0, 1, 2] ∧
    ∀ p, IsPath roundGraph 0 2 p → wcell 9007199254740993 ≤ pathWeight roundGraph p := by
  have hcyc : NoNegCycle roundGraph := noNegCycle_of_nonneg roundGraph (by decide)
  refine ⟨by decide, by decide, by decide, by decide, hcyc,
    ⟨floatMatrix [[0, wcell 9007199254740992, wcell 9007199254740992], [⊤, 0, wcell 1],
      [⊤, ⊤, 0]], by decide, by decide⟩, ?_, ?_⟩
  · exact ⟨⟨rfl, rfl, by decide⟩,
      List.chain'_cons.mpr ⟨by decide, List.chain'_cons.mpr ⟨by decide,
        List.chain'_singleton _⟩⟩⟩
  · intro p hp
    have h := loopKF_lower_route hcyc
      (fun v hv => cellFn_diag_zero (g := roundGraph) (by decide) v hv)
      (i := 0) (j := 2) (by decide) (by decide) hp.1
    have hv : loopKF roundGraph.vertices (cellFn roundGraph.edges) 0 2 =
        wcell 9007199254740993 := by decide
    rw [hv] at h
    exact h

/-- C1, amended.  Let `g` be obtained from `NewGraph n` by `AddEdge` calls with finite
weights, none of which targets a diagonal cell, let `g` have no directed cycle of negative
total weight, and let no addition that `ShortestPath` performs on it be rounded or
overflow.  Then for all `i, j < n` the cell `(i, j)` of the matrix that `ShortestPath`
returns holds a number that is at most the total weight of every directed path from `i`
to `j` (the empty path of weight `0` when `i = j`), is the total weight of one of them,
even one without repeated vertex, when there is a path, and is `⊤` when there is none. -/
theorem shortestPath64_minimum (n : Nat) (ops : List (Int × Int × ℤ))
    (hdiag : ∀ op ∈ ops, ¬ (op.1 = op.2.1 ∧ 0 ≤ op.1 ∧ op.1 < (n : Int)))
    (g : Graph ℤ) (hg : build n (finiteOps ops) = some g) (hcyc : NoNegCycle g)
    (hex : ExactRun (floatGraph g)) (i j : Nat) (hi : i < n) (hj : j < n) :
    build64 n (floatOps (finiteOps ops)) = some (floatGraph g) ∧
    ∃ dist x, ShortestPath64 (floatGraph g) = some dist ∧
      getCell64 dist i j = some (ofExact x) ∧
      (∀ p, IsPath g i j p → x ≤ pathWeight g p) ∧
      ((∃ p, IsPath g i j p) → ∃ p, IsPath g i j p ∧ p.Nodup ∧ pathWeight g p = x) ∧
      ((¬ ∃ p, IsPath g i j p) → x = ⊤) := by
  refine ⟨build64_of_build hg, ?_⟩
  have h0' := zero_diag_of_build hg hdiag
  obtain ⟨hn, hwf, -⟩ := build_wf hg
  subst hn
  obtain ⟨dist, hsp, hd⟩ := exactRun_cells hwf hex
  have hsimple := fun hfin => loopKF_simple_path hcyc h0' hi hj hfin
  refine ⟨dist, _, hsp, hd i j hi hj, ?_, ?_, ?_⟩
  · intro p hp
    exact loopKF_lower_route hcyc h0' hi hj hp.1
  · rintro ⟨p, hp⟩
    apply hsimple
    have hfin : pathWeight g p ≠ ⊤ :=
      pathWeightF_ne_top_of_chain _ p (hp.2.imp fun _ _ h => h.2)
    exact ne_top_of_le_ne_top hfin (loopKF_lower_route hcyc h0' hi hj hp.1)
  · intro hno
    by_contra hfin
    obtain ⟨p, hp, -, -⟩ := hsimple hfin
    exact hno ⟨p, hp⟩

theorem shortestPath64_minimum_witness :
    build 4 (finiteOps (wholeOps demoEdges)) = some demoWholeGraph ∧
    ExactRun (floatGraph demoWholeGraph) ∧
    (build64 4 (floatOps (finiteOps (wholeOps demoEdges))) = some (floatGraph demoWholeGraph) ∧
    ∃ dist x, ShortestPath64 (floatGraph demoWholeGraph) = some dist ∧
      getCell64 dist 0 3 = some (ofExact x) ∧
      (∀ p, IsPath demoWholeGraph 0 3 p → x ≤ pathWeight demoWholeGraph p) ∧
      ((∃ p, IsPath demoWholeGraph 0 3 p) →
        ∃ p, IsPath demoWholeGraph 0 3 p ∧ p.Nodup ∧ pathWeight demoWholeGraph p = x) ∧
      ((¬ ∃ p, IsPath demoWholeGraph 0 3 p) → x = ⊤)) :=
  ⟨by decide, by decide,
    shortestPath64_minimum 4 (wholeOps demoEdges) (by decide) demoWholeGraph (by decide)
      (noNegCycle_of_nonneg demoWholeGraph (by decide)) (by decide) 0 3 (by decide)
      (by decide)⟩

/-- C3, as stated, fails, in two ways.  After `NewGraph(2)`, `AddEdge(0,1,-1)`,
`AddEdge(1,0,-1)`, two calls that do not target the cell `(0, 0)`, the cell `(0, 0)` of
the result of `ShortestPath` is `-2`, not `0`: a cycle of negative weight runs through
`0`.  After `NewGraph(5)`, `AddEdge(0,1,2⁵³)`, `AddEdge(1,2,1)`, `AddEdge(2,3,1)`,
`AddEdge(3,4,1)`, `AddEdge(4,0,-(2⁵³+2))`, a graph in which no closed walk has a negative
total weight, the cell `(0, 0)` of the result is `-2` as well: the sums `2⁵³ + 1` are
rounded downwards. -/
theorem diagonal_counterexample :
    (build64 2 (floatOps (finiteOps (wholeOps negEdges))) = some (floatGraph negWholeGraph) ∧
      (∀ op ∈ wholeOps negEdges, Representable op.2.2) ∧
      (∀ op ∈ wholeOps negEdges, ¬ (op.1 = 0 ∧ op.2.1 = 0)) ∧
      ∃ dist, ShortestPath64 (floatGraph negWholeGraph) = some dist ∧
        getCell64 dist 0 0 = some (F64.fin (whole (-2))) ∧
        getCell64 dist 0 0 ≠ some (F64.fin 0)) ∧
    (build64 5 (floatOps (finiteOps (wholeOps driftEdges))) = some (floatGraph driftGraph) ∧
      (∀ op ∈ wholeOps driftEdges, Representable op.2.2) ∧
      (∀ op ∈ wholeOps driftEdges, ¬ (op.1 = 0 ∧ op.2.1 = 0)) ∧
      (∀ i, i < 5 → NoNegClosedWalkAt driftGraph i) ∧
      (ShortestPath64 (floatGraph driftGraph)).bind (fun dist => getCell64 dist 0 0) =
        some (F64.fin (whole (-2))) ∧
      (ShortestPath64 (floatGraph driftGraph)).bind (fun dist => getCell64 dist 0 0) ≠
        some (F64.fin 0)) :=
  ⟨⟨by decide, by decide, by decide,
      floatMatrix [[wcell (-2), wcell (-3)], [wcell (-3), wcell (-4)]],
      by decide, by decide, by decide⟩,
    by decide, by decide, by decide,
    fun i hi => noNegClosedWalkAt_of_potential driftGraph driftPotential (by decide) i hi,
    by decide, by decide⟩

/-- C3, amended.  Let `g` be obtained from `NewGraph n` by `AddEdge` calls with finite
weights, negative ones included, none of which targets the cell `(i, i)`, let no closed
walk of `g` through `i` have a negative total weight, and let no addition that
`ShortestPath` performs on `g` be rounded downwards.  Then the cell `(i, i)` of the result
of `ShortestPath` is `0`. -/
theorem shortestPath64_diagonal (n : Nat) (ops : List (Int × Int × ℤ)) (i : Nat)
    (hi : i < n) (hdiag : ∀ op ∈ ops, ¬ (op.1 = (i : Int) ∧ op.2.1 = (i : Int)))
    (g : Graph ℤ) (hg : build n (finiteOps ops) = some g) (hcyc : NoNegClosedWalkAt g i)
    (hrun : NoRoundDownRun (floatGraph g)) :
    build64 n (floatOps (finiteOps ops)) = some (floatGraph g) ∧
    ∃ dist, ShortestPath64 (floatGraph g) = some dist ∧
      getCell64 dist i i = some (F64.fin 0) := by
  refine ⟨build64_of_build hg, ?_⟩
  obtain ⟨hn, hwf, hcell⟩ := build_wf hg
  have h0 : cellFn g.edges i i = 0 := by
    have hnone : lastWrite (finiteOps ops) i i = none := by
      apply lastWrite_eq_none
      intro op' hop' hmatch
      obtain ⟨op, hop, rfl⟩ := List.mem_map.mp hop'
      exact hdiag op hop hmatch
    rw [hcell i i hi hi, hnone]
    simp [initCell]
  subst hn
  obtain ⟨dist, hsp, hd⟩ := guardedRun_cells noDownAdd
    (fun a b y x => geExact y x ∧ leExact y (cellFn g.edges a b)) hwf
    (fun _ _ _ _ _ _ _ _ _ _ _ _ ha hb hc hok => relax_cell_ge ha.1 hb.1 hc hok)
    (fun a b _ _ => ⟨geExact_ofExact _, leExact_ofExact _⟩) hrun
  refine ⟨dist, hsp, ?_⟩
  obtain ⟨y, hy, hge, hle⟩ := hd i i hi hi
  rw [hy]
  obtain ⟨l, hl, hw⟩ := loopKF_realised g.vertices (cellFn g.edges) i i
  have hnonneg : (0 : WithTop ℤ) ≤ loopKF g.vertices (cellFn g.edges) i i := by
    have h := hcyc l hl
    rwa [pathWeight, pathWeightF_walk, hw] at h
  have hge0 := geExact_anti hge hnonneg
  rw [h0] at hle
  cases y with
  | fin k =>
    have h1 : (0 : ℤ) ≤ k := WithTop.coe_le_coe.mp hge0
    have h2 : k ≤ (0 : ℤ) := WithTop.coe_le_coe.mp hle
    have h3 : k = 0 := le_antisymm h2 h1
    rw [h3]
  | pinf => exact absurd (show (0 : WithTop ℤ) = ⊤ from hle) WithTop.zero_ne_top
  | ninf => exact absurd hge0 id
  | nan => exact absurd hge0 id

theorem shortestPath64_diagonal_witness :
    build 3 (finiteOps (wholeOps roundUpEdges)) = some roundUpGraph ∧
    NoNegClosedWalkAt roundUpGraph 0 ∧
    NoRoundDownRun (floatGraph roundUpGraph) ∧
    (build64 3 (floatOps (finiteOps (wholeOps roundUpEdges))) =
      some (floatGraph roundUpGraph) ∧
    ∃ dist, ShortestPath64 (floatGraph roundUpGraph) = some dist ∧
      getCell64 dist 0 0 = some (F64.fin 0)) :=
  ⟨by decide,
    noNegClosedWalkAt_of_noNegCycle (noNegCycle_of_nonneg roundUpGraph (by decide)) 0
      (by decide),
    by decide,
    shortestPath64_diagonal 3 (wholeOps roundUpEdges) 0 (by decide) (by decide) roundUpGraph
      (by decide)
      (noNegClosedWalkAt_of_noNegCycle (noNegCycle_of_nonneg roundUpGraph (by decide)) 0
        (by decide))
      (by decide)⟩

/-- C4, as stated, fails, in two ways.  After `NewGraph(2)`, `AddEdge(0,1,-1)`,
`AddEdge(1,0,-1)` the result of `ShortestPath` has `dist[0][0] = -2` and
`dist[0][1] = dist[1][0] = -3`, and `-2` is not at most `-3 + -3`, neither as a number nor
as a sum of `float64`: the graph has a negative cycle.  After `NewGraph(4)`,
`AddEdge(2,1,2⁵³)`, `AddEdge(1,0,1)`, `AddEdge(0,3,1)`, a graph of weights that are not
negative, the result has `dist[2][3] = 2⁵³ + 2`, `dist[2][0] = 2⁵³` and `dist[0][3] = 1`,
and `2⁵³ + 2` is not at most `2⁵³ + 1`, neither as a number nor as a sum of `float64`:
the sum `2⁵³ + 1` that gives `dist[2][0]` is rounded. -/
theorem triangle_counterexample :
    (build64 2 (floatOps (finiteOps (wholeOps negEdges))) = some (floatGraph negWholeGraph) ∧
      (∀ op ∈ wholeOps negEdges, Representable op.2.2) ∧
      ∃ dist, ShortestPath64 (floatGraph negWholeGraph) = some dist ∧
        getCell64 dist 0 0 = some (ofExact (wcell (-2))) ∧
        getCell64 dist 0 1 = some (ofExact (wcell (-3))) ∧
        getCell64 dist 1 0 = some (ofExact (wcell (-3))) ∧
        ¬ (wcell (-2) ≤ wcell (-3) + wcell (-3)) ∧
        flt (fadd (ofExact (wcell (-3))) (ofExact (wcell (-3)))) (ofExact (wcell (-2))) =
          true) ∧
    (build64 4 (floatOps (finiteOps (wholeOps skewEdges))) = some (floatGraph skewGraph) ∧
      (∀ op ∈ wholeOps skewEdges, Representable op.2.2) ∧
      NoNegCycle skewGraph ∧
      (ShortestPath64 (floatGraph skewGraph)).bind (fun dist => getCell64 dist 2 3) =
        some (ofExact (wcell 9007199254740994)) ∧
      (ShortestPath64 (floatGraph skewGraph)).bind (fun dist => getCell64 dist 2 0) =
        some (ofExact (wcell 9007199254740992)) ∧
      (ShortestPath64 (floatGraph skewGraph)).bind (fun dist => getCell64 dist 0 3) =
        some (ofExact (wcell 1)) ∧
      ¬ (wcell 9007199254740994 ≤ wcell 9007199254740992 + wcell 1) ∧
      flt (fadd (ofExact (wcell 9007199254740992)) (ofExact (wcell 1)))
        (ofExact (wcell 9007199254740994)) = true) :=
  ⟨⟨by decide, by decide,
      floatMatrix [[wcell (-2), wcell (-3)], [wcell (-3), wcell (-4)]],
      by decide, by decide, by decide, by decide, by decide, by decide⟩,
    by decide, by decide, noNegCycle_of_nonneg skewGraph (by decide),
    by decide, by decide, by decide, by decide, by decide⟩

/-- C4, amended.  Let `g` be obtained from `NewGraph n` by any sequence of `AddEdge`
calls with weights that are finite or `+Inf`, let `g` have no directed cycle of negative
total weight, a rewritten diagonal cell counting as a cycle of one edge, and let no
addition that `ShortestPath` performs on it be rounded or overflow.  Then the numbers in
the result `dist` of `ShortestPath` satisfy `dist[i][j] ≤ dist[i][k] + dist[k][j]` for all
`i, j, k < n`. -/
theorem shortestPath64_triangle (n : Nat) (ops : List (Int × Int × WithTop ℤ))
    (g : Graph ℤ) (hg : build n ops = some g) (hcyc : NoNegCycle g)
    (hex : ExactRun (floatGraph g)) :
    build64 n (floatOps ops) = some (floatGraph g) ∧
    ∃ dist, ShortestPath64 (floatGraph g) = some dist ∧
      ∀ i j k, i < n → j < n → k < n →
        ∃ a b c : WithTop ℤ, getCell64 dist i j = some (ofExact a) ∧
          getCell64 dist i k = some (ofExact b) ∧
          getCell64 dist k j = some (ofExact c) ∧ a ≤ b + c := by
  refine ⟨build64_of_build hg, ?_⟩
  obtain ⟨hn, hwf, -⟩ := build_wf hg
  subst hn
  obtain ⟨dist, hsp, hd⟩ := exactRun_cells hwf hex
  refine ⟨dist, hsp, ?_⟩
  intro i j k hi hj hk
  exact ⟨_, _, _, hd i j hi hj, hd i k hi hk, hd k j hk hj, loopKF_triangle hcyc hi hj hk⟩

theorem shortestPath64_triangle_witness :
    build 4 (finiteOps (wholeOps demoEdges)) = some demoWholeGraph ∧
    ExactRun (floatGraph demoWholeGraph) ∧
    (build64 4 (floatOps (finiteOps (wholeOps demoEdges))) = some (floatGraph demoWholeGraph) ∧
    ∃ dist, ShortestPath64 (floatGraph demoWholeGraph) = some dist ∧
      ∀ i j k, i < 4 → j < 4 → k < 4 →
        ∃ a b c : WithTop ℤ, getCell64 dist i j = some (ofExact a) ∧
          getCell64 dist i k = some (ofExact b) ∧
          getCell64 dist k j = some (ofExact c) ∧ a ≤ b + c) :=
  ⟨by decide, by decide,
    shortestPath64_triangle 4 (finiteOps (wholeOps demoEdges)) demoWholeGraph (by decide)
      (noNegCycle_of_nonneg demoWholeGraph (by decide)) (by decide)⟩


theorem ofExact_eq_pinf {x : WithTop ℤ} : ofExact x = F64.pinf ↔ x = ⊤ := by
  constructor
  · intro h
    exact ofExact_injective (h.trans rfl)
  · intro h
    rw [h]
    rfl

/-- C6, as stated, fails: after `NewGraph(3)`, `AddEdge(0,1,2¹⁰²³)`, `AddEdge(1,2,2¹⁰²³)`,
two calls with finite `float64` weights, there is the directed path `0 → 1 → 2` of
inserted edges and yet `GetShortestDistance(0, 2)` returns `+Inf`: the sum overflows. -/
theorem unreachable_counterexample :
    build64 3 (floatOps (finiteOps overflowEdges)) = some (floatGraph overflowGraph) ∧
    (∀ op ∈ overflowEdges, Representable op.2.2) ∧
    GetShortestDistance64 (floatGraph overflowGraph) 0 2 = some F64.pinf ∧
    IsInsertedPath 3 overflowEdges 0 2 [0, 1, 2] := by
  refine ⟨by decide, by decide, by decide, ⟨rfl, rfl, by decide⟩, ?_⟩
  exact List.chain'_cons.mpr ⟨⟨_, List.mem_cons_self _ _, rfl, rfl⟩,
    List.chain'_cons.mpr ⟨⟨_, List.mem_cons_of_mem _ (List.mem_cons_self _ _), rfl, rfl⟩,
      List.chain'_singleton _⟩⟩

/-- C6, amended.  Let `g` be obtained from `NewGraph n` by `AddEdge` calls with finite
weights, let no addition of two finite values that `ShortestPath` performs on `g` overflow
to `+Inf`, and let `i ≠ j` be vertices.  Then `GetShortestDistance(i, j)` returns `+Inf`
if and only if there is no directed path of inserted edges from `i` to `j`.  In particular
`NewGraph(3)` with the single call `AddEdge(0,1,4)` gives
`GetShortestDistance(1,0) = +Inf`. -/
theorem getShortestDistance64_unreachable (n : Nat) (ops : List (Int × Int × ℤ))
    (g : Graph ℤ) (hg : build n (finiteOps ops) = some g) (hrun : NoInfRun (floatGraph g))
    (i j : Nat) (hi : i < n) (hj : j < n) (hij : i ≠ j) :
    build64 n (floatOps (finiteOps ops)) = some (floatGraph g) ∧
    (∃ y, GetShortestDistance64 (floatGraph g) i j = some y ∧
      (y = F64.pinf ↔ ¬ ∃ p, IsInsertedPath n ops i j p)) ∧
    (build64 3 (floatOps (finiteOps (wholeOps [((0 : Int), (1 : Int), (4 : ℤ))])))).bind
      (fun g3 => GetShortestDistance64 g3 1 0) = some F64.pinf := by
  refine ⟨build64_of_build hg, ?_, by decide⟩
  obtain ⟨hn, hwf, -⟩ := build_wf hg
  have hfin := fun u v (hu : u < n) (hv : v < n) => cell_finite_iff n ops hg hu hv
  subst hn
  obtain ⟨dist, hsp, hd⟩ := guardedRun_cells noInfAdd
    (fun _ _ y x => y ≠ F64.nan ∧ (y = F64.pinf ↔ x = ⊤)) hwf
    (fun _ _ _ _ _ _ _ _ _ _ _ _ ha hb hc hok => relax_cell_inf ha hb hc hok)
    (fun a b _ _ => ⟨ofExact_ne_nan _, ofExact_eq_pinf⟩) hrun
  obtain ⟨y, hy, -, hiff⟩ := hd i j hi hj
  refine ⟨y, ?_, ?_⟩
  · rw [getShortestDistance64_of_cells hsp hi hj]
    exact hy
  rw [hiff]
  constructor
  · rintro htop ⟨p, hp⟩
    have hw : pathWeightF (cellFn g.edges) p ≠ ⊤ :=
      finite_of_insertedPath g.vertices ops (cellFn g.edges)
        (fun u v hu hv h => (hfin u v hu hv).mpr (Or.inr h)) hp
    exact loopKF_finite_of_route g.vertices (cellFn g.edges) hi hj hij hp.1 hw htop
  · intro hno
    by_contra hne
    obtain ⟨l, hl, hw⟩ := loopKF_realised g.vertices (cellFn g.edges) i j
    rw [← hw] at hne
    exact hno (insertedPath_of_walk g.vertices ops (cellFn g.edges)
      (fun u v hu hv h => (hfin u v hu hv).mp h) hj l i hi hl hne)

theorem getShortestDistance64_unreachable_witness :
    build 3 (finiteOps (wholeOps roundEdges)) = some roundGraph ∧
    NoInfRun (floatGraph roundGraph) ∧
    (build64 3 (floatOps (finiteOps (wholeOps roundEdges))) = some (floatGraph roundGraph) ∧
    (∃ y, GetShortestDistance64 (floatGraph roundGraph) ((2 : Nat) : Int)
        ((0 : Nat) : Int) = some y ∧
      (y = F64.pinf ↔ ¬ ∃ p, IsInsertedPath 3 (wholeOps roundEdges) 2 0 p)) ∧
    (build64 3 (floatOps (finiteOps (wholeOps [((0 : Int), (1 : Int), (4 : ℤ))])))).bind
      (fun g3 => GetShortestDistance64 g3 1 0) = some F64.pinf) :=
  ⟨by decide, by decide,
    getShortestDistance64_unreachable 3 (wholeOps roundEdges) roundGraph (by decide)
      (by decide) 2 0 (by decide) (by decide) (by decide)⟩

/-- C15, as stated, fails: on the graph of `NewGraph(3)`, `AddEdge(0,1,2⁵³)`,
`AddEdge(1,2,1)`, with a zero diagonal and no negative cycle, the cell `(0, 2)` of `dist`
after all three rounds is `2⁵³`, while every vertex sequence from `0` to `2` weighs at
least `2⁵³ + 1`, which is also the value `d₃[0][2]` of the layered recurrence. -/
theorem rounds_counterexample :
    build64 3 (floatOps (finiteOps (wholeOps roundEdges))) = some (floatGraph roundGraph) ∧
    (∀ op ∈ wholeOps roundEdges, Representable op.2.2) ∧
    roundGraph.WF ∧
    (∀ v, v < roundGraph.vertices → getCell roundGraph.edges v v = some 0) ∧
    NoNegCycle roundGraph ∧
    (∃ dist, (copyMatrix64 (floatGraph roundGraph)).bind (rounds64 relax64 3 3) = some dist ∧
      getCell64 dist 0 2 = some (ofExact (wcell 9007199254740992))) ∧
    layer (cellFn roundGraph.edges) 3 0 2 = wcell 9007199254740993 ∧
    ∀ p, IsRoute 3 0 2 p → (∀ v ∈ intermediates p, v < 3) →
      wcell 9007199254740993 ≤ pathWeight roundGraph p := by
  have hcyc : NoNegCycle roundGraph := noNegCycle_of_nonneg roundGraph (by decide)
  refine ⟨by decide, by decide, by decide, by decide, hcyc,
    ⟨floatMatrix [[0, wcell 9007199254740992, wcell 9007199254740992], [⊤, 0, wcell 1],
      [⊤, ⊤, 0]], by decide, by decide⟩, by decide, ?_⟩
  intro p hp _
  have h := loopKF_lower_route hcyc
    (fun v hv => cellFn_diag_zero (g := roundGraph) (by decide) v hv)
    (i := 0) (j := 2) (by decide) (by decide) hp
  have hv : loopKF roundGraph.vertices (cellFn roundGraph.edges) 0 2 =
      wcell 9007199254740993 := by decide
  rw [hv] at h
  exact h

/-- C15, amended.  Let `g` have an `n × n` matrix with a zero diagonal and no directed
cycle of negative total weight, let `m ≤ n`, and let no addition that `ShortestPath`
performs on `g` in its first `m` rounds be rounded or overflow.  After the rounds
`k = 0, ..., m - 1` of the outer loop, the cell `(i, j)` of `dist` holds a number that is
at most the total weight of every vertex sequence from `i` to `j` whose intermediate
vertices are smaller than `m` (a missing edge weighs `⊤`), is the total weight of one of
them, and is the value `d_m[i][j]` of the layered recurrence in exact arithmetic; after
all `n` rounds `dist` is the result of `ShortestPath`. -/
theorem rounds64_layered (g : Graph ℤ) (hg : g.WF)
    (h0 : ∀ v, v < g.vertices → getCell g.edges v v = some 0) (hcyc : NoNegCycle g)
    (m : Nat) (hm : m ≤ g.vertices) (hex : ExactRounds (floatGraph g) m) :
    (∃ dist, (copyMatrix64 (floatGraph g)).bind (rounds64 relax64 g.vertices m) = some dist ∧
      ∀ i j, i < g.vertices → j < g.vertices →
        ∃ x, getCell64 dist i j = some (ofExact x) ∧
        (∀ p, IsRoute g.vertices i j p → (∀ v ∈ intermediates p, v < m) →
          x ≤ pathWeight g p) ∧
        (∃ p, IsRoute g.vertices i j p ∧ (∀ v ∈ intermediates p, v < m) ∧
          pathWeight g p = x) ∧
        x = layer (cellFn g.edges) m i j) ∧
    (copyMatrix64 (floatGraph g)).bind (rounds64 relax64 g.vertices g.vertices) =
      ShortestPath64 (floatGraph g) := by
  refine ⟨?_, rfl⟩
  obtain ⟨dist, hr, hd⟩ := exactRounds_cells hg hm hex
  refine ⟨dist, hr, ?_⟩
  intro i j hi hj
  have hcw := noNegCycle_closedWalk hcyc
  have hR := roundsF_seq g.vertices (cellFn g.edges)
  have hL := layer_seq g.vertices (cellFn g.edges)
  have hlowR := fun l hl => seq_lower_walk g.vertices (cellFn g.edges)
    (fun m => roundsF g.vertices m (cellFn g.edges)) hR.1 hR.2.1 hR.2.2 hcw hm hi hj l hl
  have hlowL := fun l hl => seq_lower_walk g.vertices (cellFn g.edges)
    (layer (cellFn g.edges)) hL.1 hL.2.1 hL.2.2 hcw hm hi hj l hl
  obtain ⟨lR, hlR, hwR⟩ := roundsF_realised g.vertices m (cellFn g.edges) i j
  obtain ⟨lL, hlL, hwL⟩ := layer_realised (cellFn g.edges) m i j
  refine ⟨roundsF g.vertices m (cellFn g.edges) i j, hd i j hi hj, ?_, ?_, ?_⟩
  · intro p hp hint
    rcases route_cases hp with ⟨rfl, rfl⟩ | ⟨l, rfl, -⟩
    · have h := seq_le (cellFn g.edges) (fun m => roundsF g.vertices m (cellFn g.edges))
        hR.1 hR.2.1 m i i
      rw [cellFn_diag_zero h0 i hi] at h
      simpa [pathWeight, pathWeightF] using h
    · rw [intermediates_walk] at hint
      rw [pathWeight, pathWeightF_walk]
      exact hlowR l hint
  · refine ⟨i :: (lR ++ [j]), route_of_walk hi hj (fun v hv => ?_), ?_, ?_⟩
    · exact Nat.lt_of_lt_of_le (hlR v hv) hm
    · rw [intermediates_walk]
      exact hlR
    · rw [pathWeight, pathWeightF_walk, hwR]
  · apply le_antisymm
    · rw [← hwL]
      exact hlowR lL hlL
    · rw [← hwR]
      exact hlowL lR hlR

theorem rounds64_layered_witness :
    demoWholeGraph.WF ∧ ExactRounds (floatGraph demoWholeGraph) 2 ∧
    ((∃ dist, (copyMatrix64 (floatGraph demoWholeGraph)).bind
        (rounds64 relax64 demoWholeGraph.vertices 2) = some dist ∧
      ∀ i j, i < demoWholeGraph.vertices → j < demoWholeGraph.vertices →
        ∃ x, getCell64 dist i j = some (ofExact x) ∧
        (∀ p, IsRoute demoWholeGraph.vertices i j p → (∀ v ∈ intermediates p, v < 2) →
          x ≤ pathWeight demoWholeGraph p) ∧
        (∃ p, IsRoute demoWholeGraph.vertices i j p ∧ (∀ v ∈ intermediates p, v < 2) ∧
          pathWeight demoWholeGraph p = x) ∧
        x = layer (cellFn demoWholeGraph.edges) 2 i j) ∧
    (copyMatrix64 (floatGraph demoWholeGraph)).bind
        (rounds64 relax64 demoWholeGraph.vertices demoWholeGraph.vertices) =
      ShortestPath64 (floatGraph demoWholeGraph)) :=
  ⟨by decide, by decide,
    rounds64_layered demoWholeGraph (by decide) (by decide)
      (noNegCycle_of_nonneg demoWholeGraph (by decide)) 2 (by decide) (by decide)⟩

/-- C17, as stated, fails: on the graph of `NewGraph(3)`, `AddEdge(0,1,2⁵³+2)`,
`AddEdge(1,2,1)`, with a zero diagonal, the cell `(0, 2)` of the result of `ShortestPath`
is `2⁵³ + 4`, above the total weight `2⁵³ + 3` of the simple path `0 → 1 → 2`: the sum is
rounded upwards. -/
theorem simple_path_counterexample :
    build64 3 (floatOps (finiteOps (wholeOps roundUpEdges))) =
      some (floatGraph roundUpGraph) ∧
    (∀ op ∈ wholeOps roundUpEdges, Representable op.2.2) ∧
    roundUpGraph.WF ∧
    (∀ v, v < roundUpGraph.vertices → getCell roundUpGraph.edges v v = some 0) ∧
    IsRoute roundUpGraph.vertices 0 2 [0, 1, 2] ∧ [0, 1, 2].Nodup ∧
    pathWeight roundUpGraph [0, 1, 2] = wcell 9007199254740995 ∧
    ∃ dist, ShortestPath64 (floatGraph roundUpGraph) = some dist ∧
      getCell64 dist 0 2 = some (ofExact (wcell 9007199254740996)) ∧
      ¬ (wcell 9007199254740996 ≤ pathWeight roundUpGraph [0, 1, 2]) :=
  ⟨by decide, by decide, by decide, by decide, by decide, by decide, by decide,
    floatMatrix [[0, wcell 9007199254740994, wcell 9007199254740996], [⊤, 0, wcell 1],
      [⊤, ⊤, 0]], by decide, by decide, by decide⟩

/-- C17, amended.  For every graph with an `n × n` matrix and a zero diagonal, negative
weights and negative cycles allowed, on which no addition that `ShortestPath` performs is
rounded upwards, and every sequence `p` of pairwise distinct vertices from `i` to `j`,
hence every simple directed path, the cell `(i, j)` of the result of `ShortestPath` holds
a value that is at most the total weight of `p`. -/
theorem shortestPath64_le_simple_path (g : Graph ℤ) (hg : g.WF)
    (h0 : ∀ v, v < g.vertices → getCell g.edges v v = some 0)
    (hrun : NoRoundUpRun (floatGraph g)) (i j : Nat)
    (hi : i < g.vertices) (hj : j < g.vertices) (p : List Nat)
    (hp : IsRoute g.vertices i j p) (hnd : p.Nodup) :
    ∃ dist y, ShortestPath64 (floatGraph g) = some dist ∧
      getCell64 dist i j = some y ∧ leExact y (pathWeight g p) := by
  obtain ⟨dist, hsp, hd⟩ := guardedRun_cells noUpAdd (fun _ _ y x => leExact y x) hg
    (fun _ _ _ _ _ _ _ _ _ _ _ _ ha hb hc hok => relax_cell_le ha hb hc hok)
    (fun a b _ _ => leExact_ofExact _) hrun
  obtain ⟨y, hy, hle⟩ := hd i j hi hj
  exact ⟨dist, y, hsp, hy,
    leExact_mono hle (loopKF_lower_simple (cellFn_diag_zero h0) hi hj hp hnd)⟩

theorem shortestPath64_le_simple_path_witness :
    roundGraph.WF ∧ NoRoundUpRun (floatGraph roundGraph) ∧
    IsRoute roundGraph.vertices 0 2 [0, 1, 2] ∧
    ∃ dist y, ShortestPath64 (floatGraph roundGraph) = some dist ∧
      getCell64 dist 0 2 = some y ∧ leExact y (pathWeight roundGraph [0, 1, 2]) :=
  ⟨by decide, by decide, by decide,
    shortestPath64_le_simple_path roundGraph (by decide) (by decide) (by decide) 0 2
      (by decide) (by decide) [0, 1, 2] (by decide) (by decide)⟩

/-- C18, as stated, fails: on the graph of `NewGraph(3)`, `AddEdge(0,1,2⁵³)`,
`AddEdge(1,2,1)`, with a zero diagonal, the cell `(0, 2)` of the result of `ShortestPath`
is the finite value `2⁵³`, and no directed walk from `0` to `2` has that total weight:
each weighs at least `2⁵³ + 1`. -/
theorem realised_counterexample :
    build64 3 (floatOps (finiteOps (wholeOps roundEdges))) = some (floatGraph roundGraph) ∧
    (∀ op ∈ wholeOps roundEdges, Representable op.2.2) ∧
    roundGraph.WF ∧
    (∀ v, v < roundGraph.vertices → getCell roundGraph.edges v v = some 0) ∧
    (∃ dist, ShortestPath64 (floatGraph roundGraph) = some dist ∧
      getCell64 dist 0 2 = some (ofExact (wcell 9007199254740992))) ∧
    wcell 9007199254740992 ≠ ⊤ ∧
    ∀ p, IsPath roundGraph 0 2 p → pathWeight roundGraph p ≠ wcell 9007199254740992 := by
  have hcyc : NoNegCycle roundGraph := noNegCycle_of_nonneg roundGraph (by decide)
  refine ⟨by decide, by decide, by decide, by decide,
    ⟨floatMatrix [[0, wcell 9007199254740992, wcell 9007199254740992], [⊤, 0, wcell 1],
      [⊤, ⊤, 0]], by decide, by decide⟩, by decide, ?_⟩
  intro p hp heq
  have h := loopKF_lower_route hcyc
    (fun v hv => cellFn_diag_zero (g := roundGraph) (by decide) v hv)
    (i := 0) (j := 2) (by decide) (by decide) hp.1
  have hv : loopKF roundGraph.vertices (cellFn roundGraph.edges) 0 2 =
      wcell 9007199254740993 := by decide
  rw [hv, heq] at h
  exact absurd h (by decide)

/-- C18, amended.  For every graph with an `n × n` matrix and a zero diagonal, negative
cycles allowed, on which no addition that `ShortestPath` performs is rounded or overflows:
if the cell `(i, j)` of the result of `ShortestPath` is finite then it is the total weight
of a directed walk from `i` to `j` along stored finite edges, which may repeat vertices
and is the empty walk `[i]` when it has no edge. -/
theorem shortestPath64_realised (g : Graph ℤ) (hg : g.WF)
    (h0 : ∀ v, v < g.vertices → getCell g.edges v v = some 0)
    (hex : ExactRun (floatGraph g)) (i j : Nat)
    (hi : i < g.vertices) (hj : j < g.vertices) :
    ∃ dist x, ShortestPath64 (floatGraph g) = some dist ∧
      getCell64 dist i j = some (ofExact x) ∧
      (x ≠ ⊤ → ∃ p, IsPath g i j p ∧ pathWeight g p = x) := by
  obtain ⟨dist, hsp, hd⟩ := exactRun_cells hg hex
  refine ⟨dist, _, hsp, hd i j hi hj, ?_⟩
  intro hfin
  obtain ⟨l, hl, hw⟩ := loopKF_realised g.vertices (cellFn g.edges) i j
  have hroute := route_of_walk hi hj hl
  have hpw : pathWeightF (cellFn g.edges) (i :: (l ++ [j])) ≠ ⊤ := by
    rw [pathWeightF_walk, hw]
    exact hfin
  obtain ⟨q, hh, hlast, hr, hch, hq⟩ := exists_path_of_finite_route g.vertices
    (cellFn g.edges) (cellFn_diag_zero h0) (i :: (l ++ [j])) hroute.2.2 hpw
  refine ⟨q, ⟨⟨hh.trans hroute.1, hlast.trans hroute.2.1, hr⟩, hch⟩, ?_⟩
  rw [pathWeight, hq, pathWeightF_walk, hw]

theorem shortestPath64_realised_witness :
    demoWholeGraph.WF ∧ ExactRun (floatGraph demoWholeGraph) ∧
    ∃ dist x, ShortestPath64 (floatGraph demoWholeGraph) = some dist ∧
      getCell64 dist 0 3 = some (ofExact x) ∧
      (x ≠ ⊤ → ∃ p, IsPath demoWholeGraph 0 3 p ∧ pathWeight demoWholeGraph p = x) :=
  ⟨by decide, by decide,
    shortestPath64_realised demoWholeGraph (by decide) (by decide) (by decide) 0 3
      (by decide) (by decide)⟩

end DirectedGraph
